import Mathlib

/-!
The lexer, the parser and the evaluator of `eval-math-expr`.

A shallow embedding of `src/eval-math-expr/main.cc`.

Modelling conventions.

* `double` values are modelled by exact rationals (`ℚ`): the rounding to
  `double` is not modelled.  The examples only use values and operations that
  are exact in `double`, and the general properties take the value that
  `std::stod` returns as it is given.  No general property is stated about the
  values of `evaluate`: in `ℚ` a division by 0 gives 0, where `double` gives an
  infinity or a NaN.
* `std::stod` is modelled on the alphabet that can reach the numeric buffer
  (digits, `.` and `-`): it converts the longest prefix that is a decimal
  literal, throws `std::invalid_argument` when that prefix has no digit, and
  throws `std::out_of_range` when the value of the literal is outside the range
  of `double`.
* A token range `[begin, end)` is modelled by the list of the tokens in it.
* The `int` parenthesis counters are modelled by unbounded numbers.
* A run that aborts is modelled by `Except.error`: `assertion` for `assert(0)`,
  `invalid_argument` and `out_of_range` for the exceptions of `std::stod`, and
  `empty_range` for the empty range, on which `parse` dereferences `*begin` with `begin == end`,
  a token that is not in the range (undefined behaviour in C++).
* One call of `parse` is also modelled on the iterators themselves, as
  positions in the token vector (`parseStep`); there a read outside the vector
  is the failure `out_of_bounds` (undefined behaviour in C++).
* The input is a list of characters; `std::isdigit` is the test for the
  characters `0` to `9`.
* A tree holds the type of an operator, not its token: the in-order traversal
  and the printed tokens of a tree are built with `make_token`, as `lex` builds
  them, with the value 0 in operator and parenthesis tokens.
* The text that `operator<<` writes for the value of a number token is the
  text of the conversion `%g` with the precision 6, the default format of the
  stream (`printDouble`).
-/

namespace EvalMathExpr

/-! ## Data model -/

/-- The enum `TokenType`. -/
inductive TokenType
  | MUL
  | DIV
  | ADD
  | SUB
  | LEFT_PAREN
  | RIGHT_PAREN
  | NUMBER
  deriving DecidableEq, Repr

/-- The struct `Token`: a type and a value (the value is used for numbers). -/
structure Token where
  type : TokenType
  value : ℚ
  deriving DecidableEq

/-- The tagged union `Expr`: the tag `ExprType` selects the active member, a
number or the two owned sub-expressions. -/
inductive Expr
  | NUMBER (number : ℚ)
  | ADD (ex1 ex2 : Expr)
  | SUB (ex1 ex2 : Expr)
  | MUL (ex1 ex2 : Expr)
  | DIV (ex1 ex2 : Expr)
  deriving DecidableEq

/-- The ways in which a run of the program aborts. -/
inductive Failure
  | assertion
  | invalid_argument
  | out_of_range
  | empty_range
  | out_of_bounds
  deriving DecidableEq, Repr

/-- The lambda `make_token` of `lex`, as a value: the token that is pushed. -/
def make_token (t : TokenType) (num : ℚ) : Token := ⟨t, num⟩

/-! ## Parser -/

/-- The loop of the `PARENS` block of `parse`: a forward pass over the range
that computes `is_lone_paren`. -/
def loneParenLoop : List Token → Nat → Nat → Bool → Bool → Bool
  | [], _, _, _, is_lone_paren => is_lone_paren
  | t :: rest, left_paren_counter, right_paren_counter, some_found, is_lone_paren =>
    let is_lone_paren1 :=
      if some_found && left_paren_counter == right_paren_counter then false else is_lone_paren
    if t.type = TokenType.LEFT_PAREN then
      loneParenLoop rest (left_paren_counter + 1) right_paren_counter true is_lone_paren1
    else if t.type = TokenType.RIGHT_PAREN then
      loneParenLoop rest left_paren_counter (right_paren_counter + 1) true is_lone_paren1
    else
      loneParenLoop rest left_paren_counter right_paren_counter some_found is_lone_paren1

/-- The value of `is_lone_paren` after the loop of the `PARENS` block. -/
def isLoneParen (ts : List Token) : Bool := loneParenLoop ts 0 0 false true

/-- The backward loops of the `TERMS` and `MUL, DIV` blocks of `parse`.  The
first argument says which token types the loop looks for; `before` holds the
tokens not yet visited, last first, and `after` the tokens already visited, in
range order.  On a hit the result is the range `[begin, token)`, the token and
the range `(token, end)`. -/
def splitLoop (isOp : TokenType → Bool) :
    List Token → List Token → Nat → Nat → Option (List Token × Token × List Token)
  | [], _, _, _ => none
  | t :: before, after, left_paren_counter, right_paren_counter =>
    if isOp t.type && left_paren_counter == right_paren_counter then
      some (before.reverse, t, after)
    else if t.type = TokenType.LEFT_PAREN then
      splitLoop isOp before (t :: after) (left_paren_counter + 1) right_paren_counter
    else if t.type = TokenType.RIGHT_PAREN then
      splitLoop isOp before (t :: after) left_paren_counter (right_paren_counter + 1)
    else
      splitLoop isOp before (t :: after) left_paren_counter right_paren_counter

/-- The test of the `TERMS` loop: `ADD` or `SUB`. -/
def isTerm (t : TokenType) : Bool := t = TokenType.ADD || t = TokenType.SUB

/-- The test of the `MUL, DIV` loop: `MUL` or `DIV`. -/
def isFactor (t : TokenType) : Bool := t = TokenType.MUL || t = TokenType.DIV

/-- The backward scan of a block of `parse` over the whole range. -/
def findSplit (isOp : TokenType → Bool) (ts : List Token) :
    Option (List Token × Token × List Token) :=
  splitLoop isOp ts.reverse [] 0 0

/-- The construction `std::make_unique<Expr>(type, parse(..), parse(..))`: the
node is built when both operands are parsed.  The left operand is looked at
first (C++ leaves the order open; it only decides which failure is reported
when both operands fail). -/
def makeBinary (type : Expr → Expr → Expr) :
    Except Failure Expr → Except Failure Expr → Except Failure Expr
  | Except.ok ex1, Except.ok ex2 => Except.ok (type ex1 ex2)
  | Except.error f, _ => Except.error f
  | Except.ok _, Except.error f => Except.error f

/-- The body of `parse(begin, end)` on the range `ts`; the recursive calls go
to `self`. -/
def parseBody (self : List Token → Except Failure Expr) (ts : List Token) :
    Except Failure Expr :=
  match ts with
  | [] => Except.error Failure.empty_range
  | first :: _ =>
    -- NUMBER
    if ts.length = 1 ∧ first.type = TokenType.NUMBER then
      Except.ok (Expr.NUMBER first.value)
    -- PARENS
    else if first.type = TokenType.LEFT_PAREN
        ∧ ts.getLast?.map Token.type = some TokenType.RIGHT_PAREN
        ∧ isLoneParen ts = true then
      self ts.tail.dropLast
    else
      -- TERMS
      match findSplit isTerm ts with
      | some (l, token, r) =>
        makeBinary (if token.type = TokenType.ADD then Expr.ADD else Expr.SUB) (self l) (self r)
      | none =>
        -- MUL, DIV
        match findSplit isFactor ts with
        | some (l, token, r) =>
          makeBinary (if token.type = TokenType.MUL then Expr.MUL else Expr.DIV) (self l) (self r)
        | none => Except.error Failure.assertion

/-- The function `parse(begin, end)` with a bound on the depth of the
recursion.  The value at the bound 0 is never used by `parse`: its recursive
calls are on shorter ranges and it starts above the length of the range. -/
def parseFuel : Nat → List Token → Except Failure Expr
  | 0, _ => Except.error Failure.empty_range
  | fuel + 1, ts => parseBody (parseFuel fuel) ts

/-- The function `parse(tokens)`.  Every recursive call is on a shorter range,
so a bound above the length of the range is never used up (`parse_eq`). -/
def parse (tokens : List Token) : Except Failure Expr :=
  parseFuel (tokens.length + 1) tokens

/-! ## Evaluator -/

/-- The function `evaluate`, on exact values.  The arithmetic of `double` is
not modelled: the function agrees with the code where the operations are exact
in `double` and no divisor is 0, as in the examples; no general property is
stated about its values. -/
def evaluate : Expr → ℚ
  | Expr.NUMBER number => number
  | Expr.MUL ex1 ex2 => evaluate ex1 * evaluate ex2
  | Expr.DIV ex1 ex2 => evaluate ex1 / evaluate ex2
  | Expr.ADD ex1 ex2 => evaluate ex1 + evaluate ex2
  | Expr.SUB ex1 ex2 => evaluate ex1 - evaluate ex2

/-! ## Lexer -/

/-- The number written by a string of decimal digits. -/
def digitsValue (ds : List Char) : Nat :=
  ds.foldl (fun acc c => 10 * acc + (c.toNat - 48)) 0

/-- The least value that rounds beyond the largest `double`:
`2 ^ 1024 - 2 ^ 970`, half a unit in the last place above `DBL_MAX`. -/
def overflowBound : Nat := (2 ^ 54 - 1) * (2 ^ 97) ^ 10

/-- The reciprocal of the least normal `double`, `2 ^ (-1022)`. -/
def normalBound : Nat := (2 ^ 146) ^ 7

/-- The conversion of a decimal literal to `double` by `std::stod`, given its
sign and its digits before and after the decimal point.  With no digit there
is no conversion (`std::invalid_argument`).  When the value is outside the
range of `double` the conversion throws `std::out_of_range`: from
`overflowBound` on, and for a value other than 0 below the least normal
`double`, where the result is tiny (whether a tiny result is an error when it
is exact is left to the C library; the model takes every tiny result as an
error).  Inside the range the result is the exact value of the literal: the
rounding to `double` is not modelled. -/
def toDouble (negative : Bool) (whole fraction : List Char) : Except Failure ℚ :=
  if whole = [] ∧ fraction = [] then
    Except.error Failure.invalid_argument
  else if overflowBound * 10 ^ fraction.length ≤ digitsValue (whole ++ fraction) then
    Except.error Failure.out_of_range
  else if 0 < digitsValue (whole ++ fraction)
      ∧ digitsValue (whole ++ fraction) * normalBound < 10 ^ fraction.length then
    Except.error Failure.out_of_range
  else if negative then
    Except.ok (mkRat (-(digitsValue (whole ++ fraction) : Int)) (10 ^ fraction.length))
  else
    Except.ok (mkRat (digitsValue (whole ++ fraction) : Int) (10 ^ fraction.length))

/-- The library function `std::stod` on the numeric buffer: an optional sign,
digits, an optional `.` and digits; the longest such prefix is converted and
the rest of the text is ignored. -/
def stod (number : List Char) : Except Failure ℚ :=
  let negative : Bool := number.head? = some '-'
  let body : List Char :=
    if number.head? = some '-' ∨ number.head? = some '+' then number.tail else number
  let whole : List Char := body.takeWhile Char.isDigit
  let fraction : List Char :=
    match body.dropWhile Char.isDigit with
    | '.' :: rest => rest.takeWhile Char.isDigit
    | _ => []
  toDouble negative whole fraction

/-- The local variables of `lex` that live across the iterations of its loop. -/
structure LexState where
  tokens : List Token
  number : List Char
  add_extra_paren : Bool
  extra_paren_count : Int
  deriving DecidableEq

/-- The third disjunct of the first test of the loop of `lex`: the character is
a `-` that is taken as the sign of a number.  `prev` and `next` are the
neighbours of the character in the input, absent at the two ends. -/
def isSign (prev : Option Char) (c : Char) (next : Option Char) (tokens : List Token) : Bool :=
  c = '-'
    && (match next with
        | none => false
        | some n => n.isDigit || n = '(')
    && (match prev with
        | none => true
        | some p => !p.isDigit)
    && (match tokens.getLast? with
        | none => true
        | some t => t.type ≠ TokenType.NUMBER)

/-- The block `if (!number.empty())` inside the loop of `lex`, entered with the
character `c` that ends the number. -/
def flush (c : Char) (st : LexState) : Except Failure LexState :=
  if st.number = [] then
    Except.ok st
  else
    let number : List Char := if st.number = ['-'] then ['-', '1'] else st.number
    if c = '(' then
      let div_quirk : Bool :=
        match st.tokens.getLast? with
        | none => false
        | some t => t.type = TokenType.DIV
      let tokens1 : List Token :=
        if div_quirk then st.tokens ++ [make_token TokenType.LEFT_PAREN 0] else st.tokens
      let add_extra_paren1 : Bool := if div_quirk then true else st.add_extra_paren
      match stod number with
      | Except.error f => Except.error f
      | Except.ok v =>
        Except.ok
          { tokens := tokens1 ++ [make_token TokenType.NUMBER v, make_token TokenType.MUL 0]
            number := []
            add_extra_paren := add_extra_paren1
            extra_paren_count := st.extra_paren_count }
    else
      match stod number with
      | Except.error f => Except.error f
      | Except.ok v =>
        Except.ok
          { tokens := st.tokens ++ [make_token TokenType.NUMBER v]
            number := []
            add_extra_paren := st.add_extra_paren
            extra_paren_count := st.extra_paren_count }

/-- Push one token without a value. -/
def emit (t : TokenType) (st : LexState) : LexState :=
  { st with tokens := st.tokens ++ [make_token t 0] }

/-- The part of the loop body of `lex` after the flush of the number. -/
def lexChar (c : Char) (st : LexState) : Except Failure LexState :=
  if c = ' ' then
    Except.ok st
  else if c = '*' then
    Except.ok (emit TokenType.MUL st)
  else if c = '/' then
    Except.ok (emit TokenType.DIV st)
  else if c = '+' then
    Except.ok (emit TokenType.ADD st)
  else if c = '-' then
    Except.ok (emit TokenType.SUB st)
  else if c = '(' then
    let count : Int :=
      if st.add_extra_paren then st.extra_paren_count + 1 else st.extra_paren_count
    Except.ok
      { tokens := st.tokens ++ [make_token TokenType.LEFT_PAREN 0]
        number := st.number
        add_extra_paren := st.add_extra_paren
        extra_paren_count := count }
  else if c = ')' then
    let count : Int :=
      if st.add_extra_paren then st.extra_paren_count - 1 else st.extra_paren_count
    if st.add_extra_paren ∧ count = 0 then
      Except.ok
        { tokens := st.tokens ++ [make_token TokenType.RIGHT_PAREN 0,
            make_token TokenType.RIGHT_PAREN 0]
          number := st.number
          add_extra_paren := false
          extra_paren_count := 0 }
    else
      Except.ok
        { tokens := st.tokens ++ [make_token TokenType.RIGHT_PAREN 0]
          number := st.number
          add_extra_paren := st.add_extra_paren
          extra_paren_count := count }
  else
    Except.error Failure.assertion

/-- One iteration of the loop of `lex`, at the character `c`. -/
def lexStep (prev : Option Char) (c : Char) (next : Option Char) (st : LexState) :
    Except Failure LexState :=
  if c.isDigit ∨ c = '.' ∨ isSign prev c next st.tokens = true then
    Except.ok { st with number := st.number ++ [c] }
  else
    match flush c st with
    | Except.error f => Except.error f
    | Except.ok st1 => lexChar c st1

/-- The loop of `lex` over the rest of the input; `prev` is the character
before the rest. -/
def lexLoop : Option Char → List Char → LexState → Except Failure LexState
  | _, [], st => Except.ok st
  | prev, c :: rest, st =>
    match lexStep prev c rest.head? st with
    | Except.error f => Except.error f
    | Except.ok st1 => lexLoop (some c) rest st1

/-- The state of `lex` before its loop. -/
def LexState.init : LexState :=
  { tokens := [], number := [], add_extra_paren := false, extra_paren_count := 0 }

/-- The end of `lex`: a pending number becomes the last token. -/
def lexEnd (st : LexState) : Except Failure (List Token) :=
  if st.number = [] then
    Except.ok st.tokens
  else
    match stod st.number with
    | Except.error f => Except.error f
    | Except.ok v => Except.ok (st.tokens ++ [make_token TokenType.NUMBER v])

/-- The function `lex` on the characters of the input. -/
def lexChars (input : List Char) : Except Failure (List Token) :=
  match lexLoop none input LexState.init with
  | Except.error f => Except.error f
  | Except.ok st => lexEnd st

/-- The function `lex`. -/
def lex (input : String) : Except Failure (List Token) :=
  lexChars input.data

/-- The first two statements of `main`: the tree that `parse` builds from the
tokens of `lex`. -/
def mainExpr (input : String) : Except Failure Expr :=
  match lex input with
  | Except.error f => Except.error f
  | Except.ok tokens => parse tokens

/-- The body of `main` up to the value that is printed: `lex`, then `parse`,
then `evaluate`. -/
def run (input : String) : Except Failure ℚ :=
  match mainExpr input with
  | Except.error f => Except.error f
  | Except.ok exp => Except.ok (evaluate exp)

/-! ## Counting parentheses -/

/-- The number of `LEFT_PAREN` tokens of a range. -/
def leftParens (ts : List Token) : Nat :=
  ts.countP (fun t => t.type = TokenType.LEFT_PAREN)

/-- The number of `RIGHT_PAREN` tokens of a range. -/
def rightParens (ts : List Token) : Nat :=
  ts.countP (fun t => t.type = TokenType.RIGHT_PAREN)

/-- No token of the range is a hit of the backward loop that looks for `isOp`:
an `isOp` token always has different numbers of `LEFT_PAREN` and `RIGHT_PAREN`
tokens to its right. -/
def NoSplit (isOp : TokenType → Bool) (ts : List Token) : Prop :=
  ∀ l t r, ts = l ++ t :: r → isOp t.type = true → leftParens r ≠ rightParens r

/-- The parentheses of a range match: no prefix closes more than it opens, and
the whole range closes all it opens. -/
def Balanced (ts : List Token) : Prop :=
  (∀ p, p <+: ts → rightParens p ≤ leftParens p) ∧ leftParens ts = rightParens ts

/-! ## Notions used to state the properties -/

/-- The node `BinaryOp(op, l, r)` for the type of an operator token (`ADD`,
`SUB`, `MUL` or `DIV`). -/
def binaryOp (op : TokenType) (ex1 ex2 : Expr) : Expr :=
  match op with
  | TokenType.ADD => Expr.ADD ex1 ex2
  | TokenType.SUB => Expr.SUB ex1 ex2
  | TokenType.MUL => Expr.MUL ex1 ex2
  | _ => Expr.DIV ex1 ex2

/-- The tokens `op1 n1 op2 n2 ... opk nk` of a list of (operator, number)
pairs. -/
def chain : List (Token × Token) → List Token
  | [] => []
  | p :: rest => p.1 :: p.2 :: chain rest

/-- The left-nested tree `((n0 op1 n1) op2 n2) ... opk nk`. -/
def leftNested (n0 : Token) (rest : List (Token × Token)) : Expr :=
  rest.foldl (fun acc p => binaryOp p.1.type acc (Expr.NUMBER p.2.value)) (Expr.NUMBER n0.value)

/-- The tree has an `ADD` or `SUB` node. -/
def hasTerm : Expr → Bool
  | Expr.NUMBER _ => false
  | Expr.ADD _ _ => true
  | Expr.SUB _ _ => true
  | Expr.MUL ex1 ex2 => hasTerm ex1 || hasTerm ex2
  | Expr.DIV ex1 ex2 => hasTerm ex1 || hasTerm ex2

/-- No `ADD` or `SUB` node of the tree is below a `MUL` or `DIV` node. -/
def respectsPrecedence : Expr → Bool
  | Expr.NUMBER _ => true
  | Expr.ADD ex1 ex2 => respectsPrecedence ex1 && respectsPrecedence ex2
  | Expr.SUB ex1 ex2 => respectsPrecedence ex1 && respectsPrecedence ex2
  | Expr.MUL ex1 ex2 => !hasTerm ex1 && !hasTerm ex2
  | Expr.DIV ex1 ex2 => !hasTerm ex1 && !hasTerm ex2

/-- The state of `lex` with the tokens `pre` put before its tokens. -/
def LexState.prepend (pre : List Token) (st : LexState) : LexState :=
  { st with tokens := pre ++ st.tokens }

/-- The three conditions of the unary-minus rule in the words of the
specification: (a) a next character exists and is a digit or `(`; (b) the `-`
is the first character or the character before it is not a digit; (c) no token
has been emitted yet or the last emitted token is not a `Number`. -/
def SignConditions (prev next : Option Char) (tokens : List Token) : Prop :=
  (∃ n, next = some n ∧ (n.isDigit = true ∨ n = '('))
    ∧ (prev = none ∨ ∃ p, prev = some p ∧ p.isDigit = false)
    ∧ (tokens = [] ∨ ∃ t, tokens.getLast? = some t ∧ t.type ≠ TokenType.NUMBER)

/-- A non-empty string of decimal digits. -/
def IsDigits (d : String) : Prop :=
  d.data ≠ [] ∧ ∀ c ∈ d.data, c.isDigit = true

/-- The derivations of the grammar of expressions
`E ::= E ('+'|'-') T | T`, `T ::= T ('*'|'/') F | F`,
`F ::= unsigned-number | '(' E ')'`, as trees; an unsigned number is given by
the digits before and after its decimal point (no point when there are no
digits after it). -/
inductive Derivation
  | num (whole fraction : List Char)
  | add (a b : Derivation)
  | sub (a b : Derivation)
  | mul (a b : Derivation)
  | div (a b : Derivation)
  | group (e : Derivation)

/-- The number that an unsigned decimal literal denotes. -/
def numberValue (whole fraction : List Char) : ℚ :=
  mkRat (digitsValue (whole ++ fraction) : Int) (10 ^ fraction.length)

/-- The text of a derivation. -/
def Derivation.print : Derivation → List Char
  | Derivation.num whole fraction => if fraction = [] then whole else whole ++ '.' :: fraction
  | Derivation.add a b => a.print ++ '+' :: b.print
  | Derivation.sub a b => a.print ++ '-' :: b.print
  | Derivation.mul a b => a.print ++ '*' :: b.print
  | Derivation.div a b => a.print ++ '/' :: b.print
  | Derivation.group e => '(' :: (e.print ++ [')'])

/-- The tokens of a derivation, one for each number, operator and parenthesis. -/
def Derivation.tokens : Derivation → List Token
  | Derivation.num whole fraction => [make_token TokenType.NUMBER (numberValue whole fraction)]
  | Derivation.add a b => a.tokens ++ make_token TokenType.ADD 0 :: b.tokens
  | Derivation.sub a b => a.tokens ++ make_token TokenType.SUB 0 :: b.tokens
  | Derivation.mul a b => a.tokens ++ make_token TokenType.MUL 0 :: b.tokens
  | Derivation.div a b => a.tokens ++ make_token TokenType.DIV 0 :: b.tokens
  | Derivation.group e => make_token TokenType.LEFT_PAREN 0
      :: (e.tokens ++ [make_token TokenType.RIGHT_PAREN 0])

/-- The standard reading of a derivation: the tree with one node for each
operator; parentheses only group. -/
def Derivation.reading : Derivation → Expr
  | Derivation.num whole fraction => Expr.NUMBER (numberValue whole fraction)
  | Derivation.add a b => Expr.ADD a.reading b.reading
  | Derivation.sub a b => Expr.SUB a.reading b.reading
  | Derivation.mul a b => Expr.MUL a.reading b.reading
  | Derivation.div a b => Expr.DIV a.reading b.reading
  | Derivation.group e => e.reading

/-- The library function `std::stod` converts every number of the derivation
to the number that it denotes. -/
def Derivation.converts : Derivation → Bool
  | Derivation.num whole fraction =>
    match stod (Derivation.num whole fraction).print with
    | Except.ok v => decide (v = numberValue whole fraction)
    | Except.error _ => false
  | Derivation.add a b => a.converts && b.converts
  | Derivation.sub a b => a.converts && b.converts
  | Derivation.mul a b => a.converts && b.converts
  | Derivation.div a b => a.converts && b.converts
  | Derivation.group e => e.converts

/-- The text of the derivation ends with `)`. -/
def Derivation.endsWithGroup : Derivation → Bool
  | Derivation.num _ _ => false
  | Derivation.add _ b => b.endsWithGroup
  | Derivation.sub _ b => b.endsWithGroup
  | Derivation.mul _ b => b.endsWithGroup
  | Derivation.div _ b => b.endsWithGroup
  | Derivation.group _ => true

/-- No `-` of the text comes directly after a `)`. -/
def Derivation.noMinusAfterGroup : Derivation → Bool
  | Derivation.num _ _ => true
  | Derivation.add a b => a.noMinusAfterGroup && b.noMinusAfterGroup
  | Derivation.sub a b => !a.endsWithGroup && a.noMinusAfterGroup && b.noMinusAfterGroup
  | Derivation.mul a b => a.noMinusAfterGroup && b.noMinusAfterGroup
  | Derivation.div a b => a.noMinusAfterGroup && b.noMinusAfterGroup
  | Derivation.group e => e.noMinusAfterGroup

mutual
/-- The derivations of the nonterminal `E`. -/
inductive IsE : Derivation → Prop
  | add {a b : Derivation} : IsE a → IsT b → IsE (Derivation.add a b)
  | sub {a b : Derivation} : IsE a → IsT b → IsE (Derivation.sub a b)
  | term {a : Derivation} : IsT a → IsE a
/-- The derivations of the nonterminal `T`. -/
inductive IsT : Derivation → Prop
  | mul {a b : Derivation} : IsT a → IsF b → IsT (Derivation.mul a b)
  | div {a b : Derivation} : IsT a → IsF b → IsT (Derivation.div a b)
  | factor {a : Derivation} : IsF a → IsT a
/-- The derivations of the nonterminal `F`. -/
inductive IsF : Derivation → Prop
  | num {whole fraction : List Char} : whole ≠ [] → (∀ c ∈ whole, c.isDigit = true) →
      (∀ c ∈ fraction, c.isDigit = true) → IsF (Derivation.num whole fraction)
  | group {e : Derivation} : IsE e → IsF (Derivation.group e)
end

/-- The character `c` with the token type `t` can follow the text of the
derivation: it is an operator or a `)`, and a `-` only follows a text that does
not end with `)`. -/
def Derivation.followedBy (g : Derivation) (c : Char) (t : TokenType) : Prop :=
  (c = '+' ∧ t = TokenType.ADD) ∨ (c = '*' ∧ t = TokenType.MUL)
    ∨ (c = '/' ∧ t = TokenType.DIV) ∨ (c = ')' ∧ t = TokenType.RIGHT_PAREN)
    ∨ (c = '-' ∧ t = TokenType.SUB ∧ g.endsWithGroup = false)

/-- The state of `lex` with the given tokens, an empty numeric buffer and no
extra parenthesis pending. -/
def LexState.between (tokens : List Token) : LexState :=
  { tokens := tokens, number := [], add_extra_paren := false, extra_paren_count := 0 }

/-- From a state between two tokens, `lex` turns the text followed by the
character `c` into the tokens `toks` followed by the token of type `t`, and is
again between two tokens. -/
def LexesBefore (text : List Char) (toks : List Token) (c : Char) (t : TokenType) : Prop :=
  ∀ (T : List Token) (prev : Option Char) (rest : List Char),
    lexLoop prev (text ++ c :: rest) (LexState.between T)
      = lexLoop (some c) rest (LexState.between (T ++ toks ++ [make_token t 0]))

/-- From a state between two tokens, `lex` turns the text at the end of the
input into the tokens `toks`. -/
def LexesAtEnd (text : List Char) (toks : List Token) : Prop :=
  ∀ (T : List Token) (prev : Option Char),
    (match lexLoop prev text (LexState.between T) with
      | Except.error f => Except.error f
      | Except.ok st => lexEnd st) = Except.ok (T ++ toks)

/-- The text starts with a decimal literal: after an optional sign comes a
digit, or a `.` and a digit. -/
def StartsWithNumber (number : List Char) : Prop :=
  ∃ body, (number = body ∨ number = '-' :: body ∨ number = '+' :: body)
    ∧ ((∃ d rest, body = d :: rest ∧ d.isDigit = true)
      ∨ (∃ d rest, body = '.' :: d :: rest ∧ d.isDigit = true))

/-- The characters that `lex` recognizes: the digits, `.`, the space, the four
operators and the two parentheses. -/
def recognized (c : Char) : Prop :=
  c.isDigit = true ∨ c = '.' ∨ c = ' ' ∨ c = '*' ∨ c = '/' ∨ c = '+' ∨ c = '-'
    ∨ c = '(' ∨ c = ')'

/-! ## One call of the parser on iterators -/

/-- The read `*it` through an iterator at the position `i` of the token
vector; outside the vector the read is undefined. -/
def tokenAt (tokens : List Token) (i : Int) : Except Failure Token :=
  if 0 ≤ i ∧ i < tokens.length then
    match tokens[i.toNat]? with
    | some t => Except.ok t
    | none => Except.error Failure.out_of_bounds
  else
    Except.error Failure.out_of_bounds

/-- The loop `for (auto t = begin; t != end; ++t)` of the `PARENS` block on
positions.  Every iteration reads a token, so the loop ends within one more
iteration than the vector has tokens or reads outside the vector; the first
argument bounds the iterations. -/
def loneParenLoopAt (tokens : List Token) :
    Nat → Int → Int → Nat → Nat → Bool → Bool → Except Failure Bool
  | 0, _, _, _, _, _, _ => Except.error Failure.out_of_bounds
  | fuel + 1, t, e, left_paren_counter, right_paren_counter, some_found, is_lone_paren =>
    if t = e then
      Except.ok is_lone_paren
    else
      match tokenAt tokens t with
      | Except.error f => Except.error f
      | Except.ok tok =>
        let is_lone_paren1 :=
          if some_found && left_paren_counter == right_paren_counter then false
          else is_lone_paren
        if tok.type = TokenType.LEFT_PAREN then
          loneParenLoopAt tokens fuel (t + 1) e (left_paren_counter + 1) right_paren_counter
            true is_lone_paren1
        else if tok.type = TokenType.RIGHT_PAREN then
          loneParenLoopAt tokens fuel (t + 1) e left_paren_counter (right_paren_counter + 1)
            true is_lone_paren1
        else
          loneParenLoopAt tokens fuel (t + 1) e left_paren_counter right_paren_counter
            some_found is_lone_paren1

/-- The loops `for (auto token = std::prev(end);; --token)` of the `TERMS` and
`MUL, DIV` blocks on positions: the position and the type of the token at
which the range is split, or nothing after the iteration at `begin`.  Every
iteration reads a token; the first argument bounds the iterations. -/
def splitLoopAt (isOp : TokenType → Bool) (tokens : List Token) :
    Nat → Int → Int → Nat → Nat → Except Failure (Option (Int × TokenType))
  | 0, _, _, _, _ => Except.error Failure.out_of_bounds
  | fuel + 1, token, b, left_paren_counter, right_paren_counter =>
    match tokenAt tokens token with
    | Except.error f => Except.error f
    | Except.ok tok =>
      if isOp tok.type && left_paren_counter == right_paren_counter then
        Except.ok (some (token, tok.type))
      else if token = b then
        Except.ok none
      else if tok.type = TokenType.LEFT_PAREN then
        splitLoopAt isOp tokens fuel (token - 1) b (left_paren_counter + 1) right_paren_counter
      else if tok.type = TokenType.RIGHT_PAREN then
        splitLoopAt isOp tokens fuel (token - 1) b left_paren_counter (right_paren_counter + 1)
      else
        splitLoopAt isOp tokens fuel (token - 1) b left_paren_counter right_paren_counter

/-- What one call `parse(begin, end)` does when it does not fail: it returns a
number, or it calls itself on the inner range, or it calls itself on the ranges
before and after the token at a position. -/
inductive Step
  | number (value : ℚ)
  | strip
  | split (token : Int) (type : TokenType)
  deriving DecidableEq

/-- The ranges `(begin, end)` of the recursive calls of a step of
`parse(b, e)`. -/
def Step.calls (b e : Int) : Step → List (Int × Int)
  | Step.number _ => []
  | Step.strip => [(b + 1, e - 1)]
  | Step.split token _ => [(b, token), (token + 1, e)]

/-- The body of `parse(begin, end)` on the positions `b` and `e` in the token
vector, up to its recursive calls. -/
def parseStep (tokens : List Token) (b e : Int) : Except Failure Step :=
  -- NUMBER
  match (if b + 1 = e then
      match tokenAt tokens b with
      | Except.error f => Except.error f
      | Except.ok first =>
        Except.ok (if first.type = TokenType.NUMBER then some first.value else none)
    else Except.ok none : Except Failure (Option ℚ)) with
  | Except.error f => Except.error f
  | Except.ok (some value) => Except.ok (Step.number value)
  | Except.ok none =>
    -- PARENS
    match tokenAt tokens b with
    | Except.error f => Except.error f
    | Except.ok first =>
      match (if first.type = TokenType.LEFT_PAREN then
          match tokenAt tokens (e - 1) with
          | Except.error f => Except.error f
          | Except.ok last =>
            if last.type = TokenType.RIGHT_PAREN then
              loneParenLoopAt tokens (tokens.length + 1) b e 0 0 false true
            else Except.ok false
        else Except.ok false : Except Failure Bool) with
      | Except.error f => Except.error f
      | Except.ok true => Except.ok Step.strip
      | Except.ok false =>
        -- TERMS
        match splitLoopAt isTerm tokens (tokens.length + 1) (e - 1) b 0 0 with
        | Except.error f => Except.error f
        | Except.ok (some (token, type)) => Except.ok (Step.split token type)
        | Except.ok none =>
          -- MUL, DIV
          match splitLoopAt isFactor tokens (tokens.length + 1) (e - 1) b 0 0 with
          | Except.error f => Except.error f
          | Except.ok (some (token, type)) => Except.ok (Step.split token type)
          | Except.ok none => Except.error Failure.assertion

/-! ## Notions used to state the properties of the trees -/

/-- The in-order traversal of a tree: a number gives its `NUMBER` token, a
binary node gives the traversal of its left operand, its operator token and the
traversal of its right operand. -/
def inorder : Expr → List Token
  | Expr.NUMBER number => [make_token TokenType.NUMBER number]
  | Expr.ADD ex1 ex2 => inorder ex1 ++ make_token TokenType.ADD 0 :: inorder ex2
  | Expr.SUB ex1 ex2 => inorder ex1 ++ make_token TokenType.SUB 0 :: inorder ex2
  | Expr.MUL ex1 ex2 => inorder ex1 ++ make_token TokenType.MUL 0 :: inorder ex2
  | Expr.DIV ex1 ex2 => inorder ex1 ++ make_token TokenType.DIV 0 :: inorder ex2

/-- The range without its `LEFT_PAREN` and `RIGHT_PAREN` tokens. -/
def withoutParens (ts : List Token) : List Token :=
  ts.filter (fun t => t.type ≠ TokenType.LEFT_PAREN ∧ t.type ≠ TokenType.RIGHT_PAREN)

/-- The token as `make_token` builds it: a token that is not a number has the
value 0. -/
def Token.normal (t : Token) : Token :=
  if t.type = TokenType.NUMBER then t else make_token t.type 0

/-- The types of an alternation `Number (op Number)*`. -/
def alternates : List TokenType → Bool
  | [] => false
  | [t] => t = TokenType.NUMBER
  | t :: op :: rest => t = TokenType.NUMBER && (isTerm op || isFactor op) && alternates rest

/-- The tokens of a tree with parentheses around every operand that is not a
number: `printed` is the text of the operand `e`. -/
def wrapTokens (e : Expr) (printed : List Token) : List Token :=
  match e with
  | Expr.NUMBER _ => printed
  | _ => make_token TokenType.LEFT_PAREN 0 :: (printed ++ [make_token TokenType.RIGHT_PAREN 0])

/-- The fully parenthesized tokens of a tree. -/
def Expr.print : Expr → List Token
  | Expr.NUMBER number => [make_token TokenType.NUMBER number]
  | Expr.ADD ex1 ex2 =>
    wrapTokens ex1 ex1.print ++ make_token TokenType.ADD 0 :: wrapTokens ex2 ex2.print
  | Expr.SUB ex1 ex2 =>
    wrapTokens ex1 ex1.print ++ make_token TokenType.SUB 0 :: wrapTokens ex2 ex2.print
  | Expr.MUL ex1 ex2 =>
    wrapTokens ex1 ex1.print ++ make_token TokenType.MUL 0 :: wrapTokens ex2 ex2.print
  | Expr.DIV ex1 ex2 =>
    wrapTokens ex1 ex1.print ++ make_token TokenType.DIV 0 :: wrapTokens ex2 ex2.print

/-- The state of `lex` when it has gone through the characters `pre` of the
input `pre ++ post`, from the state `st` before them. -/
def lexPrefix : Option Char → List Char → List Char → LexState → Except Failure LexState
  | _, [], _, st => Except.ok st
  | prev, c :: pre, post, st =>
    match lexStep prev c (pre ++ post).head? st with
    | Except.error f => Except.error f
    | Except.ok st1 => lexPrefix (some c) pre post st1

/-! ## Printing the tokens -/

/-- The largest `k` with `d * 10 ^ k ≤ n`, for `d ≤ n`; the first argument
bounds the search. -/
def expUp : Nat → Nat → Nat → Nat
  | 0, _, _ => 0
  | fuel + 1, n, d => if d * 10 ≤ n then expUp fuel n (d * 10) + 1 else 0

/-- The least `k` with `d ≤ n * 10 ^ k`, for `0 < n`; the first argument
bounds the search. -/
def expDown : Nat → Nat → Nat → Nat
  | 0, _, _ => 0
  | fuel + 1, n, d => if d ≤ n then 0 else expDown fuel (n * 10) d + 1

/-- The decimal exponent of the positive number `n / d`: the `x` with
`10 ^ x ≤ n / d < 10 ^ (x + 1)`. -/
def decimalExponent (n d : Nat) : Int :=
  if d ≤ n then (expUp n n d : Int) else -(expDown d n d : Int)

/-- The quotient `n / d` rounded to the nearest integer, a tie to the even
one. -/
def roundHalfEven (n d : Nat) : Nat :=
  if 2 * (n % d) < d then n / d
  else if d < 2 * (n % d) then n / d + 1
  else if n / d % 2 = 0 then n / d
  else n / d + 1

/-- A run of digits without the zeros at its end. -/
def stripZeros (ds : List Char) : List Char :=
  (ds.reverse.dropWhile (fun c => c = '0')).reverse

/-- The six decimal digits of a number below `10 ^ 6`. -/
def sixDigits (m : Nat) : List Char :=
  [Nat.digitChar (m / 100000 % 10), Nat.digitChar (m / 10000 % 10),
    Nat.digitChar (m / 1000 % 10), Nat.digitChar (m / 100 % 10),
    Nat.digitChar (m / 10 % 10), Nat.digitChar (m % 10)]

/-- The text that `stream << token.value` writes for a positive `double`
`n / d` with the default format of the stream, the conversion `%g` with the
precision 6: the value is rounded to six significant digits (a tie to the even
digit) and written without the zeros at the end of its fraction, in the fixed
notation when its decimal exponent `x` after the rounding has `-4 ≤ x < 6`, and
otherwise as `d.ddddde±xx` with an exponent of at least two digits. -/
def printMagnitude (n d : Nat) : List Char :=
  let x0 : Int := decimalExponent n d
  let m0 : Nat :=
    if x0 ≤ 5 then roundHalfEven (n * 10 ^ (5 - x0).toNat) d
    else roundHalfEven n (d * 10 ^ (x0 - 5).toNat)
  let m : Nat := if m0 = 1000000 then 100000 else m0
  let x : Int := if m0 = 1000000 then x0 + 1 else x0
  if x < -4 ∨ 6 ≤ x then
    let fraction : List Char := stripZeros ((sixDigits m).drop 1)
    let exponent : List Char := Nat.toDigits 10 x.natAbs
    (sixDigits m).take 1 ++ (if fraction = [] then [] else '.' :: fraction)
      ++ 'e' :: (if x < 0 then '-' else '+')
        :: (if x.natAbs < 10 then '0' :: exponent else exponent)
  else if 0 ≤ x then
    let fraction : List Char := stripZeros ((sixDigits m).drop (x.toNat + 1))
    (sixDigits m).take (x.toNat + 1) ++ (if fraction = [] then [] else '.' :: fraction)
  else
    '0' :: '.' :: stripZeros (List.replicate (x.natAbs - 1) '0' ++ sixDigits m)

/-- The text that `stream << token.value` writes for a `double`: `0` for the
value 0, and otherwise the sign and the text of the magnitude. -/
def printDouble (v : ℚ) : List Char :=
  if v.num = 0 then ['0']
  else (if v.num < 0 then ['-'] else []) ++ printMagnitude v.num.natAbs v.den

/-- The text that `operator<<` writes for a token. -/
def printToken (token : Token) : List Char :=
  match token.type with
  | TokenType.NUMBER => printDouble token.value
  | TokenType.MUL => [' ', '*', ' ']
  | TokenType.DIV => [' ', '/', ' ']
  | TokenType.ADD => [' ', '+', ' ']
  | TokenType.SUB => [' ', '-', ' ']
  | TokenType.LEFT_PAREN => ['(']
  | TokenType.RIGHT_PAREN => [')']

/-- The texts of the tokens of a range, one after the other. -/
def printTokens : List Token → List Char
  | [] => []
  | token :: rest => printToken token ++ printTokens rest

/-- The text `number` is a plain decimal text of the value `v`: an optional
`-`, then digits with at most one `.` among them, the first of them a digit,
and `stod` reads the text as `v`. -/
def isDecimalText (number : List Char) (v : ℚ) : Bool :=
  let body : List Char := if number.head? = some '-' then number.tail else number
  (match body.head? with
    | some d => d.isDigit
    | none => false)
  && body.all (fun c => c.isDigit || decide (c = '.'))
  && decide (body.count '.' ≤ 1)
  && (match stod number with
      | Except.ok w => decide (w = v)
      | Except.error _ => false)

/-- The stream writes the value in full: the text that `operator<<` writes for
it is a plain decimal text of the value. -/
def printsInFull (v : ℚ) : Bool := isDecimalText (printDouble v) v

/-- No number token of the range is directly followed by a number token or by
a `LEFT_PAREN` token. -/
def separated : List Token → Bool
  | t :: u :: rest =>
    !(decide (t.type = TokenType.NUMBER)
        && (decide (u.type = TokenType.NUMBER) || decide (u.type = TokenType.LEFT_PAREN)))
      && separated (u :: rest)
  | _ => true

/-- The function `lex` from the middle of its loop: the rest of the loop from
the state `st`, then the end of `lex`. -/
def lexFrom (prev : Option Char) (input : List Char) (st : LexState) :
    Except Failure (List Token) :=
  match lexLoop prev input st with
  | Except.error f => Except.error f
  | Except.ok st1 => lexEnd st1

/-- Equality of results is decidable when it is for failures and values. -/
instance instDecidableEqExcept {ε α : Type} [DecidableEq ε] [DecidableEq α] :
    DecidableEq (Except ε α)
  | Except.ok a, Except.ok b =>
    if h : a = b then isTrue (by rw [h]) else isFalse (fun h2 => h (Except.ok.inj h2))
  | Except.error a, Except.error b =>
    if h : a = b then isTrue (by rw [h]) else isFalse (fun h2 => h (Except.error.inj h2))
  | Except.ok _, Except.error _ => isFalse (fun h => Except.noConfusion h)
  | Except.error _, Except.ok _ => isFalse (fun h => Except.noConfusion h)

/-! ## The parser: the loops -/

theorem leftParens_append (a b : List Token) :
    leftParens (a ++ b) = leftParens a + leftParens b := by
  simp [leftParens]

theorem rightParens_append (a b : List Token) :
    rightParens (a ++ b) = rightParens a + rightParens b := by
  simp [rightParens]

theorem leftParens_cons (t : Token) (ts : List Token) :
    leftParens (t :: ts) = (if t.type = TokenType.LEFT_PAREN then 1 else 0) + leftParens ts := by
  simp [leftParens, List.countP_cons, Nat.add_comm]

theorem rightParens_cons (t : Token) (ts : List Token) :
    rightParens (t :: ts) = (if t.type = TokenType.RIGHT_PAREN then 1 else 0) + rightParens ts := by
  simp [rightParens, List.countP_cons, Nat.add_comm]

theorem leftParens_reverse (ts : List Token) : leftParens ts.reverse = leftParens ts := by
  simp [leftParens]

theorem rightParens_reverse (ts : List Token) : rightParens ts.reverse = rightParens ts := by
  simp [rightParens]

/-- A hit of the backward loop splits the range at the token it returns. -/
theorem splitLoop_some (isOp : TokenType → Bool) :
    ∀ (before after : List Token) (a b : Nat) (l : List Token) (t : Token) (r : List Token),
      splitLoop isOp before after a b = some (l, t, r) →
      before.reverse ++ after = l ++ t :: r ∧ isOp t.type = true := by
  intro before
  induction before with
  | nil => intro after a b l t r h; simp [splitLoop] at h
  | cons x before ih =>
    intro after a b l t r h
    unfold splitLoop at h
    split at h
    · rename_i hx
      simp only [Option.some.injEq, Prod.mk.injEq] at h
      obtain ⟨rfl, rfl, rfl⟩ := h
      simp at hx
      simp [hx.1]
    · split at h
      · have := ih _ _ _ _ _ _ h
        simpa using this
      · split at h
        · have := ih _ _ _ _ _ _ h
          simpa using this
        · have := ih _ _ _ _ _ _ h
          simpa using this

/-- The backward loop passes over tokens among which there is no hit. -/
theorem splitLoop_skip (isOp : TokenType → Bool) :
    ∀ (skipped rest after : List Token) (a b : Nat),
      (∀ r2 x r1, skipped = r2 ++ x :: r1 → isOp x.type = true →
        a + leftParens r2 ≠ b + rightParens r2) →
      splitLoop isOp (skipped ++ rest) after a b
        = splitLoop isOp rest (skipped.reverse ++ after)
            (a + leftParens skipped) (b + rightParens skipped) := by
  intro skipped
  induction skipped with
  | nil => intro rest after a b _; simp [leftParens, rightParens]
  | cons x skipped ih =>
    intro rest after a b h
    have h0 : ¬ (isOp x.type = true ∧ a = b) := by
      rintro ⟨h1, h2⟩
      exact h [] x skipped rfl h1 (by simp [leftParens, rightParens, h2])
    have hstep : ∀ a1 b1 : Nat,
        a1 = a + (if x.type = TokenType.LEFT_PAREN then 1 else 0) →
        b1 = b + (if x.type = TokenType.RIGHT_PAREN then 1 else 0) →
        splitLoop isOp (skipped ++ rest) (x :: after) a1 b1
          = splitLoop isOp rest ((x :: skipped).reverse ++ after)
              (a + leftParens (x :: skipped)) (b + rightParens (x :: skipped)) := by
      intro a1 b1 ha hb
      rw [ih rest (x :: after) a1 b1]
      · simp [leftParens_cons, rightParens_cons, ha, hb, Nat.add_assoc]
      · intro r2 y r1 hs hy
        have := h (x :: r2) y r1 (by simp [hs]) hy
        simpa [leftParens_cons, rightParens_cons, ha, hb, Nat.add_assoc] using this
    rw [List.cons_append, splitLoop]
    have h0b : (isOp x.type && a == b) = false := by
      cases hx : isOp x.type <;> simp_all
    rw [h0b]
    simp only [Bool.false_eq_true, if_false]
    by_cases hl : x.type = TokenType.LEFT_PAREN
    · rw [if_pos hl]
      exact hstep _ _ (by simp [hl]) (by simp [hl])
    · rw [if_neg hl]
      by_cases hr : x.type = TokenType.RIGHT_PAREN
      · rw [if_pos hr]
        exact hstep _ _ (by simp [hl]) (by simp [hr])
      · rw [if_neg hr]
        exact hstep _ _ (by simp [hl]) (by simp [hr])

/-- The backward scan stops at the last token of the kind it looks for that has
as many `LEFT_PAREN` as `RIGHT_PAREN` tokens to its right. -/
theorem findSplit_eq_some (isOp : TokenType → Bool) (l : List Token) (t : Token)
    (r : List Token) (ht : isOp t.type = true) (hr : leftParens r = rightParens r)
    (hno : NoSplit isOp r) :
    findSplit isOp (l ++ t :: r) = some (l, t, r) := by
  unfold findSplit
  rw [List.reverse_append, List.reverse_cons, List.append_assoc, splitLoop_skip]
  · simp [splitLoop, ht, leftParens_reverse, rightParens_reverse, hr]
  · intro r2 x r1 hs hx
    have hs2 : r = r1.reverse ++ x :: r2.reverse := by
      have := congrArg List.reverse hs
      simpa using this
    have := hno _ _ _ hs2 hx
    simpa [leftParens_reverse, rightParens_reverse] using this

/-- The backward scan finds nothing in a range without a hit. -/
theorem findSplit_eq_none (isOp : TokenType → Bool) (ts : List Token)
    (hno : NoSplit isOp ts) : findSplit isOp ts = none := by
  unfold findSplit
  have := splitLoop_skip isOp ts.reverse [] [] 0 0 (by
    intro r2 x r1 hs hx
    have hs2 : ts = r1.reverse ++ x :: r2.reverse := by
      have := congrArg List.reverse hs
      simpa using this
    have := hno _ _ _ hs2 hx
    simpa [leftParens_reverse, rightParens_reverse] using this)
  rw [List.append_nil] at this
  rw [this]
  simp [splitLoop]

/-- A hit of the backward scan splits the range at the token it returns. -/
theorem findSplit_some (isOp : TokenType → Bool) (ts l : List Token) (t : Token)
    (r : List Token) (h : findSplit isOp ts = some (l, t, r)) :
    ts = l ++ t :: r ∧ isOp t.type = true := by
  have := splitLoop_some isOp _ _ _ _ _ _ _ h
  simpa using this

/-! ## The parser: unfolding -/

/-- The body of `parse` calls itself only on ranges shorter than its own. -/
theorem parseBody_congr (f g : List Token → Except Failure Expr) (ts : List Token)
    (h : ∀ sub : List Token, sub.length < ts.length → f sub = g sub) :
    parseBody f ts = parseBody g ts := by
  unfold parseBody
  cases ts with
  | nil => rfl
  | cons first rest =>
    simp only
    split
    · rfl
    · split
      · apply h
        simp only [List.tail_cons, List.length_dropLast, List.length_cons]
        omega
      · cases hs : findSplit isTerm (first :: rest) with
        | some v =>
          obtain ⟨l, t, r⟩ := v
          have hd := (findSplit_some _ _ _ _ _ hs).1
          have hlen := congrArg List.length hd
          simp only [List.length_cons, List.length_append] at hlen
          simp only
          rw [h l (by simp only [List.length_cons]; omega),
            h r (by simp only [List.length_cons]; omega)]
        | none =>
          simp only
          cases hs2 : findSplit isFactor (first :: rest) with
          | some v =>
            obtain ⟨l, t, r⟩ := v
            have hd := (findSplit_some _ _ _ _ _ hs2).1
            have hlen := congrArg List.length hd
            simp only [List.length_cons, List.length_append] at hlen
            simp only
            rw [h l (by simp only [List.length_cons]; omega),
              h r (by simp only [List.length_cons]; omega)]
          | none => rfl

/-- Any two bounds above the length of the range give the same result. -/
theorem parseFuel_stable :
    ∀ (n m : Nat) (ts : List Token), ts.length < n → ts.length < m →
      parseFuel n ts = parseFuel m ts := by
  intro n
  induction n with
  | zero => intro m ts h; omega
  | succ n ih =>
    intro m ts hn hm
    cases m with
    | zero => omega
    | succ m =>
      simp only [parseFuel]
      apply parseBody_congr
      intro sub hsub
      exact ih m sub (by omega) (by omega)

/-- The function `parse` satisfies the recursive equation of the source: it is
its body with the recursive calls going to `parse` itself. -/
theorem parse_eq (ts : List Token) : parse ts = parseBody parse ts := by
  unfold parse
  simp only [parseFuel]
  apply parseBody_congr
  intro sub hsub
  exact parseFuel_stable ts.length (sub.length + 1) sub hsub (by omega)

theorem parse_nil : parse [] = Except.error Failure.empty_range := by
  rw [parse_eq]; rfl

/-- The `NUMBER` block of `parse`. -/
theorem parse_number (t : Token) (h : t.type = TokenType.NUMBER) :
    parse [t] = Except.ok (Expr.NUMBER t.value) := by
  rw [parse_eq]; simp [parseBody, h]

theorem makeBinary_ok (type : Expr → Expr → Expr) (a b : Except Failure Expr) (e : Expr)
    (h : makeBinary type a b = Except.ok e) :
    ∃ e1 e2, a = Except.ok e1 ∧ b = Except.ok e2 ∧ e = type e1 e2 := by
  cases a with
  | error f => simp [makeBinary] at h
  | ok e1 =>
    cases b with
    | error f => simp [makeBinary] at h
    | ok e2 =>
      simp only [makeBinary, Except.ok.injEq] at h
      exact ⟨e1, e2, rfl, rfl, h.symm⟩

/-- The `PARENS` block of `parse` when it strips the two ends of the range. -/
theorem parse_strip (first last : Token) (m : List Token)
    (hf : first.type = TokenType.LEFT_PAREN) (hl : last.type = TokenType.RIGHT_PAREN)
    (hlone : isLoneParen (first :: (m ++ [last])) = true) :
    parse (first :: (m ++ [last])) = parse m := by
  rw [parse_eq]
  have hlast : (first :: (m ++ [last])).getLast? = some last := by
    rw [← List.cons_append, List.getLast?_append]
    simp
  unfold parseBody
  simp only [hlast, Option.map_some', hl, hf, hlone, and_self, if_true,
    List.tail_cons, List.dropLast_concat]
  rw [if_neg (by simp)]

/-- The `TERMS` block of `parse` when its loop finds a token. -/
theorem parse_terms (first : Token) (rest l : List Token) (t : Token) (r : List Token)
    (hnum : rest ≠ [] ∨ first.type ≠ TokenType.NUMBER)
    (hstrip : ¬ (first.type = TokenType.LEFT_PAREN
      ∧ (first :: rest).getLast?.map Token.type = some TokenType.RIGHT_PAREN
      ∧ isLoneParen (first :: rest) = true))
    (hs : findSplit isTerm (first :: rest) = some (l, t, r)) :
    parse (first :: rest)
      = makeBinary (if t.type = TokenType.ADD then Expr.ADD else Expr.SUB) (parse l) (parse r) := by
  rw [parse_eq]
  unfold parseBody
  have h1 : ¬ ((first :: rest).length = 1 ∧ first.type = TokenType.NUMBER) := by
    rintro ⟨ha, hb⟩
    rcases hnum with h | h
    · apply h; simpa using ha
    · exact h hb
  simp only [if_neg h1, if_neg hstrip, hs]

/-- The `MUL, DIV` block of `parse` when its loop finds a token. -/
theorem parse_factors (first : Token) (rest l : List Token) (t : Token) (r : List Token)
    (hnum : rest ≠ [] ∨ first.type ≠ TokenType.NUMBER)
    (hstrip : ¬ (first.type = TokenType.LEFT_PAREN
      ∧ (first :: rest).getLast?.map Token.type = some TokenType.RIGHT_PAREN
      ∧ isLoneParen (first :: rest) = true))
    (hs1 : findSplit isTerm (first :: rest) = none)
    (hs : findSplit isFactor (first :: rest) = some (l, t, r)) :
    parse (first :: rest)
      = makeBinary (if t.type = TokenType.MUL then Expr.MUL else Expr.DIV) (parse l) (parse r) := by
  rw [parse_eq]
  unfold parseBody
  have h1 : ¬ ((first :: rest).length = 1 ∧ first.type = TokenType.NUMBER) := by
    rintro ⟨ha, hb⟩
    rcases hnum with h | h
    · apply h; simpa using ha
    · exact h hb
  simp only [if_neg h1, if_neg hstrip, hs1, hs]

/-! ## The parser: lone parentheses -/

theorem loneParenLoop_false :
    ∀ (ts : List Token) (a b : Nat) (sf : Bool), loneParenLoop ts a b sf false = false := by
  intro ts
  induction ts with
  | nil => intro a b sf; rfl
  | cons t ts ih =>
    intro a b sf
    simp only [loneParenLoop, ite_self]
    split
    · exact ih _ _ _
    · split
      · exact ih _ _ _
      · exact ih _ _ _

/-- Once a parenthesis has been seen, the forward loop keeps `is_lone_paren`
exactly when the two counters differ before every token. -/
theorem loneParenLoop_true :
    ∀ (ts : List Token) (a b : Nat),
      loneParenLoop ts a b true true = true ↔
        ∀ p t s, ts = p ++ t :: s → a + leftParens p ≠ b + rightParens p := by
  intro ts
  induction ts with
  | nil =>
    intro a b
    simp [loneParenLoop]
  | cons x ts ih =>
    intro a b
    have key : ∀ a1 b1 : Nat,
        a1 = a + (if x.type = TokenType.LEFT_PAREN then 1 else 0) →
        b1 = b + (if x.type = TokenType.RIGHT_PAREN then 1 else 0) →
        a ≠ b →
        (loneParenLoop ts a1 b1 true true = true ↔
          ∀ p t s, x :: ts = p ++ t :: s → a + leftParens p ≠ b + rightParens p) := by
      intro a1 b1 ha hb hab
      rw [ih a1 b1]
      constructor
      · intro h p t s hp
        cases p with
        | nil => simpa [leftParens, rightParens] using hab
        | cons y p =>
          simp only [List.cons_append, List.cons.injEq] at hp
          obtain ⟨rfl, hp⟩ := hp
          have := h p t s hp
          simpa [leftParens_cons, rightParens_cons, ha, hb, Nat.add_assoc] using this
      · intro h p t s hp
        have := h (x :: p) t s (by simp [hp])
        simpa [leftParens_cons, rightParens_cons, ha, hb, Nat.add_assoc] using this
    by_cases hab : a = b
    · subst hab
      simp only [loneParenLoop, Bool.true_and, beq_self_eq_true, if_true]
      constructor
      · intro h
        exfalso
        have h2 : ∀ sf, loneParenLoop ts (a + 1) a sf false = false :=
          fun sf => loneParenLoop_false _ _ _ _
        have h3 : ∀ sf, loneParenLoop ts a (a + 1) sf false = false :=
          fun sf => loneParenLoop_false _ _ _ _
        have h4 : ∀ sf, loneParenLoop ts a a sf false = false :=
          fun sf => loneParenLoop_false _ _ _ _
        split at h <;> simp_all
      · intro h
        exact absurd (by simp [leftParens, rightParens]) (h [] x ts rfl)
    · have hne : (a == b) = false := by simpa using hab
      simp only [loneParenLoop, Bool.true_and, hne, Bool.false_eq_true, if_false]
      by_cases hl : x.type = TokenType.LEFT_PAREN
      · rw [if_pos hl]
        exact key _ _ (by simp [hl]) (by simp [hl]) hab
      · rw [if_neg hl]
        by_cases hr : x.type = TokenType.RIGHT_PAREN
        · rw [if_pos hr]
          exact key _ _ (by simp [hl]) (by simp [hr]) hab
        · rw [if_neg hr]
          exact key _ _ (by simp [hl]) (by simp [hr]) hab

/-- After a first `LEFT_PAREN` the loop goes on with the counters 1 and 0. -/
theorem isLoneParen_cons (first : Token) (rest : List Token)
    (hf : first.type = TokenType.LEFT_PAREN) :
    isLoneParen (first :: rest) = loneParenLoop rest 1 0 true true := by
  simp [isLoneParen, loneParenLoop, hf]

/-! ## Matching parentheses -/

theorem Balanced_single (t : Token) (h1 : t.type ≠ TokenType.LEFT_PAREN)
    (h2 : t.type ≠ TokenType.RIGHT_PAREN) : Balanced [t] := by
  constructor
  · intro p hp
    rcases List.prefix_cons_iff.1 hp with rfl | ⟨q, rfl, hq⟩
    · simp [rightParens]
    · have : q = [] := List.prefix_nil.1 hq
      subst this
      simp [rightParens_cons, h2, rightParens]
  · simp [leftParens_cons, rightParens_cons, h1, h2, leftParens, rightParens]

theorem Balanced_wrap (first last : Token) (m : List Token)
    (hf : first.type = TokenType.LEFT_PAREN) (hl : last.type = TokenType.RIGHT_PAREN)
    (hm : Balanced m) : Balanced (first :: (m ++ [last])) := by
  have hf2 : first.type ≠ TokenType.RIGHT_PAREN := by rw [hf]; decide
  have hl2 : last.type ≠ TokenType.LEFT_PAREN := by rw [hl]; decide
  constructor
  · intro p hp
    rcases List.prefix_cons_iff.1 hp with rfl | ⟨q, rfl, hq⟩
    · simp [rightParens]
    · rcases List.prefix_concat_iff.1 hq with rfl | hq
      · have := hm.2
        simp [leftParens_cons, rightParens_cons, leftParens_append, rightParens_append, hf, hl,
          leftParens, rightParens] at this ⊢
        omega
      · have := hm.1 q hq
        simp only [leftParens_cons, rightParens_cons, hf2, if_false]
        simp only [hf, if_true]
        omega
  · have := hm.2
    simp [leftParens_cons, rightParens_cons, leftParens_append, rightParens_append, hf, hl,
      leftParens, rightParens] at this ⊢
    omega

theorem Balanced_join (l r : List Token) (t : Token) (h1 : t.type ≠ TokenType.LEFT_PAREN)
    (h2 : t.type ≠ TokenType.RIGHT_PAREN) (hl : Balanced l) (hr : Balanced r) :
    Balanced (l ++ t :: r) := by
  constructor
  · intro p hp
    obtain ⟨s, hs⟩ := hp
    rcases List.append_eq_append_iff.1 hs with ⟨a, ha, _⟩ | ⟨c, hc, hc2⟩
    · exact hl.1 p ⟨a, ha.symm⟩
    · cases c with
      | nil =>
        simp only [List.append_nil] at hc
        subst hc
        exact hl.1 _ (List.prefix_refl _)
      | cons x c =>
        simp only [List.cons_append, List.cons.injEq] at hc2
        obtain ⟨rfl, hc2⟩ := hc2
        have h3 := hr.1 c ⟨s, hc2.symm⟩
        have h4 := hl.2
        subst hc
        simp only [leftParens_append, rightParens_append, leftParens_cons, rightParens_cons,
          h1, h2, if_false]
        omega
  · have h3 := hl.2
    have h4 := hr.2
    simp only [leftParens_append, rightParens_append, leftParens_cons, rightParens_cons,
      h1, h2, if_false]
    omega

/-- In a range with matching parentheses every suffix closes at least as much
as it opens. -/
theorem Balanced_suffix (p s : List Token) (h : Balanced (p ++ s)) :
    leftParens s ≤ rightParens s := by
  have h1 := h.1 p (List.prefix_append p s)
  have h2 := h.2
  simp only [leftParens_append, rightParens_append] at h2
  omega

theorem isTerm_ne_paren (t : TokenType) (h : isTerm t = true) :
    t ≠ TokenType.LEFT_PAREN ∧ t ≠ TokenType.RIGHT_PAREN := by
  cases t <;> simp [isTerm] at h ⊢

theorem isFactor_ne_paren (t : TokenType) (h : isFactor t = true) :
    t ≠ TokenType.LEFT_PAREN ∧ t ≠ TokenType.RIGHT_PAREN := by
  cases t <;> simp [isFactor] at h ⊢

/-- The parentheses of every range that `parse` accepts match. -/
theorem parse_balanced :
    ∀ (n : Nat) (ts : List Token), ts.length ≤ n → ∀ e, parse ts = Except.ok e → Balanced ts := by
  intro n
  induction n with
  | zero =>
    intro ts hlen e h
    have : ts = [] := List.length_eq_zero.1 (by omega)
    subst this
    rw [parse_nil] at h
    cases h
  | succ n ih =>
    intro ts hlen e h
    rw [parse_eq] at h
    unfold parseBody at h
    cases ts with
    | nil => cases h
    | cons first rest =>
      simp only at h
      split at h
      · rename_i hnum
        have hrest : rest = [] := by simpa using hnum.1
        subst hrest
        exact Balanced_single first (by rw [hnum.2]; decide) (by rw [hnum.2]; decide)
      · split at h
        · rename_i hstrip
          obtain ⟨hf, hlast, -⟩ := hstrip
          have hne : rest ≠ [] := by
            intro h0
            subst h0
            simp [hf] at hlast
          have hrest : rest = rest.dropLast ++ [rest.getLast hne] :=
            (List.dropLast_append_getLast hne).symm
          have hl : (rest.getLast hne).type = TokenType.RIGHT_PAREN := by
            have h5 : (first :: rest).getLast? = some (rest.getLast hne) := by
              conv_lhs => rw [hrest]
              rw [← List.cons_append, List.getLast?_append]
              simp
            rw [h5] at hlast
            simpa using hlast
          rw [hrest]
          apply Balanced_wrap _ _ _ hf hl
          apply ih _ _ e
          · simpa using h
          · simp only [List.length_dropLast]
            simp only [List.length_cons] at hlen
            omega
        · cases hs : findSplit isTerm (first :: rest) with
          | some v =>
            obtain ⟨l, t, r⟩ := v
            rw [hs] at h
            simp only at h
            obtain ⟨hd, ht⟩ := findSplit_some _ _ _ _ _ hs
            obtain ⟨e1, e2, h1, h2, -⟩ := makeBinary_ok _ _ _ _ h
            have hlen2 := congrArg List.length hd
            simp only [List.length_cons, List.length_append] at hlen2 hlen
            rw [hd]
            exact Balanced_join l r t (isTerm_ne_paren _ ht).1 (isTerm_ne_paren _ ht).2
              (ih l (by omega) e1 h1) (ih r (by omega) e2 h2)
          | none =>
            rw [hs] at h
            simp only at h
            cases hs2 : findSplit isFactor (first :: rest) with
            | some v =>
              obtain ⟨l, t, r⟩ := v
              rw [hs2] at h
              simp only at h
              obtain ⟨hd, ht⟩ := findSplit_some _ _ _ _ _ hs2
              obtain ⟨e1, e2, h1, h2, -⟩ := makeBinary_ok _ _ _ _ h
              have hlen2 := congrArg List.length hd
              simp only [List.length_cons, List.length_append] at hlen2 hlen
              rw [hd]
              exact Balanced_join l r t (isFactor_ne_paren _ ht).1 (isFactor_ne_paren _ ht).2
                (ih l (by omega) e1 h1) (ih r (by omega) e2 h2)
            | none =>
              rw [hs2] at h
              cases h

/-! ## The parser: groups in parentheses -/

theorem NoSplit_of_forall (isOp : TokenType → Bool) (ts : List Token)
    (h : ∀ t ∈ ts, isOp t.type = false) : NoSplit isOp ts := by
  intro l t r hd ht
  have : t ∈ ts := by rw [hd]; simp
  rw [h t this] at ht
  cases ht

theorem NoSplit_append (isOp : TokenType → Bool) (l r : List Token)
    (hl : NoSplit isOp l) (hr : NoSplit isOp r) (hbal : leftParens r = rightParens r) :
    NoSplit isOp (l ++ r) := by
  intro a x b hd hx
  rcases List.append_eq_append_iff.1 hd with ⟨c, hc, hc2⟩ | ⟨c, hc, hc2⟩
  · exact hr c x b hc2 hx
  · cases c with
    | nil =>
      simp only [List.append_nil, List.nil_append] at hc hc2
      exact hr [] x b hc2.symm hx
    | cons y c =>
      simp only [List.cons_append, List.cons.injEq] at hc2
      obtain ⟨rfl, hc2⟩ := hc2
      have := hl a x c hc hx
      rw [hc2, leftParens_append, rightParens_append]
      omega

theorem NoSplit_cons (isOp : TokenType → Bool) (t : Token) (r : List Token)
    (ht : isOp t.type = false) (hr : NoSplit isOp r) : NoSplit isOp (t :: r) := by
  intro a x b hd hx
  cases a with
  | nil =>
    simp only [List.nil_append, List.cons.injEq] at hd
    rw [hd.1, hx] at ht
    cases ht
  | cons y a =>
    simp only [List.cons_append, List.cons.injEq] at hd
    exact hr a x b hd.2 hx

/-- Inside a group in parentheses no token is a hit of a backward loop. -/
theorem NoSplit_wrap (isOp : TokenType → Bool) (first last : Token) (m : List Token)
    (h1 : isOp TokenType.LEFT_PAREN = false) (h2 : isOp TokenType.RIGHT_PAREN = false)
    (hf : first.type = TokenType.LEFT_PAREN) (hl : last.type = TokenType.RIGHT_PAREN)
    (hm : Balanced m) : NoSplit isOp (first :: (m ++ [last])) := by
  apply NoSplit_cons isOp first _ (by rw [hf]; exact h1)
  intro a x b hd hx
  rcases List.append_eq_append_iff.1 hd with ⟨c, hc, hc2⟩ | ⟨c, hc, hc2⟩
  · -- the token is the last one
    cases c with
    | nil =>
      simp only [List.nil_append, List.cons.injEq] at hc2
      rw [← hc2.1, hl, h2] at hx
      cases hx
    | cons y c =>
      have hlen := congrArg List.length hc2
      simp at hlen
  · cases c with
    | nil =>
      simp only [List.nil_append, List.cons.injEq] at hc2
      rw [hc2.1, hl, h2] at hx
      cases hx
    | cons y c =>
      simp only [List.cons_append, List.cons.injEq] at hc2
      obtain ⟨rfl, hc2⟩ := hc2
      have hsuf : leftParens c ≤ rightParens c := by
        apply Balanced_suffix (a ++ [x]) c
        rw [hc] at hm
        simpa using hm
      have hl2 : last.type ≠ TokenType.LEFT_PAREN := by rw [hl]; decide
      rw [hc2, leftParens_append, rightParens_append, leftParens_cons, rightParens_cons,
        if_pos hl, if_neg hl2]
      simp only [leftParens, rightParens, List.countP_nil]
      simp only [leftParens, rightParens] at hsuf
      omega

/-- The forward loop of the `PARENS` block keeps `is_lone_paren` on a range
with matching parentheses that is put in parentheses. -/
theorem isLoneParen_wrap (first last : Token) (m : List Token)
    (hf : first.type = TokenType.LEFT_PAREN) (hm : Balanced m) :
    isLoneParen (first :: (m ++ [last])) = true := by
  rw [isLoneParen_cons _ _ hf, loneParenLoop_true]
  intro p t s hd
  have hp : p <+: m := by
    rcases List.append_eq_append_iff.1 hd with ⟨c, hc, hc2⟩ | ⟨c, hc, hc2⟩
    · cases c with
      | nil =>
        simp only [List.append_nil] at hc
        rw [hc]
      | cons y c =>
        have hlen := congrArg List.length hc2
        simp at hlen
    · exact ⟨c, hc.symm⟩
  have := hm.1 p hp
  omega

/-- The `PARENS` block strips the parentheses around a range that `parse`
accepts. -/
theorem parse_wrap (first last : Token) (m : List Token) (e : Expr)
    (hf : first.type = TokenType.LEFT_PAREN) (hl : last.type = TokenType.RIGHT_PAREN)
    (h : parse m = Except.ok e) : parse (first :: (m ++ [last])) = Except.ok e := by
  rw [parse_strip first last m hf hl
    (isLoneParen_wrap first last m hf (parse_balanced _ m (Nat.le_refl _) e h))]
  exact h

theorem binaryOp_term (t : TokenType) (h : isTerm t = true) :
    (if t = TokenType.ADD then Expr.ADD else Expr.SUB) = binaryOp t := by
  cases t <;> simp [isTerm] at h <;> rfl

theorem binaryOp_factor (t : TokenType) (h : isFactor t = true) :
    (if t = TokenType.MUL then Expr.MUL else Expr.DIV) = binaryOp t := by
  cases t <;> simp [isFactor] at h <;> rfl

theorem isTerm_not_factor (t : TokenType) (h : isFactor t = true) : isTerm t = false := by
  cases t <;> simp [isFactor] at h <;> rfl

/-- Two groups in parentheses around an operator: the `PARENS` block does not
strip the first and the last parenthesis, and the range is split at the
operator. -/
theorem parse_two_groups (lp rp op : Token) (ts1 ts2 : List Token) (e1 e2 : Expr)
    (hlp : lp.type = TokenType.LEFT_PAREN) (hrp : rp.type = TokenType.RIGHT_PAREN)
    (hop : isTerm op.type = true ∨ isFactor op.type = true)
    (h1 : parse ts1 = Except.ok e1) (h2 : parse ts2 = Except.ok e2) :
    parse (lp :: (ts1 ++ rp :: op :: lp :: (ts2 ++ [rp])))
      = Except.ok (binaryOp op.type e1 e2) := by
  have hb1 : Balanced ts1 := parse_balanced _ ts1 (Nat.le_refl _) e1 h1
  have hb2 : Balanced ts2 := parse_balanced _ ts2 (Nat.le_refl _) e2 h2
  have hw1 : parse (lp :: (ts1 ++ [rp])) = Except.ok e1 := parse_wrap lp rp ts1 e1 hlp hrp h1
  have hw2 : parse (lp :: (ts2 ++ [rp])) = Except.ok e2 := parse_wrap lp rp ts2 e2 hlp hrp h2
  have hbw2 : Balanced (lp :: (ts2 ++ [rp])) := Balanced_wrap lp rp ts2 hlp hrp hb2
  have hshape : lp :: (ts1 ++ rp :: op :: lp :: (ts2 ++ [rp]))
      = (lp :: (ts1 ++ [rp])) ++ op :: (lp :: (ts2 ++ [rp])) := by simp
  have hnum : ts1 ++ rp :: op :: lp :: (ts2 ++ [rp]) ≠ [] ∨ lp.type ≠ TokenType.NUMBER :=
    Or.inl (by simp)
  have hstrip : ¬ (lp.type = TokenType.LEFT_PAREN
      ∧ (lp :: (ts1 ++ rp :: op :: lp :: (ts2 ++ [rp]))).getLast?.map Token.type
          = some TokenType.RIGHT_PAREN
      ∧ isLoneParen (lp :: (ts1 ++ rp :: op :: lp :: (ts2 ++ [rp]))) = true) := by
    rintro ⟨-, -, hlone⟩
    rw [isLoneParen_cons _ _ hlp, loneParenLoop_true] at hlone
    apply hlone (ts1 ++ [rp]) op (lp :: (ts2 ++ [rp])) (by simp)
    have hrp2 : rp.type ≠ TokenType.LEFT_PAREN := by rw [hrp]; decide
    rw [leftParens_append, rightParens_append, leftParens_cons, rightParens_cons,
      if_pos hrp, if_neg hrp2]
    have := hb1.2
    simp only [leftParens, rightParens, List.countP_nil] at this ⊢
    omega
  rcases hop with hop | hop
  · have hs : findSplit isTerm (lp :: (ts1 ++ rp :: op :: lp :: (ts2 ++ [rp])))
        = some (lp :: (ts1 ++ [rp]), op, lp :: (ts2 ++ [rp])) := by
      rw [hshape]
      exact findSplit_eq_some isTerm _ op _ hop hbw2.2
        (NoSplit_wrap isTerm lp rp ts2 rfl rfl hlp hrp hb2)
    rw [parse_terms lp _ _ op _ hnum hstrip hs, hw1, hw2, binaryOp_term _ hop]
    rfl
  · have hs1 : findSplit isTerm (lp :: (ts1 ++ rp :: op :: lp :: (ts2 ++ [rp]))) = none := by
      rw [hshape]
      apply findSplit_eq_none
      apply NoSplit_append
      · exact NoSplit_wrap isTerm lp rp ts1 rfl rfl hlp hrp hb1
      · exact NoSplit_cons isTerm op _ (isTerm_not_factor _ hop)
          (NoSplit_wrap isTerm lp rp ts2 rfl rfl hlp hrp hb2)
      · have h3 := hbw2.2
        have h4 := isFactor_ne_paren _ hop
        rw [leftParens_cons, rightParens_cons, if_neg h4.1, if_neg h4.2]
        omega
    have hs : findSplit isFactor (lp :: (ts1 ++ rp :: op :: lp :: (ts2 ++ [rp])))
        = some (lp :: (ts1 ++ [rp]), op, lp :: (ts2 ++ [rp])) := by
      rw [hshape]
      exact findSplit_eq_some isFactor _ op _ hop hbw2.2
        (NoSplit_wrap isFactor lp rp ts2 rfl rfl hlp hrp hb2)
    rw [parse_factors lp _ _ op _ hnum hstrip hs1 hs, hw1, hw2, binaryOp_factor _ hop]
    rfl

/-- Parentheses put `k` times around a number. -/
theorem parse_nested_number (lp rp n : Token) (hlp : lp.type = TokenType.LEFT_PAREN)
    (hrp : rp.type = TokenType.RIGHT_PAREN) (hn : n.type = TokenType.NUMBER) :
    ∀ k : Nat, parse (List.replicate k lp ++ n :: List.replicate k rp)
      = Except.ok (Expr.NUMBER n.value) := by
  intro k
  induction k with
  | zero => simpa using parse_number n hn
  | succ k ih =>
    have := parse_wrap lp rp _ _ hlp hrp ih
    rw [List.replicate_succ, List.replicate_succ']
    simpa using this

/-! ## The parser: ranges without parentheses -/

theorem leftParens_eq_zero (ts : List Token) (h : ∀ t ∈ ts, t.type ≠ TokenType.LEFT_PAREN) :
    leftParens ts = 0 := by
  unfold leftParens
  rw [List.countP_eq_zero]
  intro t ht
  simpa using h t ht

theorem rightParens_eq_zero (ts : List Token) (h : ∀ t ∈ ts, t.type ≠ TokenType.RIGHT_PAREN) :
    rightParens ts = 0 := by
  unfold rightParens
  rw [List.countP_eq_zero]
  intro t ht
  simpa using h t ht

/-- A range that does not start with a parenthesis is split at its last `ADD`
or `SUB` token outside parentheses. -/
theorem parse_at_term (first : Token) (l r : List Token) (op : Token)
    (hfirst : first.type ≠ TokenType.LEFT_PAREN) (hop : isTerm op.type = true)
    (hr : leftParens r = rightParens r) (hno : NoSplit isTerm r) :
    parse (first :: (l ++ op :: r))
      = makeBinary (binaryOp op.type) (parse (first :: l)) (parse r) := by
  have hs : findSplit isTerm (first :: (l ++ op :: r)) = some (first :: l, op, r) := by
    rw [← List.cons_append]
    exact findSplit_eq_some isTerm _ op r hop hr hno
  rw [parse_terms first _ _ op _ (Or.inl (by simp)) (fun h => hfirst h.1) hs,
    binaryOp_term _ hop]

/-- A range that does not start with a parenthesis and has no `ADD` or `SUB`
token outside parentheses is split at its last such `MUL` or `DIV` token. -/
theorem parse_at_factor (first : Token) (l r : List Token) (op : Token)
    (hfirst : first.type ≠ TokenType.LEFT_PAREN) (hop : isFactor op.type = true)
    (hr : leftParens r = rightParens r) (hno : NoSplit isFactor r)
    (hterm : NoSplit isTerm (first :: (l ++ op :: r))) :
    parse (first :: (l ++ op :: r))
      = makeBinary (binaryOp op.type) (parse (first :: l)) (parse r) := by
  have hs : findSplit isFactor (first :: (l ++ op :: r)) = some (first :: l, op, r) := by
    rw [← List.cons_append]
    exact findSplit_eq_some isFactor _ op r hop hr hno
  rw [parse_factors first _ _ op _ (Or.inl (by simp)) (fun h => hfirst h.1)
    (findSplit_eq_none isTerm _ hterm) hs, binaryOp_factor _ hop]

theorem chain_append (a b : List (Token × Token)) : chain (a ++ b) = chain a ++ chain b := by
  induction a with
  | nil => rfl
  | cons p a ih => simp [chain, ih]

theorem mem_chain (rest : List (Token × Token)) (t : Token) (h : t ∈ chain rest) :
    ∃ p ∈ rest, t = p.1 ∨ t = p.2 := by
  induction rest with
  | nil => simp [chain] at h
  | cons q rest ih =>
    simp only [chain, List.mem_cons] at h
    rcases h with h | h | h
    · exact ⟨q, by simp, Or.inl h⟩
    · exact ⟨q, by simp, Or.inr h⟩
    · obtain ⟨p, hp, hp2⟩ := ih h
      exact ⟨p, by simp [hp], hp2⟩

theorem leftNested_concat (n0 : Token) (rest : List (Token × Token)) (p : Token × Token) :
    leftNested n0 (rest ++ [p])
      = binaryOp p.1.type (leftNested n0 rest) (Expr.NUMBER p.2.value) := by
  simp [leftNested, List.foldl_append]

/-- The tokens of a chain of operators and numbers have no parentheses. -/
theorem chain_no_paren (n0 : Token) (rest : List (Token × Token))
    (hn0 : n0.type = TokenType.NUMBER)
    (hrest : ∀ p ∈ rest, (isTerm p.1.type = true ∨ isFactor p.1.type = true)
      ∧ p.2.type = TokenType.NUMBER) :
    ∀ t ∈ n0 :: chain rest, t.type ≠ TokenType.LEFT_PAREN ∧ t.type ≠ TokenType.RIGHT_PAREN := by
  intro t ht
  rcases List.mem_cons.1 ht with rfl | ht
  · rw [hn0]; exact ⟨by decide, by decide⟩
  · obtain ⟨p, hp, rfl | rfl⟩ := mem_chain rest t ht
    · rcases (hrest p hp).1 with h | h
      · exact isTerm_ne_paren _ h
      · exact isFactor_ne_paren _ h
    · rw [(hrest p hp).2]; exact ⟨by decide, by decide⟩

/-- A chain of numbers and `ADD`/`SUB` tokens is parsed to the left-nested tree. -/
theorem parse_chain_terms (n0 : Token) (hn0 : n0.type = TokenType.NUMBER) :
    ∀ rest : List (Token × Token),
      (∀ p ∈ rest, isTerm p.1.type = true ∧ p.2.type = TokenType.NUMBER) →
      parse (n0 :: chain rest) = Except.ok (leftNested n0 rest) := by
  intro rest
  induction rest using List.reverseRecOn with
  | nil =>
    intro _
    simpa [chain, leftNested] using parse_number n0 hn0
  | append_singleton rest p ih =>
    intro h
    have hp := h p (by simp)
    have ih2 := ih (fun q hq => h q (by simp [hq]))
    have hshape : n0 :: chain (rest ++ [p]) = n0 :: (chain rest ++ p.1 :: [p.2]) := by
      simp [chain_append, chain]
    have hno : NoSplit isTerm [p.2] :=
      NoSplit_of_forall _ _ (by simp [hp.2, isTerm])
    rw [hshape, parse_at_term n0 _ _ p.1 (by rw [hn0]; decide) hp.1
      (by simp [leftParens, rightParens, hp.2]) hno, ih2, parse_number _ hp.2,
      leftNested_concat]
    rfl

/-- A chain of numbers and `MUL`/`DIV` tokens is parsed to the left-nested tree. -/
theorem parse_chain_factors (n0 : Token) (hn0 : n0.type = TokenType.NUMBER) :
    ∀ rest : List (Token × Token),
      (∀ p ∈ rest, isFactor p.1.type = true ∧ p.2.type = TokenType.NUMBER) →
      parse (n0 :: chain rest) = Except.ok (leftNested n0 rest) := by
  intro rest
  induction rest using List.reverseRecOn with
  | nil =>
    intro _
    simpa [chain, leftNested] using parse_number n0 hn0
  | append_singleton rest p ih =>
    intro h
    have hp := h p (by simp)
    have ih2 := ih (fun q hq => h q (by simp [hq]))
    have hshape : n0 :: chain (rest ++ [p]) = n0 :: (chain rest ++ p.1 :: [p.2]) := by
      simp [chain_append, chain]
    have hno : NoSplit isFactor [p.2] :=
      NoSplit_of_forall _ _ (by simp [hp.2, isFactor])
    have hterm : NoSplit isTerm (n0 :: (chain rest ++ p.1 :: [p.2])) := by
      rw [← hshape]
      apply NoSplit_of_forall
      intro t ht
      rcases List.mem_cons.1 ht with rfl | ht
      · rw [hn0]; rfl
      · obtain ⟨q, hq, rfl | rfl⟩ := mem_chain _ t ht
        · exact isTerm_not_factor _ (h q hq).1
        · rw [(h q hq).2]; rfl
    rw [hshape, parse_at_factor n0 _ _ p.1 (by rw [hn0]; decide) hp.1
      (by simp [leftParens, rightParens, hp.2]) hno hterm, ih2, parse_number _ hp.2,
      leftNested_concat]
    rfl

theorem hasTerm_leftNested (n0 : Token) :
    ∀ rest : List (Token × Token), (∀ p ∈ rest, isFactor p.1.type = true) →
      hasTerm (leftNested n0 rest) = false := by
  intro rest
  induction rest using List.reverseRecOn with
  | nil => intro _; rfl
  | append_singleton rest p ih =>
    intro h
    have hp := h p (by simp)
    have ih2 := ih (fun q hq => h q (by simp [hq]))
    rw [leftNested_concat]
    cases hpt : p.1.type <;> simp [hpt, isFactor] at hp <;> simp [binaryOp, hasTerm, ih2]

theorem respectsPrecedence_leftNested (n0 : Token) (rest : List (Token × Token))
    (h : ∀ p ∈ rest, isFactor p.1.type = true) :
    respectsPrecedence (leftNested n0 rest) = true := by
  induction rest using List.reverseRecOn with
  | nil => rfl
  | append_singleton rest p _ =>
    have hp := h p (by simp)
    have h2 := hasTerm_leftNested n0 rest (fun q hq => h q (by simp [hq]))
    rw [leftNested_concat]
    cases hpt : p.1.type <;> simp [hpt, isFactor] at hp <;>
      simp [binaryOp, respectsPrecedence, hasTerm, h2]

/-- Either no operator of a chain is `ADD` or `SUB`, or there is a last one. -/
theorem exists_last_term (rest : List (Token × Token)) :
    (∀ p ∈ rest, isTerm p.1.type = false) ∨
      ∃ a p b, rest = a ++ p :: b ∧ isTerm p.1.type = true ∧ ∀ q ∈ b, isTerm q.1.type = false := by
  induction rest using List.reverseRecOn with
  | nil => left; simp
  | append_singleton rest x ih =>
    by_cases hx : isTerm x.1.type = true
    · right
      exact ⟨rest, x, [], rfl, hx, by simp⟩
    · have hx2 : isTerm x.1.type = false := by simpa using hx
      rcases ih with h | ⟨a, p, b, hd, hp, hb⟩
      · left
        intro q hq
        rcases List.mem_append.1 hq with hq | hq
        · exact h q hq
        · simp only [List.mem_singleton] at hq
          rw [hq]; exact hx2
      · right
        refine ⟨a, p, b ++ [x], by simp [hd], hp, ?_⟩
        intro q hq
        rcases List.mem_append.1 hq with hq | hq
        · exact hb q hq
        · simp only [List.mem_singleton] at hq
          rw [hq]; exact hx2

/-- A range `Number (op Number)*` without parentheses is accepted, and in its
tree no `ADD` or `SUB` node is below a `MUL` or `DIV` node. -/
theorem parse_chain_precedence :
    ∀ (k : Nat) (n0 : Token) (rest : List (Token × Token)), rest.length ≤ k →
      n0.type = TokenType.NUMBER →
      (∀ p ∈ rest, (isTerm p.1.type = true ∨ isFactor p.1.type = true)
        ∧ p.2.type = TokenType.NUMBER) →
      ∃ e, parse (n0 :: chain rest) = Except.ok e ∧ respectsPrecedence e = true := by
  intro k
  induction k with
  | zero =>
    intro n0 rest hlen hn0 _
    have : rest = [] := List.length_eq_zero.1 (by omega)
    subst this
    exact ⟨Expr.NUMBER n0.value, by simpa [chain] using parse_number n0 hn0, rfl⟩
  | succ k ih =>
    intro n0 rest hlen hn0 h
    rcases exists_last_term rest with hall | ⟨a, p, b, hd, hp, hb⟩
    · have hf : ∀ q ∈ rest, isFactor q.1.type = true := by
        intro q hq
        rcases (h q hq).1 with h1 | h1
        · rw [hall q hq] at h1; cases h1
        · exact h1
      exact ⟨leftNested n0 rest,
        parse_chain_factors n0 hn0 rest (fun q hq => ⟨hf q hq, (h q hq).2⟩),
        respectsPrecedence_leftNested n0 rest hf⟩
    · subst hd
      have hlen2 : a.length ≤ k := by
        simp only [List.length_append, List.length_cons] at hlen
        omega
      have hpn : p.2.type = TokenType.NUMBER := (h p (by simp)).2
      have hbf : ∀ q ∈ b, isFactor q.1.type = true ∧ q.2.type = TokenType.NUMBER := by
        intro q hq
        have h1 := h q (by simp [hq])
        rcases h1.1 with h2 | h2
        · rw [hb q hq] at h2; cases h2
        · exact ⟨h2, h1.2⟩
      obtain ⟨e1, he1, hr1⟩ := ih n0 a hlen2 hn0 (fun q hq => h q (by simp [hq]))
      have hnp := chain_no_paren p.2 b hpn (fun q hq => ⟨Or.inr (hbf q hq).1, (hbf q hq).2⟩)
      have hshape : n0 :: chain (a ++ p :: b) = n0 :: (chain a ++ p.1 :: (p.2 :: chain b)) := by
        simp [chain_append, chain]
      have hno : NoSplit isTerm (p.2 :: chain b) := by
        apply NoSplit_of_forall
        intro t ht
        rcases List.mem_cons.1 ht with rfl | ht
        · rw [hpn]; rfl
        · obtain ⟨q, hq, rfl | rfl⟩ := mem_chain _ t ht
          · exact hb q hq
          · rw [(hbf q hq).2]; rfl
      refine ⟨binaryOp p.1.type e1 (leftNested p.2 b), ?_, ?_⟩
      · rw [hshape, parse_at_term n0 _ _ p.1 (by rw [hn0]; decide) hp
          (by rw [leftParens_eq_zero _ (fun t ht => (hnp t ht).1),
            rightParens_eq_zero _ (fun t ht => (hnp t ht).2)]) hno, he1,
          parse_chain_factors p.2 hpn b hbf]
        rfl
      · have hr2 := respectsPrecedence_leftNested p.2 b (fun q hq => (hbf q hq).1)
        cases hpt : p.1.type <;> simp [hpt, isTerm] at hp <;>
          simp [binaryOp, respectsPrecedence, hr1, hr2]

/-! ## The lexer: tokens before the last one do not matter -/

theorem getLast?_prepend (pre ts : List Token) (h : ts ≠ []) :
    (pre ++ ts).getLast? = ts.getLast? := by
  obtain ⟨t, hl⟩ : ∃ t, ts.getLast? = some t := by
    cases hx : ts.getLast? with
    | none => exact absurd (List.getLast?_eq_none_iff.1 hx) h
    | some t => exact ⟨t, rfl⟩
  rw [List.getLast?_append, hl]
  rfl

theorem isSign_prepend (prev : Option Char) (c : Char) (next : Option Char)
    (pre ts : List Token) (h : ts ≠ []) :
    isSign prev c next (pre ++ ts) = isSign prev c next ts := by
  unfold isSign
  rw [getLast?_prepend pre ts h]

theorem flush_prepend (c : Char) (pre : List Token) (st : LexState) (h : st.tokens ≠ []) :
    flush c (st.prepend pre) = (flush c st).map (LexState.prepend pre) := by
  unfold flush
  simp only [LexState.prepend, getLast?_prepend pre st.tokens h]
  by_cases hn : st.number = []
  · simp [hn, Except.map, LexState.prepend]
  · simp only [if_neg hn]
    by_cases hc : c = '('
    · simp only [if_pos hc]
      cases stod (if st.number = ['-'] then ['-', '1'] else st.number) with
      | error f => rfl
      | ok v =>
        simp only [Except.map, LexState.prepend]
        split <;> simp
    · simp only [if_neg hc]
      cases stod (if st.number = ['-'] then ['-', '1'] else st.number) with
      | error f => rfl
      | ok v => simp [Except.map, LexState.prepend]

theorem flush_tokens_ne_nil (c : Char) (st st1 : LexState) (h : st.tokens ≠ [])
    (hf : flush c st = Except.ok st1) : st1.tokens ≠ [] := by
  unfold flush at hf
  by_cases hn : st.number = []
  · simp only [if_pos hn, Except.ok.injEq] at hf
    rw [← hf]; exact h
  · simp only [if_neg hn] at hf
    by_cases hc : c = '('
    · simp only [if_pos hc] at hf
      cases hs : stod (if st.number = ['-'] then ['-', '1'] else st.number) with
      | error f => rw [hs] at hf; cases hf
      | ok v =>
        rw [hs] at hf
        simp only [Except.ok.injEq] at hf
        rw [← hf]; simp
    · simp only [if_neg hc] at hf
      cases hs : stod (if st.number = ['-'] then ['-', '1'] else st.number) with
      | error f => rw [hs] at hf; cases hf
      | ok v =>
        rw [hs] at hf
        simp only [Except.ok.injEq] at hf
        rw [← hf]; simp

theorem lexChar_prepend (c : Char) (pre : List Token) (st : LexState) :
    lexChar c (st.prepend pre) = (lexChar c st).map (LexState.prepend pre) := by
  unfold lexChar
  simp only [LexState.prepend, emit]
  repeat' split
  all_goals simp [Except.map, LexState.prepend]

theorem lexChar_tokens_ne_nil (c : Char) (st st1 : LexState) (h : st.tokens ≠ [])
    (hf : lexChar c st = Except.ok st1) : st1.tokens ≠ [] := by
  unfold lexChar at hf
  simp only [emit] at hf
  repeat' split at hf
  all_goals first
    | (simp only [Except.ok.injEq] at hf; rw [← hf]; simp [h])
    | cases hf

theorem lexStep_prepend (prev : Option Char) (c : Char) (next : Option Char)
    (pre : List Token) (st : LexState) (h : st.tokens ≠ []) :
    lexStep prev c next (st.prepend pre)
      = (lexStep prev c next st).map (LexState.prepend pre) := by
  unfold lexStep
  have h1 : (st.prepend pre).tokens = pre ++ st.tokens := rfl
  rw [h1, isSign_prepend _ _ _ _ _ h, flush_prepend c pre st h]
  split
  · simp [Except.map, LexState.prepend]
  · cases flush c st with
    | error f => rfl
    | ok st1 =>
      simp only [Except.map]
      exact lexChar_prepend c pre st1

theorem lexStep_tokens_ne_nil (prev : Option Char) (c : Char) (next : Option Char)
    (st st1 : LexState) (h : st.tokens ≠ [])
    (hf : lexStep prev c next st = Except.ok st1) : st1.tokens ≠ [] := by
  unfold lexStep at hf
  split at hf
  · simp only [Except.ok.injEq] at hf
    rw [← hf]; exact h
  · cases hfl : flush c st with
    | error f => rw [hfl] at hf; cases hf
    | ok st2 =>
      rw [hfl] at hf
      exact lexChar_tokens_ne_nil c st2 st1 (flush_tokens_ne_nil c st st2 h hfl) hf

theorem lexLoop_prepend (pre : List Token) :
    ∀ (input : List Char) (prev : Option Char) (st : LexState), st.tokens ≠ [] →
      lexLoop prev input (st.prepend pre)
        = (lexLoop prev input st).map (LexState.prepend pre) := by
  intro input
  induction input with
  | nil => intro prev st _; rfl
  | cons c rest ih =>
    intro prev st h
    simp only [lexLoop]
    rw [lexStep_prepend _ _ _ _ _ h]
    cases hs : lexStep prev c rest.head? st with
    | error f => rfl
    | ok st1 =>
      simp only [Except.map]
      exact ih (some c) st1 (lexStep_tokens_ne_nil _ _ _ _ _ h hs)

theorem lexEnd_prepend (pre : List Token) (st : LexState) :
    lexEnd (st.prepend pre) = (lexEnd st).map (fun ts => pre ++ ts) := by
  unfold lexEnd
  simp only [LexState.prepend]
  split
  · rfl
  · cases stod st.number with
    | error f => rfl
    | ok v => simp [Except.map]

/-- The rest of `lex` from a state that has tokens: tokens put before them
come out before the result. -/
theorem lex_rest_prepend (pre : List Token) (input : List Char) (prev : Option Char)
    (st : LexState) (h : st.tokens ≠ []) :
    (match lexLoop prev input (st.prepend pre) with
      | Except.error f => Except.error f
      | Except.ok st1 => lexEnd st1)
      = (match lexLoop prev input st with
          | Except.error f => Except.error f
          | Except.ok st1 => lexEnd st1).map (fun ts => pre ++ ts) := by
  rw [lexLoop_prepend pre input prev st h]
  cases lexLoop prev input st with
  | error f => rfl
  | ok st1 =>
    simp only [Except.map]
    rw [lexEnd_prepend]
    rfl

/-! ## The lexer: numbers -/

theorem lexStep_digit (prev : Option Char) (c : Char) (next : Option Char) (st : LexState)
    (h : c.isDigit = true) :
    lexStep prev c next st = Except.ok { st with number := st.number ++ [c] } := by
  simp [lexStep, h]

/-- The neighbour before a character only matters for a `-`. -/
theorem lexStep_prev (prev prev2 : Option Char) (c : Char) (next : Option Char)
    (st : LexState) (h : c ≠ '-') :
    lexStep prev c next st = lexStep prev2 c next st := by
  simp [lexStep, isSign, h]

/-- The loop of `lex` takes a run of digits into the numeric buffer. -/
theorem lexLoop_digits :
    ∀ (ds : List Char) (prev : Option Char) (rest : List Char) (st : LexState),
      (∀ c ∈ ds, c.isDigit = true) →
      lexLoop prev (ds ++ rest) st
        = lexLoop (ds.getLast?.or prev) rest { st with number := st.number ++ ds } := by
  intro ds
  induction ds with
  | nil => intro prev rest st _; simp
  | cons d ds ih =>
    intro prev rest st h
    rw [List.cons_append, lexLoop, lexStep_digit _ _ _ _ (h d (by simp))]
    simp only
    rw [ih (some d) rest _ (fun c hc => h c (by simp [hc]))]
    congr 1
    · cases ds with
      | nil => rfl
      | cons e ds =>
        rw [List.getLast?_cons_cons]
        cases hl : (e :: ds).getLast? with
        | none => simp at hl
        | some x => rfl
    · simp

/-- The bounds of the range of `double`: `overflowBound` is
`2 ^ 1024 - 2 ^ 970`, the midpoint between the largest `double`
`(2 ^ 53 - 1) * 2 ^ 971` and `2 ^ 1024`, and `normalBound` is `2 ^ 1022`. -/
theorem overflowBound_eq :
    overflowBound = 2 ^ 1024 - 2 ^ 970
    ∧ 2 * overflowBound = (2 ^ 53 - 1) * 2 ^ 971 + 2 ^ 1024
    ∧ normalBound = 2 ^ 1022 := by
  refine ⟨?_, ?_, ?_⟩
  · norm_num [overflowBound]
  · norm_num [overflowBound]
  · norm_num [normalBound]

/-- The library function `std::stod` on a run of digits: the text is the
literal, with no sign and no fraction. -/
theorem stod_digits_eq (ds : List Char) (hne : ds ≠ []) (h : ∀ c ∈ ds, c.isDigit = true) :
    stod ds = toDouble false ds [] := by
  obtain ⟨d, ds1, rfl⟩ := List.exists_cons_of_ne_nil hne
  have hd : d.isDigit = true := h d (by simp)
  have h1 : d ≠ '-' := by rintro rfl; exact absurd hd (by decide)
  have h2 : d ≠ '+' := by rintro rfl; exact absurd hd (by decide)
  have h3 : List.takeWhile Char.isDigit (d :: ds1) = d :: ds1 :=
    List.takeWhile_eq_self_iff.2 h
  have h4 : List.dropWhile Char.isDigit (d :: ds1) = [] :=
    List.dropWhile_eq_nil_iff.2 h
  unfold stod
  simp only [List.head?_cons, Option.some.injEq, h1, h2, or_self, if_false, h3, h4,
    decide_False]

/-- The library function `std::stod` converts a run of digits exactly when its
value is below `overflowBound`. -/
theorem stod_digits (ds : List Char) (hne : ds ≠ []) (h : ∀ c ∈ ds, c.isDigit = true) :
    stod ds = if overflowBound ≤ digitsValue ds then Except.error Failure.out_of_range
      else Except.ok (digitsValue ds : ℚ) := by
  rw [stod_digits_eq ds hne h]
  unfold toDouble
  have hpos : 0 < normalBound := by decide
  have htiny : ¬ (0 < digitsValue ds ∧ digitsValue ds * normalBound < 1) := by
    rintro ⟨h0, h1⟩
    have : 1 ≤ digitsValue ds * normalBound := Nat.mul_pos h0 hpos
    omega
  have hne2 : ¬ (ds = [] ∧ ([] : List Char) = []) := fun h0 => hne h0.1
  rw [if_neg hne2]
  simp only [List.append_nil, List.length_nil, Nat.pow_zero, Nat.mul_one]
  by_cases hov : overflowBound ≤ digitsValue ds
  · rw [if_pos hov, if_pos hov]
  · rw [if_neg hov, if_neg hov, if_neg htiny]
    simp [Rat.mkRat_one]

/-- The value of a run of digits is below the power of ten of its length. -/
theorem digitsValue_lt (ds : List Char) (h : ∀ c ∈ ds, c.isDigit = true) :
    digitsValue ds < 10 ^ ds.length := by
  have key : ∀ (l : List Char) (acc : Nat), (∀ c ∈ l, c.isDigit = true) →
      List.foldl (fun acc c => 10 * acc + (c.toNat - 48)) acc l + 1
        ≤ (acc + 1) * 10 ^ l.length := by
    intro l
    induction l with
    | nil => intro acc _; simp
    | cons c l ih =>
      intro acc hl
      have hc : c.toNat - 48 ≤ 9 := by
        have := hl c (by simp)
        simp only [Char.isDigit, Bool.and_eq_true, decide_eq_true_eq] at this
        have h2 : c.val ≤ 57 := this.2
        have h3 : c.toNat ≤ 57 := by
          simpa [Char.toNat] using h2
        omega
      have h1 := ih (10 * acc + (c.toNat - 48)) (fun x hx => hl x (by simp [hx]))
      simp only [List.foldl_cons, List.length_cons]
      calc List.foldl (fun acc c => 10 * acc + (c.toNat - 48)) (10 * acc + (c.toNat - 48)) l + 1
          ≤ (10 * acc + (c.toNat - 48) + 1) * 10 ^ l.length := h1
        _ ≤ ((acc + 1) * 10) * 10 ^ l.length := by
            apply Nat.mul_le_mul_right
            omega
        _ = (acc + 1) * 10 ^ (l.length + 1) := by
            rw [Nat.pow_succ, Nat.mul_assoc, Nat.mul_comm 10]
  have := key ds 0 h
  simp only [Nat.zero_add, Nat.one_mul] at this
  exact this

/-- A run of at most 15 digits is converted to its value. -/
theorem stod_digits_short (ds : List Char) (hne : ds ≠ []) (h : ∀ c ∈ ds, c.isDigit = true)
    (hlen : ds.length ≤ 15) : stod ds = Except.ok (digitsValue ds : ℚ) := by
  rw [stod_digits ds hne h, if_neg]
  have h1 := digitsValue_lt ds h
  have h2 : 10 ^ ds.length ≤ 10 ^ 15 := Nat.pow_le_pow_right (by decide) hlen
  have h3 : 10 ^ 15 < overflowBound := by decide
  omega

/-- A run of digits is not the buffer `-`. -/
theorem digits_ne_minus (ds : List Char) (h : ∀ c ∈ ds, c.isDigit = true) : ds ≠ ['-'] := by
  rintro rfl
  exact absurd (h '-' (by simp)) (by decide)

/-! ## The lexer: implicit multiplication -/

/-- The state of `lex` after a `(` at the start of the input. -/
theorem lexStep_open_first (next : Option Char) :
    lexStep none '(' next LexState.init
      = Except.ok { tokens := [make_token TokenType.LEFT_PAREN 0], number := [],
                    add_extra_paren := false, extra_paren_count := 0 } := by
  simp [lexStep, isSign, flush, lexChar, LexState.init]

/-- The characters `-(` at the start of the input. -/
theorem lexChars_minus_open (s : List Char) :
    lexChars ('-' :: '(' :: s)
      = (lexChars ('(' :: s)).map
          (fun ts => make_token TokenType.NUMBER (-1) :: make_token TokenType.MUL 0 :: ts) := by
  have h1 : lexStep none '-' (some '(') LexState.init
      = Except.ok { LexState.init with number := ['-'] } := by
    simp [lexStep, isSign, LexState.init]
  have h2 : stod ['-', '1'] = Except.ok (-1) := by decide
  have h3 : lexStep (some '-') '(' s.head? { LexState.init with number := ['-'] }
      = Except.ok (LexState.prepend
          [make_token TokenType.NUMBER (-1), make_token TokenType.MUL 0]
          { tokens := [make_token TokenType.LEFT_PAREN 0], number := [],
            add_extra_paren := false, extra_paren_count := 0 }) := by
    simp [lexStep, isSign, flush, lexChar, LexState.init, h2, LexState.prepend]
  unfold lexChars
  simp only [lexLoop, List.head?_cons, h1, h3, lexStep_open_first]
  exact lex_rest_prepend _ s (some '(') _ (by simp)

/-- A run of digits that `std::stod` converts, before a `(` at the start of
the input. -/
theorem lexChars_digits_open (d s : List Char) (v : ℚ) (hne : d ≠ [])
    (hd : ∀ c ∈ d, c.isDigit = true) (hv : stod d = Except.ok v) :
    lexChars (d ++ '(' :: s)
      = (lexChars ('(' :: s)).map
          (fun ts => make_token TokenType.NUMBER v :: make_token TokenType.MUL 0 :: ts) := by
  have h3 : ∀ prev, lexStep prev '(' s.head? { LexState.init with number := [] ++ d }
      = Except.ok (LexState.prepend
          [make_token TokenType.NUMBER v, make_token TokenType.MUL 0]
          { tokens := [make_token TokenType.LEFT_PAREN 0], number := [],
            add_extra_paren := false, extra_paren_count := 0 }) := by
    intro prev
    simp [lexStep, isSign, flush, lexChar, LexState.init, hne, digits_ne_minus d hd,
      hv, LexState.prepend]
  unfold lexChars
  rw [lexLoop_digits d none _ _ hd]
  simp only [lexLoop, List.head?_cons, lexStep_open_first]
  have h4 := h3 (d.getLast?.or none)
  simp only [LexState.init] at h4 ⊢
  rw [h4]
  exact lex_rest_prepend _ s (some '(') _ (by simp)

/-- A run of digits that `std::stod` does not convert, before a `(` at the
start of the input: `lex` ends with the exception of `std::stod`. -/
theorem lexChars_digits_open_error (d s : List Char) (f : Failure) (hne : d ≠ [])
    (hd : ∀ c ∈ d, c.isDigit = true) (hv : stod d = Except.error f) :
    lexChars (d ++ '(' :: s) = Except.error f := by
  have h3 : ∀ prev, lexStep prev '(' s.head? { LexState.init with number := [] ++ d }
      = Except.error f := by
    intro prev
    simp [lexStep, isSign, flush, LexState.init, hne, digits_ne_minus d hd, hv]
  unfold lexChars
  rw [lexLoop_digits d none _ _ hd]
  simp only [lexLoop, List.head?_cons]
  have h4 := h3 (d.getLast?.or none)
  simp only [LexState.init] at h4 ⊢
  rw [h4]

/-- A run of digits that `std::stod` does not convert, at the start of the
input and before a character that ends the number: `lex` ends with the
exception of `std::stod`. -/
theorem lexChars_digits_error (d rest : List Char) (c : Char) (f : Failure) (hne : d ≠ [])
    (hd : ∀ x ∈ d, x.isDigit = true) (hv : stod d = Except.error f)
    (h1 : c.isDigit = false) (h2 : c ≠ '.') (h3 : c ≠ '-') :
    lexChars (d ++ c :: rest) = Except.error f := by
  have h4 : ∀ prev, lexStep prev c rest.head? { LexState.init with number := [] ++ d }
      = Except.error f := by
    intro prev
    by_cases hc : c = '('
    · simp [lexStep, isSign, flush, LexState.init, hne, digits_ne_minus d hd, hv, h1, h2,
        h3, hc]
    · simp [lexStep, isSign, flush, LexState.init, hne, digits_ne_minus d hd, hv, h1, h2,
        h3, hc]
  unfold lexChars
  rw [lexLoop_digits d none _ _ hd]
  simp only [lexLoop]
  have h5 := h4 (d.getLast?.or none)
  simp only [LexState.init] at h5 ⊢
  rw [h5]

/-! ## The lexer: a division before an implicit multiplication -/

/-- A pending run of digits is flushed by a character that is not part of a
number and not a `(`. -/
theorem lexStep_flush_digits (prev next : Option Char) (c : Char) (ds : List Char)
    (tokens : List Token) (aep : Bool) (count : Int) (v : ℚ) (hne : ds ≠ [])
    (hd : ∀ x ∈ ds, x.isDigit = true) (hv : stod ds = Except.ok v)
    (h1 : c.isDigit = false) (h2 : c ≠ '.') (h3 : c ≠ '-') (h4 : c ≠ '(') :
    lexStep prev c next
        { tokens := tokens, number := ds, add_extra_paren := aep, extra_paren_count := count }
      = lexChar c
          { tokens := tokens ++ [make_token TokenType.NUMBER v],
            number := [], add_extra_paren := aep, extra_paren_count := count } := by
  simp [lexStep, isSign, flush, h1, h2, h3, h4, hne, digits_ne_minus ds hd, hv]

/-- A pending run of digits before a `(` when the last token is a `DIV`. -/
theorem lexStep_flush_quirk (prev next : Option Char) (ds : List Char)
    (tokens : List Token) (aep : Bool) (count : Int) (v : ℚ) (hne : ds ≠ [])
    (hd : ∀ x ∈ ds, x.isDigit = true) (hv : stod ds = Except.ok v) :
    lexStep prev '(' next
        { tokens := tokens ++ [make_token TokenType.DIV 0], number := ds,
          add_extra_paren := aep, extra_paren_count := count }
      = lexChar '('
          { tokens := tokens ++ [make_token TokenType.DIV 0,
              make_token TokenType.LEFT_PAREN 0,
              make_token TokenType.NUMBER v, make_token TokenType.MUL 0],
            number := [], add_extra_paren := true, extra_paren_count := count } := by
  simp [lexStep, isSign, flush, hne, digits_ne_minus ds hd, hv, make_token]

/-- The input `a/b(c+d)` for runs of digits `a`, `b`, `c`, `d`. -/
theorem lexChars_div_quirk (a b c d : List Char)
    (ha : a ≠ []) (hb : b ≠ []) (hc : c ≠ []) (hd : d ≠ [])
    (ha2 : ∀ x ∈ a, x.isDigit = true) (hb2 : ∀ x ∈ b, x.isDigit = true)
    (hc2 : ∀ x ∈ c, x.isDigit = true) (hd2 : ∀ x ∈ d, x.isDigit = true)
    (va vb vc vd : ℚ) (hva : stod a = Except.ok va) (hvb : stod b = Except.ok vb)
    (hvc : stod c = Except.ok vc) (hvd : stod d = Except.ok vd) :
    lexChars (a ++ '/' :: (b ++ '(' :: (c ++ '+' :: (d ++ [')']))))
      = Except.ok
          [make_token TokenType.NUMBER va, make_token TokenType.DIV 0,
            make_token TokenType.LEFT_PAREN 0,
            make_token TokenType.NUMBER vb, make_token TokenType.MUL 0,
            make_token TokenType.LEFT_PAREN 0,
            make_token TokenType.NUMBER vc, make_token TokenType.ADD 0,
            make_token TokenType.NUMBER vd,
            make_token TokenType.RIGHT_PAREN 0, make_token TokenType.RIGHT_PAREN 0] := by
  unfold lexChars
  rw [lexLoop_digits a none _ _ ha2]
  simp only [LexState.init, List.nil_append, lexLoop]
  rw [lexStep_flush_digits _ _ '/' a [] false 0 va ha ha2 hva (by decide) (by decide) (by decide)
    (by decide)]
  simp only [lexChar, emit, Char.reduceEq, if_false, if_true, List.nil_append]
  rw [lexLoop_digits b _ _ _ hb2]
  simp only [List.nil_append, lexLoop]
  rw [lexStep_flush_quirk _ _ b [_] false 0 vb hb hb2 hvb]
  simp only [lexChar, emit, Char.reduceEq, if_false, if_true, List.cons_append,
    List.nil_append, Bool.true_eq_false]
  rw [lexLoop_digits c _ _ _ hc2]
  simp only [List.nil_append, lexLoop]
  rw [lexStep_flush_digits _ _ '+' c _ true _ vc hc hc2 hvc (by decide) (by decide) (by decide)
    (by decide)]
  simp only [lexChar, emit, Char.reduceEq, if_false, if_true, List.cons_append,
    List.nil_append]
  rw [lexLoop_digits d _ _ _ hd2]
  simp only [List.nil_append, lexLoop]
  rw [lexStep_flush_digits _ _ ')' d _ true _ vd hd hd2 hvd (by decide) (by decide) (by decide)
    (by decide)]
  simp [lexChar, lexEnd, lexLoop]

/-- The same tokens come from the input `a/(b*(c+d))` with explicit
parentheses and `*`. -/
theorem lexChars_div_explicit (a b c d : List Char)
    (ha : a ≠ []) (hb : b ≠ []) (hc : c ≠ []) (hd : d ≠ [])
    (ha2 : ∀ x ∈ a, x.isDigit = true) (hb2 : ∀ x ∈ b, x.isDigit = true)
    (hc2 : ∀ x ∈ c, x.isDigit = true) (hd2 : ∀ x ∈ d, x.isDigit = true)
    (va vb vc vd : ℚ) (hva : stod a = Except.ok va) (hvb : stod b = Except.ok vb)
    (hvc : stod c = Except.ok vc) (hvd : stod d = Except.ok vd) :
    lexChars (a ++ '/' :: '(' :: (b ++ '*' :: '(' :: (c ++ '+' :: (d ++ [')', ')']))))
      = Except.ok
          [make_token TokenType.NUMBER va, make_token TokenType.DIV 0,
            make_token TokenType.LEFT_PAREN 0,
            make_token TokenType.NUMBER vb, make_token TokenType.MUL 0,
            make_token TokenType.LEFT_PAREN 0,
            make_token TokenType.NUMBER vc, make_token TokenType.ADD 0,
            make_token TokenType.NUMBER vd,
            make_token TokenType.RIGHT_PAREN 0, make_token TokenType.RIGHT_PAREN 0] := by
  have hopen : ∀ (prev next : Option Char) (tokens : List Token),
      lexStep prev '(' next
          { tokens := tokens, number := [], add_extra_paren := false, extra_paren_count := 0 }
        = Except.ok { tokens := tokens ++ [make_token TokenType.LEFT_PAREN 0], number := [],
                      add_extra_paren := false, extra_paren_count := 0 } := by
    intro prev next tokens
    simp [lexStep, isSign, flush, lexChar]
  have hclose : ∀ (prev next : Option Char) (tokens : List Token),
      lexStep prev ')' next
          { tokens := tokens, number := [], add_extra_paren := false, extra_paren_count := 0 }
        = Except.ok { tokens := tokens ++ [make_token TokenType.RIGHT_PAREN 0], number := [],
                      add_extra_paren := false, extra_paren_count := 0 } := by
    intro prev next tokens
    simp [lexStep, isSign, flush, lexChar]
  unfold lexChars
  rw [lexLoop_digits a none _ _ ha2]
  simp only [LexState.init, List.nil_append, lexLoop]
  rw [lexStep_flush_digits _ _ '/' a [] false 0 va ha ha2 hva (by decide) (by decide) (by decide)
    (by decide)]
  simp only [lexChar, emit, Char.reduceEq, if_false, if_true, List.nil_append, hopen,
    List.cons_append]
  rw [lexLoop_digits b _ _ _ hb2]
  simp only [List.nil_append, lexLoop]
  rw [lexStep_flush_digits _ _ '*' b _ false 0 vb hb hb2 hvb (by decide) (by decide) (by decide)
    (by decide)]
  simp only [lexChar, emit, Char.reduceEq, if_false, if_true, List.nil_append, hopen,
    List.cons_append]
  rw [lexLoop_digits c _ _ _ hc2]
  simp only [List.nil_append, lexLoop]
  rw [lexStep_flush_digits _ _ '+' c _ false _ vc hc hc2 hvc (by decide) (by decide) (by decide)
    (by decide)]
  simp only [lexChar, emit, Char.reduceEq, if_false, if_true, List.cons_append,
    List.nil_append]
  rw [lexLoop_digits d _ _ _ hd2]
  simp only [List.nil_append, lexLoop]
  rw [lexStep_flush_digits _ _ ')' d _ false _ vd hd hd2 hvd (by decide) (by decide) (by decide)
    (by decide)]
  simp [lexChar, lexEnd, lexLoop, hclose]

/-- The tokens of `a/b(c+d)` are parsed to `Div(a, Mul(b, Add(c, d)))`. -/
theorem parse_div_quirk (a b c d : ℚ) :
    parse
        [make_token TokenType.NUMBER a, make_token TokenType.DIV 0,
          make_token TokenType.LEFT_PAREN 0,
          make_token TokenType.NUMBER b, make_token TokenType.MUL 0,
          make_token TokenType.LEFT_PAREN 0,
          make_token TokenType.NUMBER c, make_token TokenType.ADD 0,
          make_token TokenType.NUMBER d,
          make_token TokenType.RIGHT_PAREN 0, make_token TokenType.RIGHT_PAREN 0]
      = Except.ok
          (Expr.DIV (Expr.NUMBER a)
            (Expr.MUL (Expr.NUMBER b) (Expr.ADD (Expr.NUMBER c) (Expr.NUMBER d)))) := by
  rfl

/-! ## Runs on given inputs -/

theorem run_of (input : String) (exp : Expr) (v : ℚ)
    (h1 : mainExpr input = Except.ok exp) (h2 : evaluate exp = v) :
    run input = Except.ok v := by
  simp [run, h1, h2]

theorem run_error_of (input : String) (f : Failure)
    (h1 : mainExpr input = Except.error f) : run input = Except.error f := by
  simp [run, h1]

/-! ## The unary-minus rule -/

theorem isSign_minus_iff (prev next : Option Char) (tokens : List Token) :
    isSign prev '-' next tokens = true ↔ SignConditions prev next tokens := by
  unfold isSign SignConditions
  cases next with
  | none => simp
  | some n =>
    cases prev with
    | none =>
      cases hl : tokens.getLast? with
      | none =>
        have : tokens = [] := List.getLast?_eq_none_iff.1 hl
        simp [this]
      | some t =>
        have : tokens ≠ [] := by
          intro h0; rw [h0] at hl; simp at hl
        simp [this]
    | some p =>
      cases hl : tokens.getLast? with
      | none =>
        have : tokens = [] := List.getLast?_eq_none_iff.1 hl
        simp [this]
      | some t =>
        have : tokens ≠ [] := by
          intro h0; rw [h0] at hl; simp at hl
        simp [this, and_assoc]

theorem flush_tokens_length (c : Char) (st st1 : LexState)
    (hf : flush c st = Except.ok st1) : st.tokens.length ≤ st1.tokens.length := by
  unfold flush at hf
  by_cases hn : st.number = []
  · simp only [if_pos hn, Except.ok.injEq] at hf
    rw [← hf]
  · simp only [if_neg hn] at hf
    by_cases hc : c = '('
    · simp only [if_pos hc] at hf
      cases hs : stod (if st.number = ['-'] then ['-', '1'] else st.number) with
      | error f => rw [hs] at hf; cases hf
      | ok v =>
        rw [hs] at hf
        simp only [Except.ok.injEq] at hf
        rw [← hf]
        split <;> simp
    · simp only [if_neg hc] at hf
      cases hs : stod (if st.number = ['-'] then ['-', '1'] else st.number) with
      | error f => rw [hs] at hf; cases hf
      | ok v =>
        rw [hs] at hf
        simp only [Except.ok.injEq] at hf
        rw [← hf]; simp

/-- A `-` that is not taken as a sign: the pending number is flushed and one
`SUB` token is pushed. -/
theorem lexStep_minus_not_sign (prev next : Option Char) (st : LexState)
    (h : isSign prev '-' next st.tokens = false) :
    lexStep prev '-' next st = (flush '-' st).map (emit TokenType.SUB) := by
  unfold lexStep
  rw [h]
  simp only [Char.isDigit, Bool.false_eq_true, or_false]
  rw [if_neg (by decide)]
  cases flush '-' st with
  | error f => rfl
  | ok st1 => simp [lexChar, Except.map]

theorem flush_number_nil (c : Char) (st st1 : LexState)
    (hf : flush c st = Except.ok st1) : st1.number = [] := by
  unfold flush at hf
  by_cases hn : st.number = []
  · simp only [if_pos hn, Except.ok.injEq] at hf
    rw [← hf]; exact hn
  · simp only [if_neg hn] at hf
    by_cases hc : c = '('
    · simp only [if_pos hc] at hf
      cases hs : stod (if st.number = ['-'] then ['-', '1'] else st.number) with
      | error f => rw [hs] at hf; cases hf
      | ok v =>
        rw [hs] at hf
        simp only [Except.ok.injEq] at hf
        rw [← hf]
    · simp only [if_neg hc] at hf
      cases hs : stod (if st.number = ['-'] then ['-', '1'] else st.number) with
      | error f => rw [hs] at hf; cases hf
      | ok v =>
        rw [hs] at hf
        simp only [Except.ok.injEq] at hf
        rw [← hf]

theorem lexChar_close_number (st st1 : LexState)
    (h : lexChar ')' st = Except.ok st1) : st1.number = st.number := by
  simp only [lexChar, Char.reduceEq, if_false, if_true] at h
  by_cases hc : st.add_extra_paren = true ∧
      (if st.add_extra_paren = true then st.extra_paren_count - 1 else st.extra_paren_count) = 0
  · rw [if_pos hc] at h
    simp only [Except.ok.injEq] at h
    rw [← h]
  · rw [if_neg hc] at h
    simp only [Except.ok.injEq] at h
    rw [← h]

/-! ## The parser on the grammar of expressions -/

/-- A range is split at an `ADD` or `SUB` token between two parts whose
parentheses match in number, when the right part has no such token outside
parentheses. -/
theorem parse_split_term (l r : List Token) (op : Token) (hl : l ≠ [])
    (hlb : leftParens l = rightParens l) (hop : isTerm op.type = true)
    (hr : leftParens r = rightParens r) (hno : NoSplit isTerm r) :
    parse (l ++ op :: r) = makeBinary (binaryOp op.type) (parse l) (parse r) := by
  obtain ⟨first, l1, rfl⟩ := List.exists_cons_of_ne_nil hl
  have hstrip : ¬ (first.type = TokenType.LEFT_PAREN
      ∧ (first :: (l1 ++ op :: r)).getLast?.map Token.type = some TokenType.RIGHT_PAREN
      ∧ isLoneParen (first :: (l1 ++ op :: r)) = true) := by
    rintro ⟨hf, -, hlone⟩
    rw [isLoneParen_cons _ _ hf, loneParenLoop_true] at hlone
    apply hlone l1 op r rfl
    have hf2 : first.type ≠ TokenType.RIGHT_PAREN := by rw [hf]; decide
    rw [leftParens_cons, rightParens_cons, if_pos hf, if_neg hf2] at hlb
    omega
  have hs : findSplit isTerm (first :: (l1 ++ op :: r)) = some (first :: l1, op, r) := by
    rw [← List.cons_append]
    exact findSplit_eq_some isTerm _ op r hop hr hno
  rw [List.cons_append, parse_terms first _ _ op _ (Or.inl (by simp)) hstrip hs,
    binaryOp_term _ hop]

/-- A range without an `ADD` or `SUB` token outside parentheses is split at a
`MUL` or `DIV` token in the same way. -/
theorem parse_split_factor (l r : List Token) (op : Token) (hl : l ≠ [])
    (hlb : leftParens l = rightParens l) (hop : isFactor op.type = true)
    (hr : leftParens r = rightParens r) (hno : NoSplit isFactor r)
    (hterm : NoSplit isTerm (l ++ op :: r)) :
    parse (l ++ op :: r) = makeBinary (binaryOp op.type) (parse l) (parse r) := by
  obtain ⟨first, l1, rfl⟩ := List.exists_cons_of_ne_nil hl
  have hstrip : ¬ (first.type = TokenType.LEFT_PAREN
      ∧ (first :: (l1 ++ op :: r)).getLast?.map Token.type = some TokenType.RIGHT_PAREN
      ∧ isLoneParen (first :: (l1 ++ op :: r)) = true) := by
    rintro ⟨hf, -, hlone⟩
    rw [isLoneParen_cons _ _ hf, loneParenLoop_true] at hlone
    apply hlone l1 op r rfl
    have hf2 : first.type ≠ TokenType.RIGHT_PAREN := by rw [hf]; decide
    rw [leftParens_cons, rightParens_cons, if_pos hf, if_neg hf2] at hlb
    omega
  have hs : findSplit isFactor (first :: (l1 ++ op :: r)) = some (first :: l1, op, r) := by
    rw [← List.cons_append]
    exact findSplit_eq_some isFactor _ op r hop hr hno
  rw [List.cons_append, parse_factors first _ _ op _ (Or.inl (by simp)) hstrip
    (findSplit_eq_none isTerm _ hterm) hs, binaryOp_factor _ hop]

theorem Derivation.tokens_ne_nil (g : Derivation) : g.tokens ≠ [] := by
  cases g <;> simp [Derivation.tokens]

/-- The parentheses of the tokens of a derivation match. -/
theorem Derivation.tokens_balanced (g : Derivation) : Balanced g.tokens := by
  induction g with
  | num w f => exact Balanced_single _ (by simp [make_token]) (by simp [make_token])
  | add a b iha ihb =>
    exact Balanced_join _ _ _ (by simp [make_token]) (by simp [make_token]) iha ihb
  | sub a b iha ihb =>
    exact Balanced_join _ _ _ (by simp [make_token]) (by simp [make_token]) iha ihb
  | mul a b iha ihb =>
    exact Balanced_join _ _ _ (by simp [make_token]) (by simp [make_token]) iha ihb
  | div a b iha ihb =>
    exact Balanced_join _ _ _ (by simp [make_token]) (by simp [make_token]) iha ihb
  | group e ih => exact Balanced_wrap _ _ _ rfl rfl ih

theorem NoSplit_join (isOp : TokenType → Bool) (l r : List Token) (op : Token)
    (hop : isOp op.type = false) (h1 : op.type ≠ TokenType.LEFT_PAREN)
    (h2 : op.type ≠ TokenType.RIGHT_PAREN) (hl : NoSplit isOp l) (hr : NoSplit isOp r)
    (hrb : leftParens r = rightParens r) : NoSplit isOp (l ++ op :: r) := by
  apply NoSplit_append isOp l _ hl (NoSplit_cons isOp op r hop hr)
  rw [leftParens_cons, rightParens_cons, if_neg h1, if_neg h2]
  omega

/-- The tokens of a `T` have no `ADD` or `SUB` token outside parentheses, and
the tokens of an `F` have no operator outside parentheses. -/
theorem Derivation.tokens_noSplit (g : Derivation) :
    (IsT g → NoSplit isTerm g.tokens) ∧ (IsF g → NoSplit isFactor g.tokens) := by
  induction g with
  | num w f =>
    exact ⟨fun _ => NoSplit_of_forall _ _ (by simp [Derivation.tokens, make_token, isTerm]),
      fun _ => NoSplit_of_forall _ _ (by simp [Derivation.tokens, make_token, isFactor])⟩
  | add a b _ _ =>
    exact ⟨fun h => (by cases h with | factor h => cases h), fun h => (by cases h)⟩
  | sub a b _ _ =>
    exact ⟨fun h => (by cases h with | factor h => cases h), fun h => (by cases h)⟩
  | mul a b iha ihb =>
    refine ⟨fun h => ?_, fun h => by cases h⟩
    cases h with
    | mul ha hb =>
      exact NoSplit_join isTerm _ _ _ rfl (by simp [make_token]) (by simp [make_token])
        (iha.1 ha) (ihb.1 (IsT.factor hb)) b.tokens_balanced.2
    | factor h => cases h
  | div a b iha ihb =>
    refine ⟨fun h => ?_, fun h => by cases h⟩
    cases h with
    | div ha hb =>
      exact NoSplit_join isTerm _ _ _ rfl (by simp [make_token]) (by simp [make_token])
        (iha.1 ha) (ihb.1 (IsT.factor hb)) b.tokens_balanced.2
    | factor h => cases h
  | group e _ =>
    exact ⟨fun _ => NoSplit_wrap isTerm _ _ _ rfl rfl rfl rfl e.tokens_balanced,
      fun _ => NoSplit_wrap isFactor _ _ _ rfl rfl rfl rfl e.tokens_balanced⟩

/-- On the tokens of a derivation of the grammar `parse` returns the standard
reading. -/
theorem parse_derivation (g : Derivation) : IsE g → parse g.tokens = Except.ok g.reading := by
  induction g with
  | num w f =>
    intro _
    exact parse_number _ rfl
  | add a b iha ihb =>
    intro h
    cases h with
    | add ha hb =>
      rw [Derivation.tokens, parse_split_term a.tokens b.tokens (make_token TokenType.ADD 0)
        a.tokens_ne_nil a.tokens_balanced.2 rfl
        b.tokens_balanced.2 (b.tokens_noSplit.1 hb), iha ha, ihb (IsE.term hb)]
      rfl
    | term h => cases h with | factor h => cases h
  | sub a b iha ihb =>
    intro h
    cases h with
    | sub ha hb =>
      rw [Derivation.tokens, parse_split_term a.tokens b.tokens (make_token TokenType.SUB 0)
        a.tokens_ne_nil a.tokens_balanced.2 rfl
        b.tokens_balanced.2 (b.tokens_noSplit.1 hb), iha ha, ihb (IsE.term hb)]
      rfl
    | term h => cases h with | factor h => cases h
  | mul a b iha ihb =>
    intro h
    cases h with
    | term h =>
      have hT := h
      cases h with
      | mul ha hb =>
        rw [Derivation.tokens, parse_split_factor a.tokens b.tokens (make_token TokenType.MUL 0)
          a.tokens_ne_nil a.tokens_balanced.2 rfl
          b.tokens_balanced.2 (b.tokens_noSplit.2 hb)
          ((Derivation.mul a b).tokens_noSplit.1 hT), iha (IsE.term ha),
          ihb (IsE.term (IsT.factor hb))]
        rfl
      | factor h => cases h
  | div a b iha ihb =>
    intro h
    cases h with
    | term h =>
      have hT := h
      cases h with
      | div ha hb =>
        rw [Derivation.tokens, parse_split_factor a.tokens b.tokens (make_token TokenType.DIV 0)
          a.tokens_ne_nil a.tokens_balanced.2 rfl
          b.tokens_balanced.2 (b.tokens_noSplit.2 hb)
          ((Derivation.div a b).tokens_noSplit.1 hT), iha (IsE.term ha),
          ihb (IsE.term (IsT.factor hb))]
        rfl
      | factor h => cases h
  | group e ih =>
    intro h
    cases h with
    | term h =>
      cases h with
      | factor h =>
        cases h with
        | group he => exact parse_wrap _ _ _ _ rfl rfl (ih he)

/-! ## The lexer on the grammar of expressions -/

/-- The loop of `lex` takes a run of digits and points into the numeric
buffer. -/
theorem lexLoop_number_chars :
    ∀ (cs : List Char) (prev : Option Char) (rest : List Char) (st : LexState),
      (∀ c ∈ cs, c.isDigit = true ∨ c = '.') →
      lexLoop prev (cs ++ rest) st
        = lexLoop (cs.getLast?.or prev) rest { st with number := st.number ++ cs } := by
  intro cs
  induction cs with
  | nil => intro prev rest st _; simp
  | cons d cs ih =>
    intro prev rest st h
    have hd : lexStep prev d (cs ++ rest).head? st
        = Except.ok { st with number := st.number ++ [d] } := by
      rcases h d (by simp) with h1 | h1 <;> simp [lexStep, h1]
    rw [List.cons_append, lexLoop, hd]
    simp only
    rw [ih (some d) rest _ (fun c hc => h c (by simp [hc]))]
    congr 1
    · cases cs with
      | nil => rfl
      | cons e cs =>
        rw [List.getLast?_cons_cons]
        cases hl : (e :: cs).getLast? with
        | none => simp at hl
        | some x => rfl
    · simp

theorem Derivation.converts_num (whole fraction : List Char)
    (h : (Derivation.num whole fraction).converts = true) :
    stod (Derivation.num whole fraction).print = Except.ok (numberValue whole fraction) := by
  unfold Derivation.converts at h
  cases hs : stod (Derivation.num whole fraction).print with
  | error f => rw [hs] at h; cases h
  | ok v =>
    rw [hs] at h
    simp only [decide_eq_true_eq] at h
    rw [h]

/-- The text of an unsigned number: its characters, its last character and
what `std::stod` makes of it. -/
theorem number_text (whole fraction : List Char) (hw : whole ≠ [])
    (hwd : ∀ c ∈ whole, c.isDigit = true) (hfd : ∀ c ∈ fraction, c.isDigit = true) :
    (∀ c ∈ (Derivation.num whole fraction).print, c.isDigit = true ∨ c = '.')
    ∧ (Derivation.num whole fraction).print ≠ []
    ∧ (Derivation.num whole fraction).print ≠ ['-']
    ∧ (∃ d, (Derivation.num whole fraction).print.getLast? = some d ∧ d.isDigit = true)
    ∧ stod (Derivation.num whole fraction).print = toDouble false whole fraction := by
  obtain ⟨d, w1, rfl⟩ := List.exists_cons_of_ne_nil hw
  have hd : d.isDigit = true := hwd d (by simp)
  have h1 : d ≠ '-' := by rintro rfl; exact absurd hd (by decide)
  have h2 : d ≠ '+' := by rintro rfl; exact absurd hd (by decide)
  by_cases hf : fraction = []
  · subst hf
    have h3 : List.takeWhile Char.isDigit (d :: w1) = d :: w1 :=
      List.takeWhile_eq_self_iff.2 hwd
    have h4 : List.dropWhile Char.isDigit (d :: w1) = [] :=
      List.dropWhile_eq_nil_iff.2 hwd
    refine ⟨?_, ?_, ?_, ?_, ?_⟩
    · intro c hc
      exact Or.inl (hwd c (by simpa [Derivation.print] using hc))
    · simp [Derivation.print]
    · simp [Derivation.print, h1]
    · simp only [Derivation.print, if_true]
      cases hl : (d :: w1).getLast? with
      | none => simp at hl
      | some x => exact ⟨x, rfl, hwd x (List.mem_of_getLast?_eq_some hl)⟩
    · simp only [Derivation.print, if_true]
      unfold stod
      simp only [List.head?_cons, Option.some.injEq, h1, h2, or_self, if_false, h3, h4,
        decide_False]
  · have hdot : Char.isDigit '.' = false := by decide
    have h3 : List.takeWhile Char.isDigit (d :: w1 ++ '.' :: fraction) = d :: w1 := by
      rw [List.takeWhile_append_of_pos hwd]
      simp [List.takeWhile_cons, hdot]
    have h4 : List.dropWhile Char.isDigit (d :: w1 ++ '.' :: fraction) = '.' :: fraction := by
      rw [List.dropWhile_append_of_pos hwd]
      simp [List.dropWhile_cons, hdot]
    have h5 : List.takeWhile Char.isDigit fraction = fraction :=
      List.takeWhile_eq_self_iff.2 hfd
    refine ⟨?_, ?_, ?_, ?_, ?_⟩
    · intro c hc
      simp only [Derivation.print, if_neg hf, List.mem_append, List.mem_cons] at hc
      rcases hc with hc | hc | hc
      · exact Or.inl (hwd c (List.mem_cons.2 hc))
      · exact Or.inr hc
      · exact Or.inl (hfd c hc)
    · simp [Derivation.print, hf]
    · simp [Derivation.print, hf, h1]
    · simp only [Derivation.print, if_neg hf]
      obtain ⟨x, hx⟩ : ∃ x, fraction.getLast? = some x := by
        cases hl : fraction.getLast? with
        | none => exact absurd (List.getLast?_eq_none_iff.1 hl) hf
        | some x => exact ⟨x, rfl⟩
      refine ⟨x, ?_, hfd x (List.mem_of_getLast?_eq_some hx)⟩
      rw [List.getLast?_append, List.getLast?_cons, hx]
      rfl
    · simp only [Derivation.print, if_neg hf]
      unfold stod
      have h6 : (d :: w1 ++ '.' :: fraction).head? = some d := rfl
      have h7 : (d :: w1 ++ '.' :: fraction).tail = w1 ++ '.' :: fraction := rfl
      simp only [h6, Option.some.injEq, h1, h2, or_self, if_false, h3, h4, h5,
        decide_False]

theorem LexesBefore_join (ta tb : List Char) (ka kb : List Token) (c0 c : Char)
    (t0 t : TokenType) (ha : LexesBefore ta ka c0 t0) (hb : LexesBefore tb kb c t) :
    LexesBefore (ta ++ c0 :: tb) (ka ++ make_token t0 0 :: kb) c t := by
  intro T prev rest
  have h1 := ha T prev (tb ++ c :: rest)
  have h2 := hb (T ++ ka ++ [make_token t0 0]) (some c0) rest
  simp only [List.append_assoc, List.cons_append, List.nil_append] at h1 h2 ⊢
  rw [h1, h2]

theorem LexesAtEnd_join (ta tb : List Char) (ka kb : List Token) (c0 : Char)
    (t0 : TokenType) (ha : LexesBefore ta ka c0 t0) (hb : LexesAtEnd tb kb) :
    LexesAtEnd (ta ++ c0 :: tb) (ka ++ make_token t0 0 :: kb) := by
  intro T prev
  have h1 := ha T prev tb
  have h2 := hb (T ++ ka ++ [make_token t0 0]) (some c0)
  simp only [List.append_assoc, List.cons_append, List.nil_append] at h1 h2 ⊢
  rw [h1, h2]

/-- A `(` between two tokens. -/
theorem lexStep_open_between (prev next : Option Char) (T : List Token) :
    lexStep prev '(' next (LexState.between T)
      = Except.ok (LexState.between (T ++ [make_token TokenType.LEFT_PAREN 0])) := by
  simp [lexStep, isSign, flush, lexChar, LexState.between]

/-- An operator other than `-`, or a `)`, between two tokens. -/
theorem lexStep_close_between (prev next : Option Char) (T : List Token) (c : Char)
    (t : TokenType)
    (h : (c = '+' ∧ t = TokenType.ADD) ∨ (c = '*' ∧ t = TokenType.MUL)
      ∨ (c = '/' ∧ t = TokenType.DIV) ∨ (c = ')' ∧ t = TokenType.RIGHT_PAREN)) :
    lexStep prev c next (LexState.between T)
      = Except.ok (LexState.between (T ++ [make_token t 0])) := by
  rcases h with ⟨rfl, rfl⟩ | ⟨rfl, rfl⟩ | ⟨rfl, rfl⟩ | ⟨rfl, rfl⟩ <;>
    simp [lexStep, isSign, flush, lexChar, LexState.between, emit]

/-- An operator or a `)` after the text of a number: the character before it
is a digit, so a `-` is not a sign; the number is flushed. -/
theorem lexStep_after_number (d : Char) (next : Option Char) (T : List Token)
    (number : List Char) (v : ℚ) (c : Char) (t : TokenType) (hd : d.isDigit = true)
    (hne : number ≠ []) (hm : number ≠ ['-']) (hv : stod number = Except.ok v)
    (h : (c = '+' ∧ t = TokenType.ADD) ∨ (c = '*' ∧ t = TokenType.MUL)
      ∨ (c = '/' ∧ t = TokenType.DIV) ∨ (c = ')' ∧ t = TokenType.RIGHT_PAREN)
      ∨ (c = '-' ∧ t = TokenType.SUB)) :
    lexStep (some d) c next
        { tokens := T, number := number, add_extra_paren := false, extra_paren_count := 0 }
      = Except.ok (LexState.between
          (T ++ [make_token TokenType.NUMBER v] ++ [make_token t 0])) := by
  rcases h with ⟨rfl, rfl⟩ | ⟨rfl, rfl⟩ | ⟨rfl, rfl⟩ | ⟨rfl, rfl⟩ | ⟨rfl, rfl⟩ <;>
    simp [lexStep, isSign, flush, lexChar, LexState.between, emit, hd, hne, hm, hv]

theorem lex_number (whole fraction : List Char) (hw : whole ≠ [])
    (hwd : ∀ c ∈ whole, c.isDigit = true) (hfd : ∀ c ∈ fraction, c.isDigit = true)
    (hv : stod (Derivation.num whole fraction).print = Except.ok (numberValue whole fraction)) :
    (∀ c t, (Derivation.num whole fraction).followedBy c t →
      LexesBefore (Derivation.num whole fraction).print (Derivation.num whole fraction).tokens c t)
    ∧ LexesAtEnd (Derivation.num whole fraction).print (Derivation.num whole fraction).tokens := by
  obtain ⟨hchars, hne, hm, ⟨d, hlast, hd⟩, _⟩ := number_text whole fraction hw hwd hfd
  constructor
  · intro c t hf T prev rest
    rw [lexLoop_number_chars _ prev _ _ hchars, hlast]
    simp only [Option.or, LexState.between, List.nil_append, lexLoop]
    rw [lexStep_after_number d _ T _ _ c t hd hne hm hv (by
      rcases hf with h | h | h | h | h
      · exact Or.inl h
      · exact Or.inr (Or.inl h)
      · exact Or.inr (Or.inr (Or.inl h))
      · exact Or.inr (Or.inr (Or.inr (Or.inl h)))
      · exact Or.inr (Or.inr (Or.inr (Or.inr ⟨h.1, h.2.1⟩))))]
    rfl
  · intro T prev
    rw [← List.append_nil (Derivation.num whole fraction).print,
      lexLoop_number_chars _ prev _ _ hchars]
    simp [lexLoop, lexEnd, LexState.between, hne, hv, Derivation.tokens]

theorem lex_group (te : List Char) (ke : List Token)
    (he : LexesBefore te ke ')' TokenType.RIGHT_PAREN) :
    (∀ c t, ((c = '+' ∧ t = TokenType.ADD) ∨ (c = '*' ∧ t = TokenType.MUL)
        ∨ (c = '/' ∧ t = TokenType.DIV) ∨ (c = ')' ∧ t = TokenType.RIGHT_PAREN)) →
      LexesBefore ('(' :: (te ++ [')']))
        (make_token TokenType.LEFT_PAREN 0 :: (ke ++ [make_token TokenType.RIGHT_PAREN 0]))
        c t)
    ∧ LexesAtEnd ('(' :: (te ++ [')']))
        (make_token TokenType.LEFT_PAREN 0 :: (ke ++ [make_token TokenType.RIGHT_PAREN 0])) := by
  constructor
  · intro c t hct T prev rest
    have e : ('(' :: (te ++ [')'])) ++ c :: rest = '(' :: (te ++ ')' :: (c :: rest)) := by
      simp
    rw [e, lexLoop, lexStep_open_between]
    simp only
    rw [he (T ++ [make_token TokenType.LEFT_PAREN 0]) (some '(') (c :: rest), lexLoop,
      lexStep_close_between _ _ _ c t hct]
    simp only
    congr 2
    simp
  · intro T prev
    have e : '(' :: (te ++ [')']) = '(' :: (te ++ ')' :: []) := rfl
    rw [e, lexLoop, lexStep_open_between]
    simp only
    rw [he (T ++ [make_token TokenType.LEFT_PAREN 0]) (some '(') []]
    simp [lexLoop, lexEnd, LexState.between]

/-- From a state between two tokens `lex` turns the text of a derivation of the
grammar in which no `-` comes directly after a `)` into its tokens. -/
theorem lex_derivation (g : Derivation) :
    IsE g → g.noMinusAfterGroup = true → g.converts = true →
      (∀ c t, g.followedBy c t → LexesBefore g.print g.tokens c t)
      ∧ LexesAtEnd g.print g.tokens := by
  induction g with
  | num w f =>
    intro h _ hc
    cases h with
    | term h =>
      cases h with
      | factor h =>
        cases h with
        | num hw hwd hfd => exact lex_number w f hw hwd hfd (Derivation.converts_num w f hc)
  | add a b iha ihb =>
    intro h hm hc
    simp only [Derivation.noMinusAfterGroup, Bool.and_eq_true] at hm
    simp only [Derivation.converts, Bool.and_eq_true] at hc
    cases h with
    | add ha hb =>
      have h1 := iha ha hm.1 hc.1
      have h2 := ihb (IsE.term hb) hm.2 hc.2
      exact ⟨fun c t hf => LexesBefore_join _ _ _ _ '+' c TokenType.ADD t
          (h1.1 _ _ (Or.inl ⟨rfl, rfl⟩)) (h2.1 c t hf),
        LexesAtEnd_join _ _ _ _ '+' TokenType.ADD (h1.1 _ _ (Or.inl ⟨rfl, rfl⟩)) h2.2⟩
    | term h => cases h with | factor h => cases h
  | sub a b iha ihb =>
    intro h hm hc
    simp only [Derivation.noMinusAfterGroup, Bool.and_eq_true, Bool.not_eq_true'] at hm
    simp only [Derivation.converts, Bool.and_eq_true] at hc
    cases h with
    | sub ha hb =>
      have h1 := iha ha hm.1.2 hc.1
      have h2 := ihb (IsE.term hb) hm.2 hc.2
      have h3 : a.followedBy '-' TokenType.SUB :=
        Or.inr (Or.inr (Or.inr (Or.inr ⟨rfl, rfl, hm.1.1⟩)))
      exact ⟨fun c t hf => LexesBefore_join _ _ _ _ '-' c TokenType.SUB t
          (h1.1 _ _ h3) (h2.1 c t hf),
        LexesAtEnd_join _ _ _ _ '-' TokenType.SUB (h1.1 _ _ h3) h2.2⟩
    | term h => cases h with | factor h => cases h
  | mul a b iha ihb =>
    intro h hm hc
    simp only [Derivation.noMinusAfterGroup, Bool.and_eq_true] at hm
    simp only [Derivation.converts, Bool.and_eq_true] at hc
    cases h with
    | term h =>
      cases h with
      | mul ha hb =>
        have h1 := iha (IsE.term ha) hm.1 hc.1
        have h2 := ihb (IsE.term (IsT.factor hb)) hm.2 hc.2
        have h3 : a.followedBy '*' TokenType.MUL := Or.inr (Or.inl ⟨rfl, rfl⟩)
        exact ⟨fun c t hf => LexesBefore_join _ _ _ _ '*' c TokenType.MUL t
            (h1.1 _ _ h3) (h2.1 c t hf),
          LexesAtEnd_join _ _ _ _ '*' TokenType.MUL (h1.1 _ _ h3) h2.2⟩
      | factor h => cases h
  | div a b iha ihb =>
    intro h hm hc
    simp only [Derivation.noMinusAfterGroup, Bool.and_eq_true] at hm
    simp only [Derivation.converts, Bool.and_eq_true] at hc
    cases h with
    | term h =>
      cases h with
      | div ha hb =>
        have h1 := iha (IsE.term ha) hm.1 hc.1
        have h2 := ihb (IsE.term (IsT.factor hb)) hm.2 hc.2
        have h3 : a.followedBy '/' TokenType.DIV := Or.inr (Or.inr (Or.inl ⟨rfl, rfl⟩))
        exact ⟨fun c t hf => LexesBefore_join _ _ _ _ '/' c TokenType.DIV t
            (h1.1 _ _ h3) (h2.1 c t hf),
          LexesAtEnd_join _ _ _ _ '/' TokenType.DIV (h1.1 _ _ h3) h2.2⟩
      | factor h => cases h
  | group e ih =>
    intro h hm hc
    cases h with
    | term h =>
      cases h with
      | factor h =>
        cases h with
        | group he =>
          have h1 := ih he hm hc
          have h2 := lex_group e.print e.tokens
            (h1.1 _ _ (Or.inr (Or.inr (Or.inr (Or.inl ⟨rfl, rfl⟩)))))
          refine ⟨fun c t hf => h2.1 c t ?_, h2.2⟩
          rcases hf with hf | hf | hf | hf | hf
          · exact Or.inl hf
          · exact Or.inr (Or.inl hf)
          · exact Or.inr (Or.inr (Or.inl hf))
          · exact Or.inr (Or.inr (Or.inr hf))
          · exact absurd hf.2.2 (by simp [Derivation.endsWithGroup])

/-- The text of a derivation of the grammar in which no `-` comes directly
after a `)` and whose numbers `std::stod` converts to the numbers they denote:
the tokens and the tree are those of the standard reading. -/
theorem mainExpr_derivation (g : Derivation) (hg : IsE g)
    (hm : g.noMinusAfterGroup = true) (hc : g.converts = true) :
    lex (String.mk g.print) = Except.ok g.tokens
    ∧ mainExpr (String.mk g.print) = Except.ok g.reading := by
  have h1 : lex (String.mk g.print) = Except.ok g.tokens := by
    have := (lex_derivation g hg hm hc).2 [] none
    simpa [lex, lexChars, LexState.init, LexState.between] using this
  have h2 : mainExpr (String.mk g.print) = Except.ok g.reading := by
    simp only [mainExpr, h1]
    exact parse_derivation g hg
  exact ⟨h1, h2⟩

/-! ## The properties -/

/-- Claim C1, where the code departs from it.  The input `(2)-3` is generated
by the grammar and its standard reading has the value -1, but `lex` takes the
`-` after the `)` as the sign of the number, because the last token is not a
`NUMBER`: the tokens are `( 2 ) -3` and `parse` ends in its last assertion.
Away from this case `lex` and `parse` follow the standard reading: on the text
of every derivation of the grammar in which no `-` comes directly after a `)`
and whose numbers `std::stod` converts to the numbers they denote, the tokens
are those of the text and the tree is the tree of the standard reading; `2+3*4`
gives 14 and `(2+3)*4` gives 20. -/
theorem run_minus_after_group :
    (IsE (Derivation.sub (Derivation.group (Derivation.num ['2'] [])) (Derivation.num ['3'] []))
      ∧ String.mk (Derivation.sub (Derivation.group (Derivation.num ['2'] [])) (Derivation.num ['3'] [])).print
          = "(2)-3"
      ∧ (Derivation.sub (Derivation.group (Derivation.num ['2'] [])) (Derivation.num ['3'] [])).reading
          = Expr.SUB (Expr.NUMBER 2) (Expr.NUMBER 3)
      ∧ evaluate (Expr.SUB (Expr.NUMBER 2) (Expr.NUMBER 3)) = -1
      ∧ (Derivation.sub (Derivation.group (Derivation.num ['2'] [])) (Derivation.num ['3'] [])).converts
          = true
      ∧ (Derivation.sub (Derivation.group (Derivation.num ['2'] []))
          (Derivation.num ['3'] [])).noMinusAfterGroup = false)
    ∧ lex "(2)-3"
        = Except.ok [make_token TokenType.LEFT_PAREN 0, make_token TokenType.NUMBER 2,
            make_token TokenType.RIGHT_PAREN 0, make_token TokenType.NUMBER (-3)]
    ∧ mainExpr "(2)-3" = Except.error Failure.assertion
    ∧ run "(2)-3" = Except.error Failure.assertion
    ∧ (∀ g : Derivation, IsE g → g.noMinusAfterGroup = true → g.converts = true →
        lex (String.mk g.print) = Except.ok g.tokens
        ∧ mainExpr (String.mk g.print) = Except.ok g.reading)
    ∧ run "2+3*4" = Except.ok 14
    ∧ run "(2+3)*4" = Except.ok 20 := by
  refine ⟨⟨?_, by decide, by decide, by norm_num [evaluate], by decide, by decide⟩,
    by decide, by decide, ?_, ?_, ?_, ?_⟩
  · exact IsE.sub
      (IsE.term (IsT.factor (IsF.group (IsE.term (IsT.factor
        (IsF.num (by decide) (by decide) (by decide)))))))
      (IsT.factor (IsF.num (by decide) (by decide) (by decide)))
  · exact run_error_of _ _ (by decide)
  · intro g hg hm hc
    exact mainExpr_derivation g hg hm hc
  · exact run_of _ (Expr.ADD (Expr.NUMBER 2) (Expr.MUL (Expr.NUMBER 3) (Expr.NUMBER 4))) _
      (by decide) (by norm_num [evaluate])
  · exact run_of _ (Expr.MUL (Expr.ADD (Expr.NUMBER 2) (Expr.NUMBER 3)) (Expr.NUMBER 4)) _
      (by decide) (by norm_num [evaluate])

/-- The derivation of `2.5*(3-1)`, by the general statement of C1: the tree is
`Mul(2.5, Sub(3, 1))`. -/
theorem run_minus_after_group_witness :
    String.mk (Derivation.mul (Derivation.num ['2'] ['5'])
        (Derivation.group (Derivation.sub (Derivation.num ['3'] []) (Derivation.num ['1'] [])))).print
      = "2.5*(3-1)"
    ∧ (Derivation.mul (Derivation.num ['2'] ['5'])
        (Derivation.group (Derivation.sub (Derivation.num ['3'] []) (Derivation.num ['1'] [])))).reading
      = Expr.MUL (Expr.NUMBER (mkRat 5 2)) (Expr.SUB (Expr.NUMBER 3) (Expr.NUMBER 1))
    ∧ (lex (String.mk (Derivation.mul (Derivation.num ['2'] ['5'])
        (Derivation.group (Derivation.sub (Derivation.num ['3'] []) (Derivation.num ['1'] [])))).print)
      = Except.ok (Derivation.mul (Derivation.num ['2'] ['5'])
        (Derivation.group (Derivation.sub (Derivation.num ['3'] []) (Derivation.num ['1'] [])))).tokens
      ∧ mainExpr (String.mk (Derivation.mul (Derivation.num ['2'] ['5'])
        (Derivation.group (Derivation.sub (Derivation.num ['3'] []) (Derivation.num ['1'] [])))).print)
      = Except.ok (Derivation.mul (Derivation.num ['2'] ['5'])
        (Derivation.group (Derivation.sub (Derivation.num ['3'] []) (Derivation.num ['1'] [])))).reading) :=
  ⟨by decide, by decide,
   run_minus_after_group.2.2.2.2.1 _
    (IsE.term (IsT.mul (IsT.factor (IsF.num (by decide) (by decide) (by decide)))
      (IsF.group (IsE.sub (IsE.term (IsT.factor (IsF.num (by decide) (by decide) (by decide))))
        (IsT.factor (IsF.num (by decide) (by decide) (by decide)))))))
    (by decide) (by decide)⟩

/-- Claim C2: left-associativity.  A range `n0 op1 n1 ... opk nk` of `NUMBER`
tokens separated by operators that are all `ADD`/`SUB` or all `MUL`/`DIV` is
accepted by `parse` and gives the left-nested tree; `10-2-3` gives
`Sub(Sub(10,2),3)` with the value 5 and `100/10/2` gives `Div(Div(100,10),2)`
with the value 5. -/
theorem parse_left_associative :
    (∀ (n0 : Token) (rest : List (Token × Token)),
      n0.type = TokenType.NUMBER →
      (∀ p ∈ rest, p.2.type = TokenType.NUMBER) →
      ((∀ p ∈ rest, p.1.type = TokenType.ADD ∨ p.1.type = TokenType.SUB)
        ∨ (∀ p ∈ rest, p.1.type = TokenType.MUL ∨ p.1.type = TokenType.DIV)) →
      parse (n0 :: chain rest) = Except.ok (leftNested n0 rest))
    ∧ mainExpr "10-2-3"
        = Except.ok (Expr.SUB (Expr.SUB (Expr.NUMBER 10) (Expr.NUMBER 2)) (Expr.NUMBER 3))
    ∧ run "10-2-3" = Except.ok 5
    ∧ mainExpr "100/10/2"
        = Except.ok (Expr.DIV (Expr.DIV (Expr.NUMBER 100) (Expr.NUMBER 10)) (Expr.NUMBER 2))
    ∧ run "100/10/2" = Except.ok 5 := by
  refine ⟨?_, ?_, ?_, ?_, ?_⟩
  · intro n0 rest hn0 hnum hops
    rcases hops with h | h
    · exact parse_chain_terms n0 hn0 rest
        (fun p hp => ⟨by simpa [isTerm] using h p hp, hnum p hp⟩)
    · exact parse_chain_factors n0 hn0 rest
        (fun p hp => ⟨by simpa [isFactor] using h p hp, hnum p hp⟩)
  · decide
  · exact run_of _ (Expr.SUB (Expr.SUB (Expr.NUMBER 10) (Expr.NUMBER 2)) (Expr.NUMBER 3)) _
      (by decide) (by norm_num [evaluate])
  · decide
  · exact run_of _ (Expr.DIV (Expr.DIV (Expr.NUMBER 100) (Expr.NUMBER 10)) (Expr.NUMBER 2)) _
      (by decide) (by norm_num [evaluate])

/-- The tokens of `10-2-3`, by the general statement of C2. -/
theorem parse_left_associative_witness :
    parse [make_token TokenType.NUMBER 10, make_token TokenType.SUB 0,
        make_token TokenType.NUMBER 2, make_token TokenType.SUB 0,
        make_token TokenType.NUMBER 3]
      = Except.ok (Expr.SUB (Expr.SUB (Expr.NUMBER 10) (Expr.NUMBER 2)) (Expr.NUMBER 3)) :=
  parse_left_associative.1 (make_token TokenType.NUMBER 10)
    [(make_token TokenType.SUB 0, make_token TokenType.NUMBER 2),
      (make_token TokenType.SUB 0, make_token TokenType.NUMBER 3)]
    rfl (by simp [make_token]) (Or.inl (by simp [make_token]))

/-- Claim C3: precedence.  A range `Number (op Number)*` without parentheses,
with `op` among `ADD`, `SUB`, `MUL`, `DIV`, is accepted by `parse`, and in the
tree no `ADD` or `SUB` node is below a `MUL` or `DIV` node; `2+3*4` gives
`Add(2, Mul(3,4))`. -/
theorem parse_respects_precedence :
    (∀ (n0 : Token) (rest : List (Token × Token)),
      n0.type = TokenType.NUMBER →
      (∀ p ∈ rest,
        (p.1.type = TokenType.ADD ∨ p.1.type = TokenType.SUB
          ∨ p.1.type = TokenType.MUL ∨ p.1.type = TokenType.DIV)
        ∧ p.2.type = TokenType.NUMBER) →
      ∃ e, parse (n0 :: chain rest) = Except.ok e ∧ respectsPrecedence e = true)
    ∧ mainExpr "2+3*4"
        = Except.ok (Expr.ADD (Expr.NUMBER 2) (Expr.MUL (Expr.NUMBER 3) (Expr.NUMBER 4))) := by
  refine ⟨?_, ?_⟩
  · intro n0 rest hn0 h
    apply parse_chain_precedence rest.length n0 rest (Nat.le_refl _) hn0
    intro p hp
    refine ⟨?_, (h p hp).2⟩
    rcases (h p hp).1 with h1 | h1 | h1 | h1 <;> simp [isTerm, isFactor, h1]
  · decide

/-- The tokens of `2*3+4*5`, by the general statement of C3. -/
theorem parse_respects_precedence_witness :
    ∃ e, parse [make_token TokenType.NUMBER 2, make_token TokenType.MUL 0,
        make_token TokenType.NUMBER 3, make_token TokenType.ADD 0,
        make_token TokenType.NUMBER 4, make_token TokenType.MUL 0,
        make_token TokenType.NUMBER 5] = Except.ok e ∧ respectsPrecedence e = true :=
  parse_respects_precedence.1 (make_token TokenType.NUMBER 2)
    [(make_token TokenType.MUL 0, make_token TokenType.NUMBER 3),
      (make_token TokenType.ADD 0, make_token TokenType.NUMBER 4),
      (make_token TokenType.MUL 0, make_token TokenType.NUMBER 5)]
    rfl (by simp [make_token])

/-- Claim C4: lone-parenthesis stripping.  When `parse` accepts a range with the
tree `e`, it accepts the range put between a `LEFT_PAREN` and a `RIGHT_PAREN`
token with the same tree; so any number of pairs of parentheses around a number
gives that number, and `((((5))))` has the value 5. -/
theorem parse_strips_lone_parens :
    (∀ (lp rp : Token) (ts : List Token) (e : Expr),
      lp.type = TokenType.LEFT_PAREN → rp.type = TokenType.RIGHT_PAREN →
      parse ts = Except.ok e → parse ([lp] ++ ts ++ [rp]) = Except.ok e)
    ∧ (∀ (k : Nat) (v : ℚ),
        parse (List.replicate k (make_token TokenType.LEFT_PAREN 0)
            ++ [make_token TokenType.NUMBER v]
            ++ List.replicate k (make_token TokenType.RIGHT_PAREN 0))
          = Except.ok (Expr.NUMBER v))
    ∧ run "((((5))))" = Except.ok 5 := by
  refine ⟨?_, ?_, ?_⟩
  · intro lp rp ts e hlp hrp h
    simpa using parse_wrap lp rp ts e hlp hrp h
  · intro k v
    simpa using parse_nested_number (make_token TokenType.LEFT_PAREN 0)
      (make_token TokenType.RIGHT_PAREN 0) (make_token TokenType.NUMBER v) rfl rfl rfl k
  · exact run_of _ (Expr.NUMBER 5) _ (by decide) rfl

/-- The range `(2+3)`, by the general statement of C4. -/
theorem parse_strips_lone_parens_witness :
    parse ([make_token TokenType.LEFT_PAREN 0]
        ++ [make_token TokenType.NUMBER 2, make_token TokenType.ADD 0,
            make_token TokenType.NUMBER 3]
        ++ [make_token TokenType.RIGHT_PAREN 0])
      = Except.ok (Expr.ADD (Expr.NUMBER 2) (Expr.NUMBER 3)) :=
  parse_strips_lone_parens.1 (make_token TokenType.LEFT_PAREN 0)
    (make_token TokenType.RIGHT_PAREN 0) _ _ rfl rfl (by decide)

/-- Claim C5: parentheses that are not a lone pair are not stripped.  When
`parse` accepts `ts1` with the tree `e1` and `ts2` with the tree `e2`, then for
every operator token `op` it accepts `( ts1 ) op ( ts2 )` with the tree
`BinaryOp(op, e1, e2)`; `(1)+(2)` has the value 3. -/
theorem parse_keeps_two_groups :
    (∀ (lp rp op : Token) (ts1 ts2 : List Token) (e1 e2 : Expr),
      lp.type = TokenType.LEFT_PAREN → rp.type = TokenType.RIGHT_PAREN →
      (op.type = TokenType.ADD ∨ op.type = TokenType.SUB
        ∨ op.type = TokenType.MUL ∨ op.type = TokenType.DIV) →
      parse ts1 = Except.ok e1 → parse ts2 = Except.ok e2 →
      parse ([lp] ++ ts1 ++ [rp, op, lp] ++ ts2 ++ [rp])
        = Except.ok (binaryOp op.type e1 e2))
    ∧ mainExpr "(1)+(2)" = Except.ok (Expr.ADD (Expr.NUMBER 1) (Expr.NUMBER 2))
    ∧ run "(1)+(2)" = Except.ok 3 := by
  refine ⟨?_, ?_, ?_⟩
  · intro lp rp op ts1 ts2 e1 e2 hlp hrp hop h1 h2
    have hop2 : isTerm op.type = true ∨ isFactor op.type = true := by
      rcases hop with h | h | h | h <;> simp [isTerm, isFactor, h]
    simpa using parse_two_groups lp rp op ts1 ts2 e1 e2 hlp hrp hop2 h1 h2
  · decide
  · exact run_of _ (Expr.ADD (Expr.NUMBER 1) (Expr.NUMBER 2)) _ (by decide)
      (by norm_num [evaluate])

/-- The range `(1+2)*(3)`, by the general statement of C5. -/
theorem parse_keeps_two_groups_witness :
    parse ([make_token TokenType.LEFT_PAREN 0]
        ++ [make_token TokenType.NUMBER 1, make_token TokenType.ADD 0,
            make_token TokenType.NUMBER 2]
        ++ [make_token TokenType.RIGHT_PAREN 0, make_token TokenType.MUL 0,
            make_token TokenType.LEFT_PAREN 0]
        ++ [make_token TokenType.NUMBER 3]
        ++ [make_token TokenType.RIGHT_PAREN 0])
      = Except.ok
          (Expr.MUL (Expr.ADD (Expr.NUMBER 1) (Expr.NUMBER 2)) (Expr.NUMBER 3)) :=
  parse_keeps_two_groups.1 (make_token TokenType.LEFT_PAREN 0)
    (make_token TokenType.RIGHT_PAREN 0) (make_token TokenType.MUL 0) _ _ _ _ rfl rfl
    (Or.inr (Or.inr (Or.inl rfl))) (by decide) (by decide)

/-- Claim C6 as stated fails on the input `.-`: at the `-` the buffer holds `.`,
no next character exists, so the `-` is not taken as a sign; the flush of the
buffer throws and no `SUB` token is emitted for the `-`. -/
theorem lex_minus_after_dot :
    lexLoop none ['.'] LexState.init
        = Except.ok { tokens := [], number := ['.'], add_extra_paren := false,
                      extra_paren_count := 0 }
    ∧ ¬ SignConditions (some '.') none []
    ∧ lexStep (some '.') '-' none
          { tokens := [], number := ['.'], add_extra_paren := false, extra_paren_count := 0 }
        = Except.error Failure.invalid_argument
    ∧ lex ".-" = Except.error Failure.invalid_argument := by
  refine ⟨by decide, ?_, by decide, by decide⟩
  rintro ⟨⟨n, hn, -⟩, -⟩
  cases hn

/-- Claim C6, amended: at a `-` the character is appended to the numeric buffer,
with no token emitted, exactly when (a) a next character exists and is a digit
or `(`, (b) the `-` is the first character or the character before it is not a
digit, and (c) no token has been emitted yet or the last one is not a `NUMBER`.
In every other case the pending number is flushed first and, when that flush
succeeds, exactly one `SUB` token is emitted for the `-`; when the pending text
is not a number the flush fails and so does `lex`.  So `-3+5` gives the tokens
`-3 + 5` and the value 2, and `3 -4` gives the tokens `3 - 4`. -/
theorem lex_unary_minus_rule :
    (∀ (prev next : Option Char) (st : LexState),
      (lexStep prev '-' next st = Except.ok { st with number := st.number ++ ['-'] }
        ↔ SignConditions prev next st.tokens)
      ∧ (¬ SignConditions prev next st.tokens →
          lexStep prev '-' next st = (flush '-' st).map (emit TokenType.SUB))
      ∧ (¬ SignConditions prev next st.tokens →
          ∀ st1, flush '-' st = Except.ok st1 →
            lexStep prev '-' next st
              = Except.ok { st1 with tokens := st1.tokens ++ [make_token TokenType.SUB 0] }))
    ∧ lex "-3+5"
        = Except.ok [make_token TokenType.NUMBER (-3), make_token TokenType.ADD 0,
            make_token TokenType.NUMBER 5]
    ∧ run "-3+5" = Except.ok 2
    ∧ lex "3 -4"
        = Except.ok [make_token TokenType.NUMBER 3, make_token TokenType.SUB 0,
            make_token TokenType.NUMBER 4] := by
  refine ⟨?_, by decide, ?_, by decide⟩
  · intro prev next st
    have hnot : ¬ SignConditions prev next st.tokens →
        lexStep prev '-' next st = (flush '-' st).map (emit TokenType.SUB) := by
      intro h
      apply lexStep_minus_not_sign
      cases hs : isSign prev '-' next st.tokens with
      | false => rfl
      | true => exact absurd ((isSign_minus_iff _ _ _).1 hs) h
    refine ⟨⟨?_, ?_⟩, hnot, ?_⟩
    · intro h
      by_contra hc
      rw [hnot hc] at h
      cases hf : flush '-' st with
      | error f => rw [hf] at h; cases h
      | ok st1 =>
        rw [hf] at h
        simp only [Except.map, Except.ok.injEq] at h
        have h1 := flush_tokens_length _ _ _ hf
        have h2 := congrArg (fun x => x.tokens.length) h
        simp [emit] at h2
        omega
    · intro h
      have hs : isSign prev '-' next st.tokens = true := (isSign_minus_iff _ _ _).2 h
      simp [lexStep, hs]
    · intro h st1 hf
      rw [hnot h, hf]
      rfl
  · exact run_of _ (Expr.ADD (Expr.NUMBER (-3)) (Expr.NUMBER 5)) _ (by decide)
      (by norm_num [evaluate])

/-- The `-` of `3-4`, by the general statement of C6: the character before it is
a digit, so it is not a sign, and the pending `3` is flushed before the `SUB`. -/
theorem lex_unary_minus_rule_witness :
    lexStep (some '3') '-' (some '4')
        { tokens := [], number := ['3'], add_extra_paren := false, extra_paren_count := 0 }
      = Except.ok
          { tokens := [make_token TokenType.NUMBER 3, make_token TokenType.SUB 0],
            number := [], add_extra_paren := false, extra_paren_count := 0 } :=
  (lex_unary_minus_rule.1 (some '3') (some '4')
      { tokens := [], number := ['3'], add_extra_paren := false, extra_paren_count := 0 }).2.2
    (by
      rintro ⟨-, h, -⟩
      rcases h with h | ⟨p, hp, hd⟩
      · cases h
      · cases hp
        exact absurd hd (by decide))
    { tokens := [make_token TokenType.NUMBER 3], number := [], add_extra_paren := false,
      extra_paren_count := 0 }
    (by decide)

/-- Claim C7: a negated group.  For every string `s`, `lex` of `-(` followed by
`s` is the token `Number(-1)`, the token `Mul` and then the tokens of `lex` of
`(` followed by `s` (and fails when that fails); so `-(1+2)` is parsed to
`Mul(Number(-1), Add(Number 1, Number 2))` with the value -3. -/
theorem lex_negated_group :
    (∀ s : String,
      lex ("-(" ++ s)
        = (lex ("(" ++ s)).map
            (fun ts => make_token TokenType.NUMBER (-1) :: make_token TokenType.MUL 0 :: ts))
    ∧ mainExpr "-(1+2)"
        = Except.ok (Expr.MUL (Expr.NUMBER (-1))
            (Expr.ADD (Expr.NUMBER 1) (Expr.NUMBER 2)))
    ∧ run "-(1+2)" = Except.ok (-3) := by
  refine ⟨?_, by decide, ?_⟩
  · intro s
    simp only [lex, String.data_append]
    exact lexChars_minus_open s.data
  · exact run_of _ (Expr.MUL (Expr.NUMBER (-1)) (Expr.ADD (Expr.NUMBER 1) (Expr.NUMBER 2))) _
      (by decide) (by norm_num [evaluate])

/-- The number written by `n` digits `9` is one less than the power of ten. -/
theorem digitsValue_nines (n : Nat) : digitsValue (List.replicate n '9') + 1 = 10 ^ n := by
  have key : ∀ (n acc : Nat),
      List.foldl (fun acc c => 10 * acc + (c.toNat - 48)) acc (List.replicate n '9') + 1
        = (acc + 1) * 10 ^ n := by
    intro n
    induction n with
    | zero => intro acc; simp
    | succ n ih =>
      intro acc
      have h9 : Char.toNat '9' - 48 = 9 := by decide
      rw [List.replicate_succ, List.foldl_cons, ih, h9, Nat.pow_succ]
      ring
  have := key n 0
  simpa [digitsValue] using this

/-- The number written by 309 digits `9` is not below `overflowBound`:
`std::stod` does not convert it. -/
theorem stod_nines :
    List.replicate 309 '9' ≠ []
    ∧ (∀ c ∈ List.replicate 309 '9', c.isDigit = true)
    ∧ stod (List.replicate 309 '9') = Except.error Failure.out_of_range := by
  have hne : List.replicate 309 '9' ≠ [] := by
    apply List.ne_nil_of_length_pos
    rw [List.length_replicate]
    decide
  have hd : ∀ c ∈ List.replicate 309 '9', c.isDigit = true := by
    intro c hc
    rw [List.eq_of_mem_replicate hc]
    decide
  refine ⟨hne, hd, ?_⟩
  rw [stod_digits _ hne hd, if_pos]
  have h1 : digitsValue (List.replicate 309 '9') + 1 = (10 ^ 103) ^ 3 := by
    rw [digitsValue_nines 309, ← Nat.pow_mul]
  have h2 : overflowBound + 1 ≤ (10 ^ 103) ^ 3 := by decide
  generalize (10 ^ 103) ^ 3 = big at h1 h2
  omega

/-- Claim C8 as stated fails for a string of digits whose value is outside the
range of `double`: on 309 digits `9` followed by `(1)` the function `lex` ends
with the exception `std::out_of_range` of `std::stod`, while `lex` of `(1)`
returns its three tokens. -/
theorem lex_digits_out_of_range :
    lex (String.mk (List.replicate 309 '9') ++ "(" ++ "1)")
      = Except.error Failure.out_of_range
    ∧ lex ("(" ++ "1)")
      = Except.ok [make_token TokenType.LEFT_PAREN 0, make_token TokenType.NUMBER 1,
          make_token TokenType.RIGHT_PAREN 0]
    ∧ lex (String.mk (List.replicate 309 '9') ++ "(" ++ "1)")
      ≠ (lex ("(" ++ "1)")).map
          (fun ts => make_token TokenType.NUMBER (digitsValue (List.replicate 309 '9') : ℚ)
            :: make_token TokenType.MUL 0 :: ts) := by
  have h1 : lex (String.mk (List.replicate 309 '9') ++ "(" ++ "1)")
      = Except.error Failure.out_of_range := by
    simp only [lex, String.data_append, List.append_assoc]
    exact lexChars_digits_open_error _ _ _ stod_nines.1 stod_nines.2.1 stod_nines.2.2
  have h2 : lex ("(" ++ "1)")
      = Except.ok [make_token TokenType.LEFT_PAREN 0, make_token TokenType.NUMBER 1,
          make_token TokenType.RIGHT_PAREN 0] := by decide
  refine ⟨h1, h2, ?_⟩
  rw [h1, h2]
  intro h
  cases h

/-- Claim C8, amended: implicit multiplication after a number that
`std::stod` converts.  For every non-empty string `d` of digits that
`std::stod` converts to a value `v`, and every string `s`, `lex` of `d`, `(`
and `s` is the token `Number(v)`, the token `Mul` and then the tokens of `lex`
of `(` followed by `s` (and fails when that fails); when `std::stod` throws on
`d`, `lex` ends with that exception.  The strings of digits that `std::stod`
converts are those with a value below `overflowBound`, and for at most 15
digits the value `v` is the number that the digits write.  So `2(3+4)` has the
tokens of `2*(3+4)` and the value 14. -/
theorem lex_implicit_multiplication :
    (∀ (d s : String) (v : ℚ), IsDigits d → stod d.data = Except.ok v →
      lex (d ++ "(" ++ s)
        = (lex ("(" ++ s)).map
            (fun ts => make_token TokenType.NUMBER v :: make_token TokenType.MUL 0 :: ts))
    ∧ (∀ (d s : String) (f : Failure), IsDigits d → stod d.data = Except.error f →
      lex (d ++ "(" ++ s) = Except.error f)
    ∧ (∀ d : String, IsDigits d →
      ((∃ v, stod d.data = Except.ok v) ↔ digitsValue d.data < overflowBound)
      ∧ (overflowBound ≤ digitsValue d.data →
          stod d.data = Except.error Failure.out_of_range)
      ∧ (d.data.length ≤ 15 → stod d.data = Except.ok (digitsValue d.data : ℚ)))
    ∧ lex "2(3+4)" = lex "2*(3+4)"
    ∧ run "2(3+4)" = Except.ok 14 := by
  refine ⟨?_, ?_, ?_, by decide, ?_⟩
  · intro d s v hd hv
    simp only [lex, String.data_append, List.append_assoc]
    exact lexChars_digits_open d.data s.data v hd.1 hd.2 hv
  · intro d s f hd hv
    simp only [lex, String.data_append, List.append_assoc]
    exact lexChars_digits_open_error d.data s.data f hd.1 hd.2 hv
  · intro d hd
    have h := stod_digits d.data hd.1 hd.2
    refine ⟨?_, ?_, stod_digits_short d.data hd.1 hd.2⟩
    · by_cases hov : overflowBound ≤ digitsValue d.data
      · rw [h, if_pos hov]
        constructor
        · rintro ⟨v, hv⟩
          cases hv
        · intro hlt
          omega
      · rw [h, if_neg hov]
        exact ⟨fun _ => by omega, fun _ => ⟨_, rfl⟩⟩
    · intro hov
      rw [h, if_pos hov]
  · exact run_of _ (Expr.MUL (Expr.NUMBER 2) (Expr.ADD (Expr.NUMBER 3) (Expr.NUMBER 4))) _
      (by decide) (by norm_num [evaluate])

/-- The input `12(3)`, by the general statement of C8: the tokens `12` and `*`
come before the tokens of `(3)`. -/
theorem lex_implicit_multiplication_witness :
    stod "12".data = Except.ok 12
    ∧ lex ("12" ++ "(" ++ "3)")
      = (lex ("(" ++ "3)")).map
          (fun ts => make_token TokenType.NUMBER 12 :: make_token TokenType.MUL 0 :: ts) :=
  ⟨by decide, lex_implicit_multiplication.1 "12" "3)" 12 ⟨by decide, by decide⟩ (by decide)⟩

/-- Claim C9 as stated fails for strings of digits whose value is outside the
range of `double`: with 309 digits `9` for `a`, `lex` of `a/2(1+2)` ends with
the exception `std::out_of_range` of `std::stod` and returns no tokens. -/
theorem lex_quotient_out_of_range :
    IsDigits (String.mk (List.replicate 309 '9'))
    ∧ lex (String.mk (List.replicate 309 '9') ++ "/" ++ "2" ++ "(" ++ "1" ++ "+" ++ "2" ++ ")")
      = Except.error Failure.out_of_range
    ∧ lex (String.mk (List.replicate 309 '9') ++ "/" ++ "2" ++ "(" ++ "1" ++ "+" ++ "2" ++ ")")
      ≠ Except.ok
          [make_token TokenType.NUMBER (digitsValue (List.replicate 309 '9') : ℚ),
            make_token TokenType.DIV 0, make_token TokenType.LEFT_PAREN 0,
            make_token TokenType.NUMBER 2, make_token TokenType.MUL 0,
            make_token TokenType.LEFT_PAREN 0, make_token TokenType.NUMBER 1,
            make_token TokenType.ADD 0, make_token TokenType.NUMBER 2,
            make_token TokenType.RIGHT_PAREN 0, make_token TokenType.RIGHT_PAREN 0] := by
  have h1 : lex (String.mk (List.replicate 309 '9') ++ "/" ++ "2" ++ "(" ++ "1" ++ "+" ++ "2"
      ++ ")") = Except.error Failure.out_of_range := by
    simp only [lex, String.data_append, List.append_assoc]
    exact lexChars_digits_error _ _ '/' _ stod_nines.1 stod_nines.2.1 stod_nines.2.2
      (by decide) (by decide) (by decide)
  refine ⟨⟨stod_nines.1, stod_nines.2.1⟩, h1, ?_⟩
  rw [h1]
  intro h
  cases h

/-- Claim C9, amended: a division before an implicit multiplication, for
numbers that `std::stod` converts.  For non-empty strings of digits `a`, `b`,
`c`, `d` that `std::stod` converts to the values `va`, `vb`, `vc`, `vd`, `lex`
of `a/b(c+d)` is the token sequence `va / ( vb * ( vc + vd ) )`, the same as
`lex` of `a/(b*(c+d))`, and `parse` of it is `Div(va, Mul(vb, Add(vc, vd)))`;
when `std::stod` throws on `a`, `lex` ends with that exception.  A string of at
most 15 digits is converted to the number that it writes.  So `6/2(1+2)` is
parsed to `Div(6, Mul(2, Add(1,2)))` and has the value 1. -/
theorem lex_division_quirk :
    (∀ (a b c d : String) (va vb vc vd : ℚ),
      IsDigits a → IsDigits b → IsDigits c → IsDigits d →
      stod a.data = Except.ok va → stod b.data = Except.ok vb →
      stod c.data = Except.ok vc → stod d.data = Except.ok vd →
      lex (a ++ "/" ++ b ++ "(" ++ c ++ "+" ++ d ++ ")")
          = Except.ok
              [make_token TokenType.NUMBER va,
                make_token TokenType.DIV 0, make_token TokenType.LEFT_PAREN 0,
                make_token TokenType.NUMBER vb,
                make_token TokenType.MUL 0, make_token TokenType.LEFT_PAREN 0,
                make_token TokenType.NUMBER vc,
                make_token TokenType.ADD 0,
                make_token TokenType.NUMBER vd,
                make_token TokenType.RIGHT_PAREN 0, make_token TokenType.RIGHT_PAREN 0]
      ∧ lex (a ++ "/" ++ b ++ "(" ++ c ++ "+" ++ d ++ ")")
          = lex (a ++ "/(" ++ b ++ "*(" ++ c ++ "+" ++ d ++ "))")
      ∧ mainExpr (a ++ "/" ++ b ++ "(" ++ c ++ "+" ++ d ++ ")")
          = Except.ok
              (Expr.DIV (Expr.NUMBER va)
                (Expr.MUL (Expr.NUMBER vb) (Expr.ADD (Expr.NUMBER vc) (Expr.NUMBER vd)))))
    ∧ (∀ (a rest : String) (f : Failure), IsDigits a → stod a.data = Except.error f →
      lex (a ++ "/" ++ rest) = Except.error f)
    ∧ (∀ d : String, IsDigits d → d.data.length ≤ 15 →
      stod d.data = Except.ok (digitsValue d.data : ℚ))
    ∧ mainExpr "6/2(1+2)"
        = Except.ok (Expr.DIV (Expr.NUMBER 6)
            (Expr.MUL (Expr.NUMBER 2) (Expr.ADD (Expr.NUMBER 1) (Expr.NUMBER 2))))
    ∧ run "6/2(1+2)" = Except.ok 1 := by
  refine ⟨?_, ?_, ?_, by decide, ?_⟩
  · intro a b c d va vb vc vd ha hb hc hd hva hvb hvc hvd
    have e1 : lex (a ++ "/" ++ b ++ "(" ++ c ++ "+" ++ d ++ ")")
        = lexChars (a.data ++ '/' :: (b.data ++ '(' :: (c.data ++ '+' :: (d.data ++ [')']))))
        := by
      simp only [lex, String.data_append, List.append_assoc]
      rfl
    have e2 : lex (a ++ "/(" ++ b ++ "*(" ++ c ++ "+" ++ d ++ "))")
        = lexChars (a.data ++ '/' :: '(' :: (b.data ++ '*' :: '(' ::
            (c.data ++ '+' :: (d.data ++ [')', ')'])))) := by
      simp only [lex, String.data_append, List.append_assoc]
      rfl
    have h1 := e1.trans (lexChars_div_quirk a.data b.data c.data d.data ha.1 hb.1 hc.1 hd.1
      ha.2 hb.2 hc.2 hd.2 va vb vc vd hva hvb hvc hvd)
    have h2 := e2.trans (lexChars_div_explicit a.data b.data c.data d.data ha.1 hb.1 hc.1
      hd.1 ha.2 hb.2 hc.2 hd.2 va vb vc vd hva hvb hvc hvd)
    refine ⟨h1, by rw [h1, h2], ?_⟩
    unfold mainExpr
    rw [h1]
    exact parse_div_quirk _ _ _ _
  · intro a rest f ha hv
    simp only [lex, String.data_append, List.append_assoc]
    exact lexChars_digits_error a.data rest.data '/' f ha.1 ha.2 hv (by decide) (by decide)
      (by decide)
  · intro d hd hlen
    exact stod_digits_short d.data hd.1 hd.2 hlen
  · exact run_of _ (Expr.DIV (Expr.NUMBER 6)
      (Expr.MUL (Expr.NUMBER 2) (Expr.ADD (Expr.NUMBER 1) (Expr.NUMBER 2)))) _
      (by decide) (by norm_num [evaluate])

/-- The input `12/3(4+56)`, by the general statement of C9. -/
theorem lex_division_quirk_witness :
    lex ("12" ++ "/" ++ "3" ++ "(" ++ "4" ++ "+" ++ "56" ++ ")")
      = Except.ok
          [make_token TokenType.NUMBER 12,
            make_token TokenType.DIV 0, make_token TokenType.LEFT_PAREN 0,
            make_token TokenType.NUMBER 3,
            make_token TokenType.MUL 0, make_token TokenType.LEFT_PAREN 0,
            make_token TokenType.NUMBER 4,
            make_token TokenType.ADD 0,
            make_token TokenType.NUMBER 56,
            make_token TokenType.RIGHT_PAREN 0, make_token TokenType.RIGHT_PAREN 0] :=
  (lex_division_quirk.1 "12" "3" "4" "56" 12 3 4 56 ⟨by decide, by decide⟩
    ⟨by decide, by decide⟩ ⟨by decide, by decide⟩ ⟨by decide, by decide⟩
    (by decide) (by decide) (by decide) (by decide)).1

/-- Claim C10, where the code departs from it.  The claim takes a `)`
immediately followed by `(` as a multiplication, so that `(6/2)(1+2)` gives 9.
In `lex` the `MUL` token of an implicit multiplication is only pushed by the
flush of a pending number before a `(`, as in `2(1+2)`; after a `)` the numeric
buffer is empty, so the `(` pushes the `LEFT_PAREN` token alone, with no `MUL`
token before it.  On the input `(6/2)(1+2)` the tokens are
`( 6 / 2 ) ( 1 + 2 )` and `parse` ends in its last assertion: no value is
returned.  With an explicit `*` the input `(6/2)*(1+2)` is parsed to
`Mul(Div(6,2), Add(1,2))` and has the value 9. -/
theorem lex_no_multiplication_after_close :
    (∀ (prev next : Option Char) (st st1 : LexState),
      lexStep prev ')' (some '(') st = Except.ok st1 →
      ∃ st2, lexStep (some ')') '(' next st1 = Except.ok st2
        ∧ st2.tokens = st1.tokens ++ [make_token TokenType.LEFT_PAREN 0])
    ∧ lex "(6/2)(1+2)"
        = Except.ok [make_token TokenType.LEFT_PAREN 0, make_token TokenType.NUMBER 6,
            make_token TokenType.DIV 0, make_token TokenType.NUMBER 2,
            make_token TokenType.RIGHT_PAREN 0, make_token TokenType.LEFT_PAREN 0,
            make_token TokenType.NUMBER 1, make_token TokenType.ADD 0,
            make_token TokenType.NUMBER 2, make_token TokenType.RIGHT_PAREN 0]
    ∧ mainExpr "(6/2)(1+2)" = Except.error Failure.assertion
    ∧ run "(6/2)(1+2)" = Except.error Failure.assertion
    ∧ run "(6/2)(1+2)" ≠ Except.ok 9
    ∧ lex "2(1+2)"
        = Except.ok [make_token TokenType.NUMBER 2, make_token TokenType.MUL 0,
            make_token TokenType.LEFT_PAREN 0, make_token TokenType.NUMBER 1,
            make_token TokenType.ADD 0, make_token TokenType.NUMBER 2,
            make_token TokenType.RIGHT_PAREN 0]
    ∧ mainExpr "(6/2)*(1+2)"
        = Except.ok (Expr.MUL (Expr.DIV (Expr.NUMBER 6) (Expr.NUMBER 2))
            (Expr.ADD (Expr.NUMBER 1) (Expr.NUMBER 2)))
    ∧ run "(6/2)*(1+2)" = Except.ok 9 := by
  have hrun : run "(6/2)(1+2)" = Except.error Failure.assertion :=
    run_error_of _ _ (by decide)
  refine ⟨?_, by decide, by decide, hrun, ?_, by decide, by decide, ?_⟩
  · intro prev next st st1 h
    have hnum : st1.number = [] := by
      unfold lexStep at h
      rw [if_neg (by simp [isSign])] at h
      cases hf : flush ')' st with
      | error f => rw [hf] at h; cases h
      | ok st0 =>
        rw [hf] at h
        have h0 := flush_number_nil _ _ _ hf
        rw [← h0]
        exact lexChar_close_number st0 st1 h
    refine ⟨{ st1 with
        tokens := st1.tokens ++ [make_token TokenType.LEFT_PAREN 0]
        extra_paren_count :=
          if st1.add_extra_paren then st1.extra_paren_count + 1 else st1.extra_paren_count },
      ?_, rfl⟩
    simp [lexStep, isSign, flush, hnum, lexChar]
  · rw [hrun]
    intro h2
    cases h2
  · exact run_of _ (Expr.MUL (Expr.DIV (Expr.NUMBER 6) (Expr.NUMBER 2))
      (Expr.ADD (Expr.NUMBER 1) (Expr.NUMBER 2))) _ (by decide) (by norm_num [evaluate])

/-- The characters `)(` of the input `(1)(2)`, by the general statement of C10. -/
theorem lex_no_multiplication_after_close_witness :
    ∃ st2, lexStep (some ')') '(' (some '2')
        { tokens := [make_token TokenType.LEFT_PAREN 0, make_token TokenType.NUMBER 1,
            make_token TokenType.RIGHT_PAREN 0],
          number := [], add_extra_paren := false, extra_paren_count := 0 } = Except.ok st2
      ∧ st2.tokens
          = [make_token TokenType.LEFT_PAREN 0, make_token TokenType.NUMBER 1,
              make_token TokenType.RIGHT_PAREN 0] ++ [make_token TokenType.LEFT_PAREN 0] :=
  lex_no_multiplication_after_close.1 (some '1') (some '2')
    { tokens := [make_token TokenType.LEFT_PAREN 0], number := ['1'],
      add_extra_paren := false, extra_paren_count := 0 }
    { tokens := [make_token TokenType.LEFT_PAREN 0, make_token TokenType.NUMBER 1,
        make_token TokenType.RIGHT_PAREN 0],
      number := [], add_extra_paren := false, extra_paren_count := 0 }
    (by decide)

/-! ## Failures of the parser -/

/-- The failures of `parse` are the last assertion and the empty range. -/
theorem parse_error_kind :
    ∀ (n : Nat) (ts : List Token), ts.length ≤ n → ∀ f, parse ts = Except.error f →
      f = Failure.assertion ∨ f = Failure.empty_range := by
  intro n
  induction n with
  | zero =>
    intro ts hlen f h
    have : ts = [] := List.length_eq_zero.1 (by omega)
    subst this
    rw [parse_nil] at h
    simp only [Except.error.injEq] at h
    exact Or.inr h.symm
  | succ n ih =>
    intro ts hlen f h
    have hbin : ∀ (type : Expr → Expr → Expr) (l r : List Token),
        l.length ≤ n → r.length ≤ n →
        makeBinary type (parse l) (parse r) = Except.error f →
        f = Failure.assertion ∨ f = Failure.empty_range := by
      intro type l r hl hr hm
      cases h1 : parse l with
      | error f1 =>
        rw [h1] at hm
        simp only [makeBinary, Except.error.injEq] at hm
        rw [← hm]
        exact ih l hl f1 h1
      | ok e1 =>
        cases h2 : parse r with
        | error f2 =>
          rw [h1, h2] at hm
          simp only [makeBinary, Except.error.injEq] at hm
          rw [← hm]
          exact ih r hr f2 h2
        | ok e2 =>
          rw [h1, h2] at hm
          cases hm
    rw [parse_eq] at h
    unfold parseBody at h
    cases ts with
    | nil =>
      simp only [Except.error.injEq] at h
      exact Or.inr h.symm
    | cons first rest =>
      simp only at h
      simp only [List.length_cons] at hlen
      split at h
      · cases h
      · split at h
        · apply ih _ _ f h
          simp only [List.tail_cons, List.length_dropLast]
          omega
        · cases hs : findSplit isTerm (first :: rest) with
          | some v =>
            obtain ⟨l, t, r⟩ := v
            rw [hs] at h
            simp only at h
            have hd := (findSplit_some _ _ _ _ _ hs).1
            have hlen2 := congrArg List.length hd
            simp only [List.length_cons, List.length_append] at hlen2
            exact hbin _ l r (by omega) (by omega) h
          | none =>
            rw [hs] at h
            simp only at h
            cases hs2 : findSplit isFactor (first :: rest) with
            | some v =>
              obtain ⟨l, t, r⟩ := v
              rw [hs2] at h
              simp only at h
              have hd := (findSplit_some _ _ _ _ _ hs2).1
              have hlen2 := congrArg List.length hd
              simp only [List.length_cons, List.length_append] at hlen2
              exact hbin _ l r (by omega) (by omega) h
            | none =>
              rw [hs2] at h
              simp only [Except.error.injEq] at h
              exact Or.inl h.symm

/-- On a range whose parentheses do not match `parse` returns no tree. -/
theorem parse_unbalanced_error (ts : List Token)
    (h : leftParens ts ≠ rightParens ts ∨ ∃ p, p <+: ts ∧ leftParens p < rightParens p) :
    (∀ e, parse ts ≠ Except.ok e)
      ∧ (parse ts = Except.error Failure.assertion
          ∨ parse ts = Except.error Failure.empty_range) := by
  have hno : ∀ e, parse ts ≠ Except.ok e := by
    intro e he
    have hb := parse_balanced _ ts (Nat.le_refl _) e he
    rcases h with h | ⟨p, hp, hlt⟩
    · exact h hb.2
    · have := hb.1 p hp
      omega
  refine ⟨hno, ?_⟩
  cases hp : parse ts with
  | ok e => exact absurd hp (hno e)
  | error f =>
    rcases parse_error_kind _ ts (Nat.le_refl _) f hp with rfl | rfl
    · exact Or.inl rfl
    · exact Or.inr rfl

/-! ## Failures of the lexer -/

/-- On a character that is not recognized the iteration of `lex` fails. -/
theorem lexStep_unrecognized (prev next : Option Char) (c : Char) (st : LexState)
    (h : ¬ recognized c) : ∃ f, lexStep prev c next st = Except.error f := by
  simp only [recognized, not_or] at h
  obtain ⟨h1, h2, h3, h4, h5, h6, h7, h8, h9⟩ := h
  unfold lexStep
  rw [if_neg (by simp [h1, h2, isSign, h7])]
  cases flush c st with
  | error f => exact ⟨f, rfl⟩
  | ok st1 => exact ⟨Failure.assertion, by simp [lexChar, h3, h4, h5, h6, h7, h8, h9]⟩

theorem lexLoop_unrecognized :
    ∀ (input : List Char) (prev : Option Char) (st : LexState),
      (∃ c ∈ input, ¬ recognized c) → ∃ f, lexLoop prev input st = Except.error f := by
  intro input
  induction input with
  | nil => intro prev st h; simp at h
  | cons c rest ih =>
    intro prev st h
    rw [lexLoop]
    cases hs : lexStep prev c rest.head? st with
    | error f => exact ⟨f, rfl⟩
    | ok st1 =>
      simp only
      apply ih
      obtain ⟨x, hx, hbad⟩ := h
      rcases List.mem_cons.1 hx with rfl | hx
      · obtain ⟨f, hf⟩ := lexStep_unrecognized prev rest.head? x st hbad
        rw [hf] at hs
        cases hs
      · exact ⟨x, hx, hbad⟩

/-- The conversion throws `std::invalid_argument` exactly when there is no
digit; its other exception is `std::out_of_range`. -/
theorem toDouble_error (negative : Bool) (whole fraction : List Char) :
    (toDouble negative whole fraction = Except.error Failure.invalid_argument
      ↔ (whole = [] ∧ fraction = []))
    ∧ (∀ f, toDouble negative whole fraction = Except.error f →
        f = Failure.invalid_argument ∨ f = Failure.out_of_range)
    ∧ ((∃ v, toDouble negative whole fraction = Except.ok v) →
        ¬ (whole = [] ∧ fraction = [])) := by
  unfold toDouble
  by_cases h0 : whole = [] ∧ fraction = []
  · rw [if_pos h0]
    refine ⟨⟨fun _ => h0, fun _ => rfl⟩, ?_, ?_⟩
    · intro f hf
      simp only [Except.error.injEq] at hf
      exact Or.inl hf.symm
    · rintro ⟨v, hv⟩
      cases hv
  · rw [if_neg h0]
    by_cases h1 : overflowBound * 10 ^ fraction.length ≤ digitsValue (whole ++ fraction)
    · rw [if_pos h1]
      refine ⟨⟨fun h => (by cases h), fun h => absurd h h0⟩, ?_, fun _ => h0⟩
      intro f hf
      simp only [Except.error.injEq] at hf
      exact Or.inr hf.symm
    · rw [if_neg h1]
      by_cases h2 : 0 < digitsValue (whole ++ fraction)
          ∧ digitsValue (whole ++ fraction) * normalBound < 10 ^ fraction.length
      · rw [if_pos h2]
        refine ⟨⟨fun h => (by cases h), fun h => absurd h h0⟩, ?_, fun _ => h0⟩
        intro f hf
        simp only [Except.error.injEq] at hf
        exact Or.inr hf.symm
      · rw [if_neg h2]
        cases negative
        · refine ⟨⟨fun h => (by cases h), fun h => absurd h h0⟩, ?_, fun _ => h0⟩
          intro f hf
          cases hf
        · refine ⟨⟨fun h => (by cases h), fun h => absurd h h0⟩, ?_, fun _ => h0⟩
          intro f hf
          cases hf

/-- The text has a digit in its literal exactly when it starts with a digit or
with a `.` and a digit. -/
theorem literal_shape (body : List Char) :
    (¬ (List.takeWhile Char.isDigit body = []
        ∧ (match List.dropWhile Char.isDigit body with
            | '.' :: rest => List.takeWhile Char.isDigit rest
            | _ => []) = []))
      ↔ ((∃ d rest, body = d :: rest ∧ d.isDigit = true)
        ∨ (∃ d rest, body = '.' :: d :: rest ∧ d.isDigit = true)) := by
  cases body with
  | nil => simp
  | cons c rest =>
    by_cases hc : c.isDigit = true
    · simp [List.takeWhile_cons, hc]
    · have hc2 : c.isDigit = false := by simpa using hc
      by_cases hdot : c = '.'
      · subst hdot
        cases rest with
        | nil => simp [List.takeWhile_cons, List.dropWhile_cons, hc2]
        | cons d rest =>
          by_cases hd : d.isDigit = true
          · simp [List.takeWhile_cons, List.dropWhile_cons, hc2, hd]
          · have hd2 : d.isDigit = false := by simpa using hd
            simp [List.takeWhile_cons, List.dropWhile_cons, hc2, hd2]
      · have : ∀ r : List Char, (match c :: r with
            | '.' :: rest => List.takeWhile Char.isDigit rest
            | _ => []) = [] := by
          intro r
          split
          · rename_i heq
            simp only [List.cons.injEq] at heq
            exact absurd heq.1 hdot
          · rfl
        simp [List.takeWhile_cons, List.dropWhile_cons, hc2, this, hdot]

/-- The library function `std::stod` throws `std::invalid_argument` exactly
when the text does not start with a decimal literal. -/
theorem stod_invalid_iff (number : List Char) :
    stod number ≠ Except.error Failure.invalid_argument ↔ StartsWithNumber number := by
  have hok : ∀ (body : List Char) (neg : Bool),
      toDouble neg (List.takeWhile Char.isDigit body)
          (match List.dropWhile Char.isDigit body with
            | '.' :: rest => List.takeWhile Char.isDigit rest
            | _ => []) ≠ Except.error Failure.invalid_argument
        ↔ ((∃ d rest, body = d :: rest ∧ d.isDigit = true)
          ∨ (∃ d rest, body = '.' :: d :: rest ∧ d.isDigit = true)) := by
    intro body neg
    rw [← literal_shape body, Ne, (toDouble_error neg _ _).1]
  have hdm : ¬ Char.isDigit '-' = true := by decide
  have hdp : ¬ Char.isDigit '+' = true := by decide
  unfold stod StartsWithNumber
  cases number with
  | nil =>
    simp only [List.head?_nil, List.tail_nil]
    constructor
    · intro h
      exact absurd (by decide) h
    · rintro ⟨body, hb | hb | hb, hg⟩
      · subst hb
        rcases hg with ⟨d, r, hd, _⟩ | ⟨d, r, hd, _⟩ <;> cases hd
      · cases hb
      · cases hb
  | cons c rest =>
    by_cases hm : c = '-'
    · subst hm
      have h := hok rest true
      simp only [List.head?_cons, List.tail_cons, true_or, if_true, decide_True] at h ⊢
      rw [h]
      constructor
      · intro hb
        exact ⟨rest, Or.inr (Or.inl rfl), hb⟩
      · rintro ⟨body, hb | hb | hb, hg⟩
        · subst hb
          rcases hg with ⟨d, r, hd, hd2⟩ | ⟨d, r, hd, _⟩
          · simp only [List.cons.injEq] at hd
            rw [← hd.1] at hd2
            exact absurd hd2 hdm
          · simp only [List.cons.injEq] at hd
            exact absurd hd.1 (by decide)
        · simp only [List.cons.injEq, true_and] at hb
          subst hb
          exact hg
        · simp only [List.cons.injEq] at hb
          exact absurd hb.1 (by decide)
    · by_cases hp : c = '+'
      · subst hp
        have h := hok rest false
        simp only [List.head?_cons, List.tail_cons, Option.some.injEq, Char.reduceEq,
          or_true, if_true, decide_False] at h ⊢
        rw [h]
        constructor
        · intro hb
          exact ⟨rest, Or.inr (Or.inr rfl), hb⟩
        · rintro ⟨body, hb | hb | hb, hg⟩
          · subst hb
            rcases hg with ⟨d, r, hd, hd2⟩ | ⟨d, r, hd, _⟩
            · simp only [List.cons.injEq] at hd
              rw [← hd.1] at hd2
              exact absurd hd2 hdp
            · simp only [List.cons.injEq] at hd
              exact absurd hd.1 (by decide)
          · simp only [List.cons.injEq] at hb
            exact absurd hb.1 (by decide)
          · simp only [List.cons.injEq, true_and] at hb
            subst hb
            exact hg
      · have h := hok (c :: rest) false
        simp only [List.head?_cons, Option.some.injEq, hm, hp, or_self, if_false,
          decide_False] at h ⊢
        rw [h]
        constructor
        · intro hb
          exact ⟨c :: rest, Or.inl rfl, hb⟩
        · rintro ⟨body, hb | hb | hb, hg⟩
          · subst hb
            exact hg
          · simp only [List.cons.injEq] at hb
            exact absurd hb.1 hm
          · simp only [List.cons.injEq] at hb
            exact absurd hb.1 hp

/-- The exceptions of `std::stod` are `std::invalid_argument` and
`std::out_of_range`. -/
theorem stod_error_kind (number : List Char) (f : Failure)
    (h : stod number = Except.error f) :
    f = Failure.invalid_argument ∨ f = Failure.out_of_range := by
  unfold stod at h
  exact (toDouble_error _ _ _).2.1 f h

/-- The flush of a pending buffer succeeds when `std::stod` converts the
buffer, and fails with the exception of `std::stod` otherwise. -/
theorem flush_stod (c : Char) (st : LexState) (hne : st.number ≠ []) :
    (∀ f, stod (if st.number = ['-'] then ['-', '1'] else st.number) = Except.error f →
      flush c st = Except.error f)
    ∧ (∀ v, stod (if st.number = ['-'] then ['-', '1'] else st.number) = Except.ok v →
      ∃ st1, flush c st = Except.ok st1 ∧ make_token TokenType.NUMBER v ∈ st1.tokens) := by
  unfold flush
  rw [if_neg hne]
  simp only
  constructor
  · intro f hf
    by_cases hc : c = '('
    · rw [if_pos hc, hf]
    · rw [if_neg hc, hf]
  · intro v hv
    by_cases hc : c = '('
    · rw [if_pos hc, hv]
      exact ⟨_, rfl, by simp⟩
    · rw [if_neg hc, hv]
      exact ⟨_, rfl, by simp⟩

/-- The library function `std::stod` ignores what comes after the fraction of
a literal, from a second `.` or a `-` on. -/
theorem stod_trailing (whole fraction rest : List Char) (c : Char)
    (hw : ∀ x ∈ whole, x.isDigit = true) (hf : ∀ x ∈ fraction, x.isDigit = true)
    (hc0 : c = '.' ∨ c = '-') :
    stod (whole ++ '.' :: (fraction ++ c :: rest)) = stod (whole ++ '.' :: fraction) := by
  have hdot : Char.isDigit '.' = false := by decide
  have hc : c.isDigit = false := by
    rcases hc0 with rfl | rfl <;> decide
  have key : ∀ tail : List Char, (∀ x, tail.head? = some x → x.isDigit = false) →
      stod (whole ++ '.' :: (fraction ++ tail)) = toDouble false whole fraction := by
    intro tail htail
    have h3 : List.takeWhile Char.isDigit (whole ++ '.' :: (fraction ++ tail)) = whole := by
      rw [List.takeWhile_append_of_pos hw]
      simp [List.takeWhile_cons, hdot]
    have h4 : List.dropWhile Char.isDigit (whole ++ '.' :: (fraction ++ tail))
        = '.' :: (fraction ++ tail) := by
      rw [List.dropWhile_append_of_pos hw]
      simp [List.dropWhile_cons, hdot]
    have h5 : List.takeWhile Char.isDigit (fraction ++ tail) = fraction := by
      rw [List.takeWhile_append_of_pos hf]
      cases tail with
      | nil => simp
      | cons x tail =>
        have := htail x rfl
        simp [List.takeWhile_cons, this]
    have hhead : ∀ x, (whole ++ '.' :: (fraction ++ tail)).head? = some x →
        x ≠ '-' ∧ x ≠ '+' := by
      intro x hx
      cases whole with
      | nil =>
        simp only [List.nil_append, List.head?_cons, Option.some.injEq] at hx
        rw [← hx]
        exact ⟨by decide, by decide⟩
      | cons w ws =>
        simp only [List.cons_append, List.head?_cons, Option.some.injEq] at hx
        have hwd := hw w (by simp)
        rw [hx] at hwd
        constructor
        · rintro rfl; exact absurd hwd (by decide)
        · rintro rfl; exact absurd hwd (by decide)
    unfold stod
    cases hh : (whole ++ '.' :: (fraction ++ tail)).head? with
    | none =>
      cases whole <;> simp at hh
    | some x =>
      obtain ⟨hx1, hx2⟩ := hhead x hh
      simp only [Option.some.injEq, hx1, hx2, or_self, if_false, decide_False, h3, h4, h5]
  rw [key (c :: rest) (by intro x hx; simp only [List.head?_cons, Option.some.injEq] at hx; rw [← hx]; exact hc)]
  have := key [] (by intro x hx; simp at hx)
  rw [List.append_nil] at this
  rw [this]

/-- The function `lex` on a text of digits and `.`: the whole text is the
numeric buffer at the end of the input. -/
theorem lexChars_number_chars (text : List Char) (hne : text ≠ [])
    (h : ∀ x ∈ text, x.isDigit = true ∨ x = '.') :
    lexChars text = (stod text).map (fun v => [make_token TokenType.NUMBER v]) := by
  unfold lexChars
  have h1 := lexLoop_number_chars text none [] LexState.init h
  rw [List.append_nil] at h1
  rw [h1]
  simp only [lexLoop, lexEnd, LexState.init, List.nil_append, if_neg hne]
  cases stod text with
  | error f => rfl
  | ok v => rfl

/-- Claim C13: unrecognized characters.  On every input that has a character
other than the digits, `.`, the space, `*`, `/`, `+`, `-`, `(` and `)`, `lex`
fails and returns no tokens; `2+x` ends in the assertion of the loop. -/
theorem lex_unrecognized :
    (∀ s : String, (∃ c ∈ s.data, ¬ recognized c) → ∃ f, lex s = Except.error f)
    ∧ lex "2+x" = Except.error Failure.assertion
    ∧ lex "2 + 3a" = Except.error Failure.assertion := by
  refine ⟨?_, by decide, by decide⟩
  intro s h
  obtain ⟨f, hf⟩ := lexLoop_unrecognized s.data none LexState.init h
  exact ⟨f, by simp [lex, lexChars, hf]⟩

/-- The input `7*y`, by the general statement of C13. -/
theorem lex_unrecognized_witness : ∃ f, lex "7*y" = Except.error f :=
  lex_unrecognized.1 "7*y" ⟨'y', by decide, by unfold recognized; decide⟩

/-- Claim C14 as stated fails on the inputs `1..2` and `1.2.3`: the buffer is
not a decimal literal as a whole, but `lex` does not fail; it emits one
`NUMBER` token, for the longest prefix that is a literal: `1..2` gives the
number 1, `1.5.3` gives the number 1.5 and `1.2.3` gives what `1.2` gives. -/
theorem lex_trailing_number_text :
    lex "1..2" = Except.ok [make_token TokenType.NUMBER 1]
    ∧ lex "1.5.3" = Except.ok [make_token TokenType.NUMBER (mkRat 3 2)]
    ∧ lex "1.2.3" = lex "1.2"
    ∧ (lex "1.2.3").toBool = true := by
  exact ⟨by decide, by decide, by decide, by decide⟩

/-- Claim C14, amended: numeric text is fatal exactly when `std::stod` throws
on the flushed buffer.  On a buffer of digits, `.` and `-` it throws
`std::invalid_argument` exactly when the buffer does not start with a decimal
literal (after an optional sign, neither a digit nor a `.` and a digit), and
its only other exception is `std::out_of_range`, for a literal outside the
range of `double`; the flush fails with the exception of `std::stod` and pushes
the `NUMBER` token otherwise.  What comes after the literal at the start of the buffer is ignored:
a text of digits and `.` with a second `.` is lexed like the text before the
second `.`.  So `1.2.3` is lexed like `1.2` and `1..2` gives `Number(1)`; `lex`
fails on `.`, on `..` and on `.+1`, and on 309 digits `9`. -/
theorem lex_malformed_number :
    (∀ number : List Char, (∀ c ∈ number, c.isDigit = true ∨ c = '.' ∨ c = '-') →
      (stod number = Except.error Failure.invalid_argument ↔ ¬ StartsWithNumber number))
    ∧ (∀ (number : List Char) (f : Failure), stod number = Except.error f →
        f = Failure.invalid_argument ∨ f = Failure.out_of_range)
    ∧ (∀ (c : Char) (st : LexState), st.number ≠ [] →
        (∀ f, stod (if st.number = ['-'] then ['-', '1'] else st.number) = Except.error f →
          flush c st = Except.error f)
        ∧ (∀ v, stod (if st.number = ['-'] then ['-', '1'] else st.number) = Except.ok v →
          ∃ st1, flush c st = Except.ok st1 ∧ make_token TokenType.NUMBER v ∈ st1.tokens))
    ∧ (∀ whole fraction rest : List Char,
        (∀ x ∈ whole, x.isDigit = true) → (∀ x ∈ fraction, x.isDigit = true) →
        (∀ x ∈ rest, x.isDigit = true ∨ x = '.') →
        lex (String.mk (whole ++ '.' :: (fraction ++ '.' :: rest)))
          = lex (String.mk (whole ++ '.' :: fraction)))
    ∧ lex "1.2.3" = lex "1.2"
    ∧ lex "1..2" = Except.ok [make_token TokenType.NUMBER 1]
    ∧ lex "." = Except.error Failure.invalid_argument
    ∧ lex ".." = Except.error Failure.invalid_argument
    ∧ lex ".+1" = Except.error Failure.invalid_argument
    ∧ lex (String.mk (List.replicate 309 '9')) = Except.error Failure.out_of_range := by
  refine ⟨?_, stod_error_kind, flush_stod, ?_, by decide, by decide, by decide, by decide,
    by decide, ?_⟩
  · intro number _
    rw [← stod_invalid_iff number, Ne, not_not]
  · intro whole fraction rest hw hf hr
    have hdot : Char.isDigit '.' = false := by decide
    have h1 : ∀ x ∈ whole ++ '.' :: (fraction ++ '.' :: rest), x.isDigit = true ∨ x = '.' := by
      intro x hx
      simp only [List.mem_append, List.mem_cons] at hx
      rcases hx with hx | hx | hx | hx | hx
      · exact Or.inl (hw x hx)
      · exact Or.inr hx
      · exact Or.inl (hf x hx)
      · exact Or.inr hx
      · exact hr x hx
    have h2 : ∀ x ∈ whole ++ '.' :: fraction, x.isDigit = true ∨ x = '.' := by
      intro x hx
      simp only [List.mem_append, List.mem_cons] at hx
      rcases hx with hx | hx | hx
      · exact Or.inl (hw x hx)
      · exact Or.inr hx
      · exact Or.inl (hf x hx)
    simp only [lex]
    rw [lexChars_number_chars _ (by simp) h1, lexChars_number_chars _ (by simp) h2,
      stod_trailing whole fraction rest '.' hw hf (Or.inl rfl)]
  · simp only [lex]
    rw [lexChars_number_chars _ stod_nines.1 (fun x hx => Or.inl (stod_nines.2.1 x hx)),
      stod_nines.2.2]
    rfl

/-- The text `12.5.7`, by the general statement of C14: it is lexed like
`12.5`. -/
theorem lex_malformed_number_witness :
    lex (String.mk (['1', '2'] ++ '.' :: (['5'] ++ '.' :: ['7'])))
      = lex (String.mk (['1', '2'] ++ '.' :: ['5']))
    ∧ lex (String.mk (['1', '2'] ++ '.' :: ['5']))
      = Except.ok [make_token TokenType.NUMBER (mkRat 25 2)] :=
  ⟨lex_malformed_number.2.2.2.1 ['1', '2'] ['5'] ['7'] (by decide) (by decide) (by decide),
   by decide⟩

/-- Claim C20: the nested division quirk is not closed.  A flush before `(`
after a `DIV` token while the tracking of the extra parenthesis is active emits
one more synthetic `LEFT_PAREN` and leaves the tracking as it is (the counter
records no nesting); a `)` emits at most one synthetic `RIGHT_PAREN`, and then
the tracking is off.  On the input `8/2(4/2(1))` the tokens have four
`LEFT_PAREN` and three `RIGHT_PAREN` tokens, and `parse` fails on them. -/
theorem lex_nested_quirk :
    (∀ (st : LexState) (v : ℚ), st.add_extra_paren = true → st.number ≠ [] →
      st.number ≠ ['-'] → stod st.number = Except.ok v →
      (∃ t, st.tokens.getLast? = some t ∧ t.type = TokenType.DIV) →
      flush '(' st
        = Except.ok
            { tokens := st.tokens ++ [make_token TokenType.LEFT_PAREN 0,
                make_token TokenType.NUMBER v, make_token TokenType.MUL 0]
              number := []
              add_extra_paren := true
              extra_paren_count := st.extra_paren_count })
    ∧ (∀ st st1 : LexState, lexChar ')' st = Except.ok st1 →
        st1.tokens = st.tokens ++ [make_token TokenType.RIGHT_PAREN 0]
          ∨ (st1.tokens = st.tokens ++ [make_token TokenType.RIGHT_PAREN 0,
                make_token TokenType.RIGHT_PAREN 0]
              ∧ st1.add_extra_paren = false))
    ∧ lex "8/2(4/2(1))"
        = Except.ok
            [make_token TokenType.NUMBER 8, make_token TokenType.DIV 0,
              make_token TokenType.LEFT_PAREN 0, make_token TokenType.NUMBER 2,
              make_token TokenType.MUL 0, make_token TokenType.LEFT_PAREN 0,
              make_token TokenType.NUMBER 4, make_token TokenType.DIV 0,
              make_token TokenType.LEFT_PAREN 0, make_token TokenType.NUMBER 2,
              make_token TokenType.MUL 0, make_token TokenType.LEFT_PAREN 0,
              make_token TokenType.NUMBER 1, make_token TokenType.RIGHT_PAREN 0,
              make_token TokenType.RIGHT_PAREN 0, make_token TokenType.RIGHT_PAREN 0]
    ∧ leftParens
          [make_token TokenType.NUMBER 8, make_token TokenType.DIV 0,
            make_token TokenType.LEFT_PAREN 0, make_token TokenType.NUMBER 2,
            make_token TokenType.MUL 0, make_token TokenType.LEFT_PAREN 0,
            make_token TokenType.NUMBER 4, make_token TokenType.DIV 0,
            make_token TokenType.LEFT_PAREN 0, make_token TokenType.NUMBER 2,
            make_token TokenType.MUL 0, make_token TokenType.LEFT_PAREN 0,
            make_token TokenType.NUMBER 1, make_token TokenType.RIGHT_PAREN 0,
            make_token TokenType.RIGHT_PAREN 0, make_token TokenType.RIGHT_PAREN 0] = 4
    ∧ rightParens
          [make_token TokenType.NUMBER 8, make_token TokenType.DIV 0,
            make_token TokenType.LEFT_PAREN 0, make_token TokenType.NUMBER 2,
            make_token TokenType.MUL 0, make_token TokenType.LEFT_PAREN 0,
            make_token TokenType.NUMBER 4, make_token TokenType.DIV 0,
            make_token TokenType.LEFT_PAREN 0, make_token TokenType.NUMBER 2,
            make_token TokenType.MUL 0, make_token TokenType.LEFT_PAREN 0,
            make_token TokenType.NUMBER 1, make_token TokenType.RIGHT_PAREN 0,
            make_token TokenType.RIGHT_PAREN 0, make_token TokenType.RIGHT_PAREN 0] = 3
    ∧ mainExpr "8/2(4/2(1))" = Except.error Failure.assertion := by
  refine ⟨?_, ?_, by decide, by decide, by decide, by decide⟩
  · intro st v haep hne hm hv ⟨t, hl, ht⟩
    simp [flush, hne, hm, hv, hl, ht, haep]
  · intro st st1 h
    simp only [lexChar, Char.reduceEq, if_false, if_true] at h
    by_cases hc : st.add_extra_paren = true ∧
        (if st.add_extra_paren = true then st.extra_paren_count - 1
          else st.extra_paren_count) = 0
    · rw [if_pos hc] at h
      simp only [Except.ok.injEq] at h
      rw [← h]
      exact Or.inr ⟨rfl, rfl⟩
    · rw [if_neg hc] at h
      simp only [Except.ok.injEq] at h
      rw [← h]
      exact Or.inl rfl

/-- The second flush of `8/2(4/2(1))`, by the general statement of C20: the
buffer holds `2`, the last token is the second `DIV` and the tracking is
active with the counter 1. -/
theorem lex_nested_quirk_witness :
    flush '('
        { tokens := [make_token TokenType.NUMBER 4, make_token TokenType.DIV 0],
          number := ['2'], add_extra_paren := true, extra_paren_count := 1 }
      = Except.ok
          { tokens := [make_token TokenType.NUMBER 4, make_token TokenType.DIV 0]
              ++ [make_token TokenType.LEFT_PAREN 0, make_token TokenType.NUMBER 2,
                make_token TokenType.MUL 0]
            number := []
            add_extra_paren := true
            extra_paren_count := 1 } :=
  lex_nested_quirk.1
    { tokens := [make_token TokenType.NUMBER 4, make_token TokenType.DIV 0],
      number := ['2'], add_extra_paren := true, extra_paren_count := 1 }
    2 rfl (by decide) (by decide) (by decide) ⟨make_token TokenType.DIV 0, by decide, rfl⟩

/-! ## One call of the parser on iterators: the ranges of its calls -/

/-- The backward loop, started at a position not before `begin`, splits at a
position between `begin` and the position where it started. -/
theorem splitLoopAt_bounds (isOp : TokenType → Bool) (tokens : List Token) :
    ∀ (fuel : Nat) (token b : Int) (l r : Nat) (k : Int) (type : TokenType),
      b ≤ token → splitLoopAt isOp tokens fuel token b l r = Except.ok (some (k, type)) →
      b ≤ k ∧ k ≤ token := by
  intro fuel
  induction fuel with
  | zero => intro token b l r k type _ h; simp [splitLoopAt] at h
  | succ fuel ih =>
    intro token b l r k type hb h
    unfold splitLoopAt at h
    cases ht : tokenAt tokens token with
    | error f => rw [ht] at h; cases h
    | ok tok =>
      rw [ht] at h
      simp only at h
      split at h
      · simp only [Except.ok.injEq, Option.some.injEq, Prod.mk.injEq] at h
        omega
      · split at h
        · cases h
        · rename_i hne
          have hb2 : b ≤ token - 1 := by omega
          split at h
          · have := ih _ _ _ _ _ _ hb2 h
            omega
          · split at h
            · have := ih _ _ _ _ _ _ hb2 h
              omega
            · have := ih _ _ _ _ _ _ hb2 h
              omega

/-- On a range that is not empty every recursive call of `parse(b, e)` is on a
range inside `(b, e)` that is strictly shorter. -/
theorem parseStep_calls_shorter (tokens : List Token) (b e : Int) (step : Step)
    (hbe : b < e) (h : parseStep tokens b e = Except.ok step) :
    ∀ call ∈ step.calls b e,
      b ≤ call.1 ∧ call.1 ≤ call.2 ∧ call.2 ≤ e ∧ call.2 - call.1 < e - b := by
  have hsplit : ∀ (isOp : TokenType → Bool) (k : Int) (type : TokenType),
      splitLoopAt isOp tokens (tokens.length + 1) (e - 1) b 0 0 = Except.ok (some (k, type)) →
      ∀ call ∈ (Step.split k type).calls b e,
        b ≤ call.1 ∧ call.1 ≤ call.2 ∧ call.2 ≤ e ∧ call.2 - call.1 < e - b := by
    intro isOp k type hk call hc
    have hb := splitLoopAt_bounds isOp tokens _ _ _ _ _ _ _ (by omega) hk
    simp only [Step.calls, List.mem_cons, List.mem_singleton, List.not_mem_nil, or_false] at hc
    rcases hc with rfl | rfl
    · simp only
      omega
    · simp only
      omega
  unfold parseStep at h
  split at h
  · cases h
  · simp only [Except.ok.injEq] at h
    subst h
    intro call hc
    simp [Step.calls] at hc
  · cases hfirst : tokenAt tokens b with
    | error f => rw [hfirst] at h; cases h
    | ok first =>
      rw [hfirst] at h
      simp only at h
      split at h
      · cases h
      · rename_i hstrip
        simp only [Except.ok.injEq] at h
        subst h
        -- the two ends are different tokens
        have hne : b ≠ e - 1 := by
          intro heq
          by_cases hf : first.type = TokenType.LEFT_PAREN
          · rw [if_pos hf, ← heq, hfirst] at hstrip
            simp only at hstrip
            by_cases hl : first.type = TokenType.RIGHT_PAREN
            · rw [hf] at hl
              cases hl
            · rw [if_neg hl] at hstrip
              cases hstrip
          · rw [if_neg hf] at hstrip
            cases hstrip
        intro call hc
        simp only [Step.calls, List.mem_singleton] at hc
        subst hc
        simp only
        omega
      · cases hs : splitLoopAt isTerm tokens (tokens.length + 1) (e - 1) b 0 0 with
        | error f => rw [hs] at h; cases h
        | ok o =>
          cases o with
          | some v =>
            obtain ⟨k, type⟩ := v
            rw [hs] at h
            simp only [Except.ok.injEq] at h
            subst h
            exact hsplit isTerm k type hs
          | none =>
            rw [hs] at h
            simp only at h
            cases hs2 : splitLoopAt isFactor tokens (tokens.length + 1) (e - 1) b 0 0 with
            | error f => rw [hs2] at h; cases h
            | ok o =>
              cases o with
              | some v =>
                obtain ⟨k, type⟩ := v
                rw [hs2] at h
                simp only [Except.ok.injEq] at h
                subst h
                exact hsplit isFactor k type hs2
              | none =>
                rw [hs2] at h
                cases h

/-! ## The properties of the failures of the parser -/

/-- Claim C11, where the code departs from it.  On every range whose
parentheses do not match (the numbers of `LEFT_PAREN` and `RIGHT_PAREN` tokens
differ, or a prefix has more `RIGHT_PAREN` than `LEFT_PAREN` tokens) `parse`
returns no tree.  It ends in its last assertion, or it reaches an empty range,
where the source reads a token outside the range: on the tokens `+ ) ( +` of
the input `+)(+` the first split is at the last `+`; its right operand is the
empty range `(4, 4)`, where `*begin` is read past the vector, and its left
operand `(0, 3)` is split at the first `+` with the empty range `(0, 0)` as
left operand, where the backward loop reads before the vector.  In either
order of the operands the run is undefined instead of a signalled failure. -/
theorem parse_unbalanced :
    (∀ ts : List Token,
      (leftParens ts ≠ rightParens ts ∨ ∃ p, p <+: ts ∧ leftParens p < rightParens p) →
      (∀ e, parse ts ≠ Except.ok e)
        ∧ (parse ts = Except.error Failure.assertion
            ∨ parse ts = Except.error Failure.empty_range))
    ∧ lex "+)(+"
        = Except.ok [make_token TokenType.ADD 0, make_token TokenType.RIGHT_PAREN 0,
            make_token TokenType.LEFT_PAREN 0, make_token TokenType.ADD 0]
    ∧ leftParens [make_token TokenType.ADD 0, make_token TokenType.RIGHT_PAREN 0]
        < rightParens [make_token TokenType.ADD 0, make_token TokenType.RIGHT_PAREN 0]
    ∧ parseStep [make_token TokenType.ADD 0, make_token TokenType.RIGHT_PAREN 0,
          make_token TokenType.LEFT_PAREN 0, make_token TokenType.ADD 0] 0 4
        = Except.ok (Step.split 3 TokenType.ADD)
    ∧ parseStep [make_token TokenType.ADD 0, make_token TokenType.RIGHT_PAREN 0,
          make_token TokenType.LEFT_PAREN 0, make_token TokenType.ADD 0] 4 4
        = Except.error Failure.out_of_bounds
    ∧ parseStep [make_token TokenType.ADD 0, make_token TokenType.RIGHT_PAREN 0,
          make_token TokenType.LEFT_PAREN 0, make_token TokenType.ADD 0] 0 3
        = Except.ok (Step.split 0 TokenType.ADD)
    ∧ parseStep [make_token TokenType.ADD 0, make_token TokenType.RIGHT_PAREN 0,
          make_token TokenType.LEFT_PAREN 0, make_token TokenType.ADD 0] 0 0
        = Except.error Failure.out_of_bounds
    ∧ parse [make_token TokenType.ADD 0, make_token TokenType.RIGHT_PAREN 0,
          make_token TokenType.LEFT_PAREN 0, make_token TokenType.ADD 0]
        = Except.error Failure.empty_range
    ∧ run "+)(+" = Except.error Failure.empty_range := by
  refine ⟨fun ts h => parse_unbalanced_error ts h, by decide, by decide, by decide, by decide,
    by decide, by decide, by decide, run_error_of _ _ (by decide)⟩

/-- The tokens `( 1 + 2` of the input `(1+2`, by the general statement of C11:
there is one `LEFT_PAREN` and no `RIGHT_PAREN`. -/
theorem parse_unbalanced_witness :
    (∀ e, parse [make_token TokenType.LEFT_PAREN 0, make_token TokenType.NUMBER 1,
        make_token TokenType.ADD 0, make_token TokenType.NUMBER 2] ≠ Except.ok e)
      ∧ (parse [make_token TokenType.LEFT_PAREN 0, make_token TokenType.NUMBER 1,
            make_token TokenType.ADD 0, make_token TokenType.NUMBER 2]
          = Except.error Failure.assertion
        ∨ parse [make_token TokenType.LEFT_PAREN 0, make_token TokenType.NUMBER 1,
            make_token TokenType.ADD 0, make_token TokenType.NUMBER 2]
          = Except.error Failure.empty_range) :=
  parse_unbalanced.1 _ (Or.inl (by decide))

/-- Claim C12, where the code departs from it.  On the input `(1+2` the run
ends in the last assertion of `parse`.  On the input `2+` the tokens are `2 +`;
the call `parse(0, 2)` splits at the `+` at position 1 and calls `parse` on the
number before it and on the empty range `(2, 2)` after it; that call reads
`*begin` at position 2, past the last token: the run is undefined, not a
signalled failure. -/
theorem run_malformed :
    lex "2+" = Except.ok [make_token TokenType.NUMBER 2, make_token TokenType.ADD 0]
    ∧ parseStep [make_token TokenType.NUMBER 2, make_token TokenType.ADD 0] 0 2
        = Except.ok (Step.split 1 TokenType.ADD)
    ∧ (Step.split 1 TokenType.ADD).calls 0 2 = [(0, 1), (2, 2)]
    ∧ parseStep [make_token TokenType.NUMBER 2, make_token TokenType.ADD 0] 0 1
        = Except.ok (Step.number 2)
    ∧ parseStep [make_token TokenType.NUMBER 2, make_token TokenType.ADD 0] 2 2
        = Except.error Failure.out_of_bounds
    ∧ run "2+" = Except.error Failure.empty_range
    ∧ lex "(1+2"
        = Except.ok [make_token TokenType.LEFT_PAREN 0, make_token TokenType.NUMBER 1,
            make_token TokenType.ADD 0, make_token TokenType.NUMBER 2]
    ∧ run "(1+2" = Except.error Failure.assertion := by
  refine ⟨by decide, by decide, by decide, by decide, by decide,
    run_error_of _ _ (by decide), by decide, run_error_of _ _ (by decide)⟩

/-- Claim C19, where the code departs from it.  On a range that is not empty
every recursive call of `parse` (on the inner range after stripping, on the
ranges before and after the token of a split) is on a strictly shorter range
inside the range, so a bound above the length of the range is never used up and
`parse` is the function that satisfies the recursive equation of the source.
On the empty range this fails.  On the tokens `2 + + 3` of the input `2++3` the
call on the empty range `(2, 2)` starts its backward loop at position 1, before
`begin`, splits there and calls itself on the ranges `(2, 1)` and `(2, 2)`: the
second is the range of the call itself.  On the tokens `2 +` of the input `2+`
the call on the empty range `(2, 2)` reads `*begin` past the vector. -/
theorem parse_terminates :
    (∀ (tokens : List Token) (b e : Int) (step : Step), b < e →
      parseStep tokens b e = Except.ok step →
      ∀ call ∈ step.calls b e,
        b ≤ call.1 ∧ call.1 ≤ call.2 ∧ call.2 ≤ e ∧ call.2 - call.1 < e - b)
    ∧ (∀ (f g : List Token → Except Failure Expr) (ts : List Token),
        (∀ sub : List Token, sub.length < ts.length → f sub = g sub) →
        parseBody f ts = parseBody g ts)
    ∧ (∀ (n : Nat) (ts : List Token), ts.length < n → parseFuel n ts = parse ts)
    ∧ (∀ ts : List Token, parse ts = parseBody parse ts)
    ∧ lex "2++3"
        = Except.ok [make_token TokenType.NUMBER 2, make_token TokenType.ADD 0,
            make_token TokenType.ADD 0, make_token TokenType.NUMBER 3]
    ∧ parseStep [make_token TokenType.NUMBER 2, make_token TokenType.ADD 0,
          make_token TokenType.ADD 0, make_token TokenType.NUMBER 3] 0 4
        = Except.ok (Step.split 2 TokenType.ADD)
    ∧ parseStep [make_token TokenType.NUMBER 2, make_token TokenType.ADD 0,
          make_token TokenType.ADD 0, make_token TokenType.NUMBER 3] 0 2
        = Except.ok (Step.split 1 TokenType.ADD)
    ∧ parseStep [make_token TokenType.NUMBER 2, make_token TokenType.ADD 0,
          make_token TokenType.ADD 0, make_token TokenType.NUMBER 3] 2 2
        = Except.ok (Step.split 1 TokenType.ADD)
    ∧ (Step.split 1 TokenType.ADD).calls 2 2 = [(2, 1), (2, 2)]
    ∧ parseStep [make_token TokenType.NUMBER 2, make_token TokenType.ADD 0] 2 2
        = Except.error Failure.out_of_bounds
    ∧ parse [] = Except.error Failure.empty_range := by
  refine ⟨parseStep_calls_shorter, parseBody_congr, ?_, parse_eq, by decide, by decide,
    by decide, by decide, by decide, by decide, by decide⟩
  intro n ts h
  exact parseFuel_stable n (ts.length + 1) ts h (Nat.lt_succ_self _)

/-- The call `parse(0, 3)` on the tokens `2 + 3`, by the first statement of
C19: its calls are on the ranges `(0, 1)` and `(2, 3)`. -/
theorem parse_terminates_witness :
    (Step.split 1 TokenType.ADD).calls 0 3 = [(0, 1), (2, 3)] ∧
    ((0 : Int) ≤ 2 ∧ (2 : Int) ≤ 3 ∧ (3 : Int) ≤ 3 ∧ (3 : Int) - 2 < 3 - 0) :=
  ⟨by decide,
   parse_terminates.1 [make_token TokenType.NUMBER 2, make_token TokenType.ADD 0,
     make_token TokenType.NUMBER 3] 0 3 (Step.split 1 TokenType.ADD) (by decide) (by decide)
     (2, 3) (by decide)⟩

/-! ## The order of the tokens in the tree -/

theorem withoutParens_append (a b : List Token) :
    withoutParens (a ++ b) = withoutParens a ++ withoutParens b := by
  simp [withoutParens]

theorem withoutParens_cons_paren (t : Token) (ts : List Token)
    (h : t.type = TokenType.LEFT_PAREN ∨ t.type = TokenType.RIGHT_PAREN) :
    withoutParens (t :: ts) = withoutParens ts := by
  unfold withoutParens
  rw [List.filter_cons_of_neg]
  rcases h with h | h <;> simp [h]

theorem withoutParens_cons_other (t : Token) (ts : List Token)
    (h1 : t.type ≠ TokenType.LEFT_PAREN) (h2 : t.type ≠ TokenType.RIGHT_PAREN) :
    withoutParens (t :: ts) = t :: withoutParens ts := by
  unfold withoutParens
  rw [List.filter_cons_of_pos]
  simp [h1, h2]

theorem Token.normal_type (t : Token) : t.normal.type = t.type := by
  unfold Token.normal
  split <;> rfl

theorem Token.normal_of_value (t : Token) (h : t.type ≠ TokenType.NUMBER → t.value = 0) :
    t.normal = t := by
  unfold Token.normal
  split
  · rfl
  · rename_i hn
    cases t with
    | mk type value =>
      simp only [make_token, Token.mk.injEq, true_and]
      exact (h hn).symm

/-- The in-order traversal of the tree that `parse` returns is the range
without its parentheses, with the operator tokens as `make_token` builds
them. -/
theorem parse_inorder :
    ∀ (n : Nat) (ts : List Token), ts.length ≤ n → ∀ e, parse ts = Except.ok e →
      inorder e = (withoutParens ts).map Token.normal := by
  intro n
  induction n with
  | zero =>
    intro ts hlen e h
    have : ts = [] := List.length_eq_zero.1 (by omega)
    subst this
    rw [parse_nil] at h
    cases h
  | succ n ih =>
    intro ts hlen e h
    have hbin : ∀ (l r : List Token) (t : Token) (type : Expr → Expr → Expr),
        l.length ≤ n → r.length ≤ n → t.type ≠ TokenType.LEFT_PAREN →
        t.type ≠ TokenType.RIGHT_PAREN → t.type ≠ TokenType.NUMBER →
        (∀ e1 e2, inorder (type e1 e2) = inorder e1 ++ make_token t.type 0 :: inorder e2) →
        makeBinary type (parse l) (parse r) = Except.ok e →
        inorder e = (withoutParens (l ++ t :: r)).map Token.normal := by
      intro l r t type hl hr h1 h2 h3 hty hm
      obtain ⟨e1, e2, he1, he2, rfl⟩ := makeBinary_ok _ _ _ _ hm
      rw [hty, ih l hl e1 he1, ih r hr e2 he2, withoutParens_append,
        withoutParens_cons_other t r h1 h2, List.map_append, List.map_cons]
      simp [Token.normal, h3]
    rw [parse_eq] at h
    unfold parseBody at h
    cases ts with
    | nil => cases h
    | cons first rest =>
      simp only at h
      simp only [List.length_cons] at hlen
      split at h
      · rename_i hnum
        have hrest : rest = [] := by simpa using hnum.1
        subst hrest
        simp only [Except.ok.injEq] at h
        subst h
        rw [withoutParens_cons_other first [] (by rw [hnum.2]; decide)
          (by rw [hnum.2]; decide)]
        cases first with
        | mk type value =>
          have := hnum.2
          simp only at this
          subst this
          simp [inorder, withoutParens, Token.normal, make_token]
      · split at h
        · rename_i hstrip
          obtain ⟨hf, hlast, -⟩ := hstrip
          have hne : rest ≠ [] := by
            intro h0
            subst h0
            simp [hf] at hlast
          have hrest : rest = rest.dropLast ++ [rest.getLast hne] :=
            (List.dropLast_append_getLast hne).symm
          have hl : (rest.getLast hne).type = TokenType.RIGHT_PAREN := by
            have h5 : (first :: rest).getLast? = some (rest.getLast hne) := by
              conv_lhs => rw [hrest]
              rw [← List.cons_append, List.getLast?_append]
              simp
            rw [h5] at hlast
            simpa using hlast
          have hih := ih rest.dropLast (by simp only [List.length_dropLast]; omega) e
            (by simpa using h)
          rw [hih, withoutParens_cons_paren first rest (Or.inl hf)]
          conv_rhs => rw [hrest]
          rw [withoutParens_append, withoutParens_cons_paren _ [] (Or.inr hl)]
          simp [withoutParens]
        · cases hs : findSplit isTerm (first :: rest) with
          | some v =>
            obtain ⟨l, t, r⟩ := v
            rw [hs] at h
            simp only at h
            obtain ⟨hd, ht⟩ := findSplit_some _ _ _ _ _ hs
            have hlen2 := congrArg List.length hd
            simp only [List.length_cons, List.length_append] at hlen2
            rw [hd]
            apply hbin l r t _ (by omega) (by omega) (isTerm_ne_paren _ ht).1
              (isTerm_ne_paren _ ht).2 _ _ h
            · intro hn; rw [hn] at ht; cases ht
            · intro e1 e2
              cases htt : t.type <;> simp [htt, isTerm] at ht <;> simp [inorder]
          | none =>
            rw [hs] at h
            simp only at h
            cases hs2 : findSplit isFactor (first :: rest) with
            | some v =>
              obtain ⟨l, t, r⟩ := v
              rw [hs2] at h
              simp only at h
              obtain ⟨hd, ht⟩ := findSplit_some _ _ _ _ _ hs2
              have hlen2 := congrArg List.length hd
              simp only [List.length_cons, List.length_append] at hlen2
              rw [hd]
              apply hbin l r t _ (by omega) (by omega) (isFactor_ne_paren _ ht).1
                (isFactor_ne_paren _ ht).2 _ _ h
              · intro hn; rw [hn] at ht; cases ht
              · intro e1 e2
                cases htt : t.type <;> simp [htt, isFactor] at ht <;> simp [inorder]
            | none =>
              rw [hs2] at h
              cases h

theorem alternates_append :
    ∀ (n : Nat) (a b : List TokenType) (op : TokenType), a.length ≤ n →
      alternates a = true → (isTerm op || isFactor op) = true → alternates b = true →
      alternates (a ++ op :: b) = true := by
  intro n
  induction n with
  | zero =>
    intro a b op hlen ha
    have : a = [] := List.length_eq_zero.1 (by omega)
    subst this
    simp [alternates] at ha
  | succ n ih =>
    intro a b op hlen ha hop hb
    cases a with
    | nil => simp [alternates] at ha
    | cons t a =>
      cases a with
      | nil =>
        simp only [alternates, decide_eq_true_eq] at ha
        simp [alternates, ha, hop, hb]
      | cons o a =>
        simp only [alternates, Bool.and_eq_true, decide_eq_true_eq] at ha
        simp only [List.length_cons] at hlen
        have := ih a b op (by omega) ha.2 hop hb
        simp only [List.cons_append, alternates, Bool.and_eq_true, decide_eq_true_eq]
        exact ⟨ha.1, this⟩

/-- The types of the in-order traversal of a tree are an alternation
`Number (op Number)*`. -/
theorem alternates_inorder (e : Expr) : alternates ((inorder e).map Token.type) = true := by
  induction e with
  | NUMBER v => simp [inorder, alternates, make_token]
  | ADD a b iha ihb =>
    simp only [inorder, List.map_append, List.map_cons]
    exact alternates_append _ _ _ _ (Nat.le_refl _) iha (by decide) ihb
  | SUB a b iha ihb =>
    simp only [inorder, List.map_append, List.map_cons]
    exact alternates_append _ _ _ _ (Nat.le_refl _) iha (by decide) ihb
  | MUL a b iha ihb =>
    simp only [inorder, List.map_append, List.map_cons]
    exact alternates_append _ _ _ _ (Nat.le_refl _) iha (by decide) ihb
  | DIV a b iha ihb =>
    simp only [inorder, List.map_append, List.map_cons]
    exact alternates_append _ _ _ _ (Nat.le_refl _) iha (by decide) ihb

/-- An alternation starts and ends with a number. -/
theorem alternates_ends :
    ∀ (n : Nat) (a : List TokenType), a.length ≤ n → alternates a = true →
      a.head? = some TokenType.NUMBER ∧ a.getLast? = some TokenType.NUMBER := by
  intro n
  induction n with
  | zero =>
    intro a hlen ha
    have : a = [] := List.length_eq_zero.1 (by omega)
    subst this
    simp [alternates] at ha
  | succ n ih =>
    intro a hlen ha
    cases a with
    | nil => simp [alternates] at ha
    | cons t a =>
      cases a with
      | nil =>
        simp only [alternates, decide_eq_true_eq] at ha
        simp [ha]
      | cons o a =>
        simp only [alternates, Bool.and_eq_true, decide_eq_true_eq] at ha
        simp only [List.length_cons] at hlen
        have h1 := ih a (by omega) ha.2
        have hne : a ≠ [] := by
          intro h0; rw [h0] at h1; simp at h1
        obtain ⟨x, a1, rfl⟩ := List.exists_cons_of_ne_nil hne
        refine ⟨by simp [ha.1.1], ?_⟩
        rw [List.getLast?_cons_cons, List.getLast?_cons_cons]
        exact h1.2

/-! ## The values of the tokens of the lexer -/

/-- Every token of the state that is not a number has the value 0. -/
theorem flush_values (c : Char) (st st1 : LexState)
    (h : ∀ t ∈ st.tokens, t.type ≠ TokenType.NUMBER → t.value = 0)
    (hf : flush c st = Except.ok st1) :
    ∀ t ∈ st1.tokens, t.type ≠ TokenType.NUMBER → t.value = 0 := by
  unfold flush at hf
  by_cases hn : st.number = []
  · simp only [if_pos hn, Except.ok.injEq] at hf
    rw [← hf]; exact h
  · simp only [if_neg hn] at hf
    by_cases hc : c = '('
    · simp only [if_pos hc] at hf
      cases hs : stod (if st.number = ['-'] then ['-', '1'] else st.number) with
      | error f => rw [hs] at hf; cases hf
      | ok v =>
        rw [hs] at hf
        simp only [Except.ok.injEq] at hf
        rw [← hf]
        intro t ht htn
        simp only [List.mem_append, List.mem_cons, List.mem_singleton, List.not_mem_nil,
          or_false] at ht
        rcases ht with ht | rfl | rfl
        · split at ht
          · rcases List.mem_append.1 ht with ht | ht
            · exact h t ht htn
            · simp only [List.mem_singleton] at ht
              rw [ht]; rfl
          · exact h t ht htn
        · exact absurd rfl htn
        · rfl
    · simp only [if_neg hc] at hf
      cases hs : stod (if st.number = ['-'] then ['-', '1'] else st.number) with
      | error f => rw [hs] at hf; cases hf
      | ok v =>
        rw [hs] at hf
        simp only [Except.ok.injEq] at hf
        rw [← hf]
        intro t ht htn
        simp only [List.mem_append, List.mem_singleton] at ht
        rcases ht with ht | rfl
        · exact h t ht htn
        · exact absurd rfl htn

theorem lexChar_values (c : Char) (st st1 : LexState)
    (h : ∀ t ∈ st.tokens, t.type ≠ TokenType.NUMBER → t.value = 0)
    (hf : lexChar c st = Except.ok st1) :
    ∀ t ∈ st1.tokens, t.type ≠ TokenType.NUMBER → t.value = 0 := by
  unfold lexChar at hf
  simp only [emit] at hf
  repeat' split at hf
  all_goals first
    | (cases hf; done)
    | (simp only [Except.ok.injEq] at hf
       subst hf
       exact h)
    | (simp only [Except.ok.injEq] at hf
       subst hf
       intro t ht htn
       simp only [List.mem_append, List.mem_cons, List.mem_singleton, List.not_mem_nil,
         or_false] at ht
       first
         | (rcases ht with ht | rfl
            · exact h t ht htn
            · rfl)
         | (rcases ht with ht | rfl | rfl
            · exact h t ht htn
            · rfl
            · rfl))

theorem lexStep_values (prev next : Option Char) (c : Char) (st st1 : LexState)
    (h : ∀ t ∈ st.tokens, t.type ≠ TokenType.NUMBER → t.value = 0)
    (hf : lexStep prev c next st = Except.ok st1) :
    ∀ t ∈ st1.tokens, t.type ≠ TokenType.NUMBER → t.value = 0 := by
  unfold lexStep at hf
  split at hf
  · simp only [Except.ok.injEq] at hf
    rw [← hf]; exact h
  · cases hfl : flush c st with
    | error f => rw [hfl] at hf; cases hf
    | ok st2 =>
      rw [hfl] at hf
      exact lexChar_values c st2 st1 (flush_values c st st2 h hfl) hf

theorem lexLoop_values :
    ∀ (input : List Char) (prev : Option Char) (st st1 : LexState),
      (∀ t ∈ st.tokens, t.type ≠ TokenType.NUMBER → t.value = 0) →
      lexLoop prev input st = Except.ok st1 →
      ∀ t ∈ st1.tokens, t.type ≠ TokenType.NUMBER → t.value = 0 := by
  intro input
  induction input with
  | nil =>
    intro prev st st1 h hf
    simp only [lexLoop, Except.ok.injEq] at hf
    rw [← hf]; exact h
  | cons c rest ih =>
    intro prev st st1 h hf
    rw [lexLoop] at hf
    cases hs : lexStep prev c rest.head? st with
    | error f => rw [hs] at hf; cases hf
    | ok st2 =>
      rw [hs] at hf
      exact ih (some c) st2 st1 (lexStep_values _ _ _ _ _ h hs) hf

/-- Every token of `lex` that is not a number has the value 0. -/
theorem lex_values (s : String) (ts : List Token) (h : lex s = Except.ok ts) :
    ∀ t ∈ ts, t.type ≠ TokenType.NUMBER → t.value = 0 := by
  unfold lex lexChars at h
  cases hl : lexLoop none s.data LexState.init with
  | error f => rw [hl] at h; cases h
  | ok st =>
    simp only [hl] at h
    have hst := lexLoop_values s.data none LexState.init st
      (by intro t ht; simp [LexState.init] at ht) hl
    unfold lexEnd at h
    split at h
    · simp only [Except.ok.injEq] at h
      rw [← h]; exact hst
    · cases hs : stod st.number with
      | error f => rw [hs] at h; cases h
      | ok v =>
        rw [hs] at h
        simp only [Except.ok.injEq] at h
        rw [← h]
        intro t ht htn
        simp only [List.mem_append, List.mem_singleton] at ht
        rcases ht with ht | rfl
        · exact hst t ht htn
        · exact absurd rfl htn


/-- When the tokens are those `make_token` builds, the in-order traversal is
the range without its parentheses. -/
theorem parse_inorder_exact (ts : List Token) (e : Expr) (h : parse ts = Except.ok e)
    (hv : ∀ t ∈ ts, t.type ≠ TokenType.NUMBER → t.value = 0) :
    inorder e = withoutParens ts := by
  rw [parse_inorder ts.length ts (Nat.le_refl _) e h]
  have hmap : ∀ l : List Token, (∀ t ∈ l, t.type ≠ TokenType.NUMBER → t.value = 0) →
      l.map Token.normal = l := by
    intro l
    induction l with
    | nil => intro _; rfl
    | cons a l ih =>
      intro hl
      rw [List.map_cons, Token.normal_of_value a (hl a (List.mem_cons_self _ _)),
        ih (fun t ht => hl t (List.mem_cons_of_mem _ ht))]
  apply hmap
  intro t ht
  exact hv t (List.mem_of_mem_filter ht)

/-- The types of a parsed range without its parentheses are an alternation. -/
theorem parse_alternates (ts : List Token) (e : Expr) (h : parse ts = Except.ok e) :
    alternates ((withoutParens ts).map Token.type) = true := by
  have h1 := parse_inorder ts.length ts (Nat.le_refl _) e h
  have h2 := alternates_inorder e
  rw [h1, List.map_map] at h2
  have : (Token.type ∘ Token.normal) = Token.type := by
    funext t
    exact Token.normal_type t
  rw [this] at h2
  exact h2

/-- C17: `parse` preserves the order of the tokens. For every range on which
`parse` returns a tree, the in-order traversal of the tree (a `NUMBER` node
gives its number token, a binary node gives the traversal of `ex1`, the token
of its operator, the traversal of `ex2`) is the range without its `LEFT_PAREN`
and `RIGHT_PAREN` tokens: token for token up to the unused `value` field of
the operator tokens, and exactly when that field is 0 as `make_token` and
`lex` leave it. The range without its parentheses is an alternation
`Number (op Number)*`, which starts and ends with a number. -/
theorem parse_preserves_order :
    (∀ (ts : List Token) (e : Expr), parse ts = Except.ok e →
      inorder e = (withoutParens ts).map Token.normal) ∧
    (∀ (ts : List Token) (e : Expr), parse ts = Except.ok e →
      (∀ t ∈ ts, t.type ≠ TokenType.NUMBER → t.value = 0) →
      inorder e = withoutParens ts) ∧
    (∀ (s : String) (ts : List Token) (e : Expr), lex s = Except.ok ts →
      parse ts = Except.ok e → inorder e = withoutParens ts) ∧
    (∀ (ts : List Token) (e : Expr), parse ts = Except.ok e →
      alternates ((withoutParens ts).map Token.type) = true ∧
      ((withoutParens ts).map Token.type).head? = some TokenType.NUMBER ∧
      ((withoutParens ts).map Token.type).getLast? = some TokenType.NUMBER) := by
  refine ⟨?_, ?_, ?_, ?_⟩
  · intro ts e h
    exact parse_inorder ts.length ts (Nat.le_refl _) e h
  · intro ts e h hv
    exact parse_inorder_exact ts e h hv
  · intro s ts e hl h
    exact parse_inorder_exact ts e h (lex_values s ts hl)
  · intro ts e h
    have ha := parse_alternates ts e h
    exact ⟨ha, alternates_ends _ _ (Nat.le_refl _) ha⟩

/-- The property C17 at the input `(1+2)*3`: the tree is
`MUL (ADD 1 2) 3` and its traversal is `1 + 2 * 3`, the tokens of the input
without the parentheses. -/
theorem parse_preserves_order_witness :
    lex "(1+2)*3" = Except.ok
      [make_token TokenType.LEFT_PAREN 0, make_token TokenType.NUMBER 1,
       make_token TokenType.ADD 0, make_token TokenType.NUMBER 2,
       make_token TokenType.RIGHT_PAREN 0, make_token TokenType.MUL 0,
       make_token TokenType.NUMBER 3] ∧
    parse [make_token TokenType.LEFT_PAREN 0, make_token TokenType.NUMBER 1,
       make_token TokenType.ADD 0, make_token TokenType.NUMBER 2,
       make_token TokenType.RIGHT_PAREN 0, make_token TokenType.MUL 0,
       make_token TokenType.NUMBER 3] =
      Except.ok (Expr.MUL (Expr.ADD (Expr.NUMBER 1) (Expr.NUMBER 2)) (Expr.NUMBER 3)) ∧
    inorder (Expr.MUL (Expr.ADD (Expr.NUMBER 1) (Expr.NUMBER 2)) (Expr.NUMBER 3)) =
      withoutParens [make_token TokenType.LEFT_PAREN 0, make_token TokenType.NUMBER 1,
       make_token TokenType.ADD 0, make_token TokenType.NUMBER 2,
       make_token TokenType.RIGHT_PAREN 0, make_token TokenType.MUL 0,
       make_token TokenType.NUMBER 3] ∧
    withoutParens [make_token TokenType.LEFT_PAREN 0, make_token TokenType.NUMBER 1,
       make_token TokenType.ADD 0, make_token TokenType.NUMBER 2,
       make_token TokenType.RIGHT_PAREN 0, make_token TokenType.MUL 0,
       make_token TokenType.NUMBER 3] =
      [make_token TokenType.NUMBER 1, make_token TokenType.ADD 0,
       make_token TokenType.NUMBER 2, make_token TokenType.MUL 0,
       make_token TokenType.NUMBER 3] :=
  ⟨by decide, by decide,
   parse_preserves_order.2.2.1 "(1+2)*3" _ _ (by decide) (by decide), by decide⟩


/-! ## The round trip through fully parenthesized tokens -/

/-- What a wrapped operand offers to the range around it, when `parse` gives
the operand back from its tokens. -/
theorem wrapTokens_facts (e : Expr) (h : parse e.print = Except.ok e) :
    wrapTokens e e.print ≠ [] ∧ Balanced (wrapTokens e e.print) ∧
    NoSplit isTerm (wrapTokens e e.print) ∧ NoSplit isFactor (wrapTokens e e.print) ∧
    parse (wrapTokens e e.print) = Except.ok e := by
  have hb : Balanced e.print := parse_balanced e.print.length e.print (Nat.le_refl _) e h
  have key : Balanced (make_token TokenType.LEFT_PAREN 0 ::
        (e.print ++ [make_token TokenType.RIGHT_PAREN 0])) ∧
      NoSplit isTerm (make_token TokenType.LEFT_PAREN 0 ::
        (e.print ++ [make_token TokenType.RIGHT_PAREN 0])) ∧
      NoSplit isFactor (make_token TokenType.LEFT_PAREN 0 ::
        (e.print ++ [make_token TokenType.RIGHT_PAREN 0])) ∧
      parse (make_token TokenType.LEFT_PAREN 0 ::
        (e.print ++ [make_token TokenType.RIGHT_PAREN 0])) = Except.ok e :=
    ⟨Balanced_wrap _ _ _ rfl rfl hb,
     NoSplit_wrap isTerm _ _ _ rfl rfl rfl rfl hb,
     NoSplit_wrap isFactor _ _ _ rfl rfl rfl rfl hb,
     parse_wrap _ _ _ e rfl rfl h⟩
  cases e with
  | NUMBER v =>
    refine ⟨by simp [wrapTokens, Expr.print], ?_, ?_, ?_, ?_⟩
    · exact Balanced_single _ (by simp [make_token]) (by simp [make_token])
    · apply NoSplit_of_forall
      intro t ht
      simp only [wrapTokens, Expr.print, List.mem_singleton] at ht
      rw [ht]; rfl
    · apply NoSplit_of_forall
      intro t ht
      simp only [wrapTokens, Expr.print, List.mem_singleton] at ht
      rw [ht]; rfl
    · exact h
  | ADD a b => exact ⟨by simp [wrapTokens], key⟩
  | SUB a b => exact ⟨by simp [wrapTokens], key⟩
  | MUL a b => exact ⟨by simp [wrapTokens], key⟩
  | DIV a b => exact ⟨by simp [wrapTokens], key⟩

/-- The tokens of a term node parse to the node. -/
theorem parse_print_term (a b : Expr) (op : TokenType) (hop : isTerm op = true)
    (ha : parse a.print = Except.ok a) (hb : parse b.print = Except.ok b) :
    parse (wrapTokens a a.print ++ make_token op 0 :: wrapTokens b b.print) =
      Except.ok (binaryOp op a b) := by
  obtain ⟨hne, hbal, _, _, hpa⟩ := wrapTokens_facts a ha
  obtain ⟨_, hbalb, htb, _, hpb⟩ := wrapTokens_facts b hb
  rw [parse_split_term _ _ (make_token op 0) hne hbal.2 hop hbalb.2 htb, hpa, hpb]
  rfl

/-- The tokens of a factor node parse to the node. -/
theorem parse_print_factor (a b : Expr) (op : TokenType) (hop : isFactor op = true)
    (ha : parse a.print = Except.ok a) (hb : parse b.print = Except.ok b) :
    parse (wrapTokens a a.print ++ make_token op 0 :: wrapTokens b b.print) =
      Except.ok (binaryOp op a b) := by
  obtain ⟨hne, hbal, hta, _, hpa⟩ := wrapTokens_facts a ha
  obtain ⟨_, hbalb, htb, hfb, hpb⟩ := wrapTokens_facts b hb
  have hnt : isTerm op = false := by
    cases op <;> first | rfl | (exact absurd hop (by decide))
  have h1 : op ≠ TokenType.LEFT_PAREN := by
    intro h0; rw [h0] at hop; exact absurd hop (by decide)
  have h2 : op ≠ TokenType.RIGHT_PAREN := by
    intro h0; rw [h0] at hop; exact absurd hop (by decide)
  rw [parse_split_factor _ _ (make_token op 0) hne hbal.2 hop hbalb.2 hfb
    (NoSplit_join isTerm _ _ (make_token op 0) hnt h1 h2 hta htb hbalb.2), hpa, hpb]
  rfl

/-- C18: the round trip through fully parenthesized tokens. With
`print (NUMBER v) = [Number v]` and
`print (op l r) = wrap l ++ [op] ++ wrap r`, where `wrap e` is `print e` for a
number and `( print e )` otherwise, `parse (print e)` returns exactly `e`, for
every tree `e`. -/
theorem parse_print (e : Expr) : parse e.print = Except.ok e := by
  induction e with
  | NUMBER v => exact parse_number (make_token TokenType.NUMBER v) rfl
  | ADD a b iha ihb => exact parse_print_term a b TokenType.ADD rfl iha ihb
  | SUB a b iha ihb => exact parse_print_term a b TokenType.SUB rfl iha ihb
  | MUL a b iha ihb => exact parse_print_factor a b TokenType.MUL rfl iha ihb
  | DIV a b iha ihb => exact parse_print_factor a b TokenType.DIV rfl iha ihb

/-- The property C18 at the tree `SUB 1 (MUL (ADD 2 3) 4)`: its tokens are
`1 - ((2 + 3) * 4)`. -/
theorem parse_print_witness :
    (Expr.SUB (Expr.NUMBER 1)
      (Expr.MUL (Expr.ADD (Expr.NUMBER 2) (Expr.NUMBER 3)) (Expr.NUMBER 4))).print =
      [make_token TokenType.NUMBER 1, make_token TokenType.SUB 0,
       make_token TokenType.LEFT_PAREN 0, make_token TokenType.LEFT_PAREN 0,
       make_token TokenType.NUMBER 2, make_token TokenType.ADD 0,
       make_token TokenType.NUMBER 3, make_token TokenType.RIGHT_PAREN 0,
       make_token TokenType.MUL 0, make_token TokenType.NUMBER 4,
       make_token TokenType.RIGHT_PAREN 0] ∧
    parse (Expr.SUB (Expr.NUMBER 1)
      (Expr.MUL (Expr.ADD (Expr.NUMBER 2) (Expr.NUMBER 3)) (Expr.NUMBER 4))).print =
      Except.ok (Expr.SUB (Expr.NUMBER 1)
        (Expr.MUL (Expr.ADD (Expr.NUMBER 2) (Expr.NUMBER 3)) (Expr.NUMBER 4))) :=
  ⟨by decide, parse_print _⟩


/-! ## The place of a sign in the numeric buffer -/

/-- The part of the loop body after the flush leaves the buffer as it is. -/
theorem lexChar_number (c : Char) (st st1 : LexState)
    (h : lexChar c st = Except.ok st1) : st1.number = st.number := by
  unfold lexChar at h
  simp only [emit] at h
  repeat' split at h
  all_goals first
    | (cases h; done)
    | (simp only [Except.ok.injEq] at h
       subst h
       rfl)

/-- After an iteration at the character `c` the buffer is empty, or it ends
with `c`, which is a digit, a `.`, or a `-` before a digit or a `(`. -/
theorem lexStep_number (prev next : Option Char) (c : Char) (st st1 : LexState)
    (h : lexStep prev c next st = Except.ok st1) :
    st1.number = [] ∨
      (st1.number.getLast? = some c ∧
        (c.isDigit = true ∨ c = '.' ∨
          (c = '-' ∧ ∃ n, next = some n ∧ (n.isDigit = true ∨ n = '(')))) := by
  unfold lexStep at h
  split at h
  · rename_i hc
    simp only [Except.ok.injEq] at h
    subst h
    right
    refine ⟨by simp, ?_⟩
    rcases hc with hc | hc | hc
    · exact Or.inl hc
    · exact Or.inr (Or.inl hc)
    · right; right
      unfold isSign at hc
      simp only [Bool.and_eq_true, decide_eq_true_eq] at hc
      refine ⟨hc.1.1.1, ?_⟩
      have h2 := hc.1.1.2
      cases next with
      | none => simp at h2
      | some n =>
        refine ⟨n, rfl, ?_⟩
        simpa using h2
  · cases hfl : flush c st with
    | error f => rw [hfl] at h; cases h
    | ok st2 =>
      rw [hfl] at h
      left
      rw [lexChar_number c st2 st1 h]
      exact flush_number_nil c st st2 hfl

/-- After the characters `pre` of the input the buffer is empty, or it ends
with the last of them, which is a digit, a `.`, or a `-` before a digit or a
`(`. -/
theorem lexPrefix_number :
    ∀ (pre : List Char) (prev : Option Char) (post : List Char) (st st1 : LexState),
      pre ≠ [] → lexPrefix prev pre post st = Except.ok st1 →
      st1.number = [] ∨
        ∃ p, pre.getLast? = some p ∧ st1.number.getLast? = some p ∧
          (p.isDigit = true ∨ p = '.' ∨
            (p = '-' ∧ ∃ n, post.head? = some n ∧ (n.isDigit = true ∨ n = '('))) := by
  intro pre
  induction pre with
  | nil => intro prev post st st1 hne; exact absurd rfl hne
  | cons c pre ih =>
    intro prev post st st1 _ h
    rw [lexPrefix] at h
    cases hs : lexStep prev c (pre ++ post).head? st with
    | error f => rw [hs] at h; cases h
    | ok st2 =>
      rw [hs] at h
      simp only at h
      cases pre with
      | nil =>
        simp only [lexPrefix, Except.ok.injEq] at h
        subst h
        rcases lexStep_number _ _ _ _ _ hs with h0 | ⟨h1, h2⟩
        · exact Or.inl h0
        · exact Or.inr ⟨c, rfl, h1, by simpa using h2⟩
      | cons c2 pre =>
        rcases ih (some c) post st2 st1 (by simp) h with h0 | ⟨p, h1, h2, h3⟩
        · exact Or.inl h0
        · exact Or.inr ⟨p, by rw [List.getLast?_cons_cons]; exact h1, h2, h3⟩

/-- The loop of `lex` over `pre ++ post` goes through `pre`, then through
`post`. -/
theorem lexLoop_lexPrefix :
    ∀ (pre : List Char) (prev : Option Char) (post : List Char) (st : LexState),
      lexLoop prev (pre ++ post) st =
        match lexPrefix prev pre post st with
        | Except.error f => Except.error f
        | Except.ok st1 =>
          lexLoop (match pre.getLast? with
            | some p => some p
            | none => prev) post st1 := by
  intro pre
  induction pre with
  | nil => intro prev post st; rfl
  | cons c pre ih =>
    intro prev post st
    rw [List.cons_append, lexLoop, lexPrefix]
    cases hs : lexStep prev c (pre ++ post).head? st with
    | error f => rfl
    | ok st2 =>
      simp only
      rw [ih (some c) post st2]
      cases pre with
      | nil => rfl
      | cons c2 pre =>
        rw [List.getLast?_cons_cons]
        cases hl : (c2 :: pre).getLast? with
        | none => simp at hl
        | some p => rfl

/-- When a `-` is taken as a sign, the buffer is empty or ends with a `.`. -/
theorem sign_buffer (pre post : List Char) (st : LexState)
    (h : lexPrefix none pre ('-' :: post) LexState.init = Except.ok st)
    (hs : isSign pre.getLast? '-' post.head? st.tokens = true) :
    st.number = [] ∨ st.number.getLast? = some '.' := by
  by_cases hne : pre = []
  · subst hne
    simp only [lexPrefix, Except.ok.injEq] at h
    subst h
    exact Or.inl rfl
  · rcases lexPrefix_number pre none ('-' :: post) LexState.init st hne h with
      h0 | ⟨p, h1, h2, h3⟩
    · exact Or.inl h0
    · right
      rw [h2]
      unfold isSign at hs
      rw [h1] at hs
      simp only [Bool.and_eq_true, decide_eq_true_eq, Bool.not_eq_true'] at hs
      have hp := hs.1.2
      rcases h3 with h3 | h3 | ⟨_, n, hn, h4⟩
      · rw [h3] at hp; cases hp
      · rw [h3]
      · simp only [List.head?_cons, Option.some.injEq] at hn
        subst hn
        rcases h4 with h4 | h4
        · exact absurd h4 (by decide)
        · exact absurd h4 (by decide)


/-- C16: the place of a sign in the numeric buffer. The claim is that the
buffer is empty whenever a `-` is appended to it. On the input `1.-2` the
buffer holds `1.` when the `-` is reached: the character before it is `.`, not
a digit, no token has been pushed and the next character is a digit, so the
`-` is appended and the buffer becomes `1.-`, then `1.-2`, which `stod` reads
as 1; the run returns 1. What holds on every input: when a `-` is appended to
the buffer, the buffer is empty or ends with a `.`. The loop of `lex` over
`pre ++ post` is the passage through `pre` followed by the loop over `post`,
so that the state at a character is the one `lexPrefix` gives. -/
theorem lex_sign_position :
    lexPrefix none ['1', '.'] ['-', '2'] LexState.init
      = Except.ok { tokens := [], number := ['1', '.'], add_extra_paren := false,
                    extra_paren_count := 0 }
    ∧ isSign (some '.') '-' (some '2') [] = true
    ∧ lexStep (some '.') '-' (some '2')
        { tokens := [], number := ['1', '.'], add_extra_paren := false,
          extra_paren_count := 0 }
      = Except.ok { tokens := [], number := ['1', '.', '-'], add_extra_paren := false,
                    extra_paren_count := 0 }
    ∧ lexPrefix none ['1', '.', '-', '2'] [] LexState.init
      = Except.ok { tokens := [], number := ['1', '.', '-', '2'], add_extra_paren := false,
                    extra_paren_count := 0 }
    ∧ lex "1.-2" = Except.ok [make_token TokenType.NUMBER 1]
    ∧ run "1.-2" = Except.ok 1
    ∧ (∀ (pre post : List Char) (st : LexState),
        lexPrefix none pre ('-' :: post) LexState.init = Except.ok st →
        isSign pre.getLast? '-' post.head? st.tokens = true →
        st.number = [] ∨ st.number.getLast? = some '.')
    ∧ (∀ (pre post : List Char),
        lexLoop none (pre ++ post) LexState.init =
          match lexPrefix none pre post LexState.init with
          | Except.error f => Except.error f
          | Except.ok st1 =>
            lexLoop (match pre.getLast? with
              | some p => some p
              | none => none) post st1) := by
  refine ⟨by decide, by decide, by decide, by decide, by decide,
    run_of _ (Expr.NUMBER 1) _ (by decide) (by norm_num [evaluate]), ?_, ?_⟩
  · intro pre post st h hs
    exact sign_buffer pre post st h hs
  · intro pre post
    exact lexLoop_lexPrefix pre none post LexState.init

/-- The general part of C16 at the `-` of the input `.-2`: the buffer
holds `.` when the `-` is appended. -/
theorem lex_sign_position_witness :
    lexPrefix none ['.'] ['-', '2'] LexState.init
      = Except.ok { tokens := [], number := ['.'], add_extra_paren := false,
                    extra_paren_count := 0 }
    ∧ isSign (some '.') '-' (some '2') [] = true
    ∧ ((['.'] : List Char) = [] ∨ (['.'] : List Char).getLast? = some '.') :=
  ⟨by decide, by decide,
   lex_sign_position.2.2.2.2.2.2.1 ['.'] ['2']
     { tokens := [], number := ['.'], add_extra_paren := false, extra_paren_count := 0 }
     (by decide) (by decide)⟩


/-! ## Printing the tokens and reading them again -/

/-- The search for the decimal exponent of a number that is at least 1. -/
theorem expUp_eq : ∀ (k fuel n d : Nat), 0 < d → d * 10 ^ k ≤ n → n < d * 10 ^ (k + 1) →
    k ≤ fuel → expUp fuel n d = k := by
  intro k
  induction k with
  | zero =>
    intro fuel n d hd h1 h2 _
    cases fuel with
    | zero => rfl
    | succ fuel =>
      rw [expUp, if_neg]
      simp only [Nat.zero_add, Nat.pow_one] at h2
      omega
  | succ k ih =>
    intro fuel n d hd h1 h2 hf
    cases fuel with
    | zero => omega
    | succ fuel =>
      have h3 : d * 10 ≤ n := by
        have : d * 10 ≤ d * 10 ^ (k + 1) :=
          Nat.mul_le_mul_left d (by
            calc 10 = 10 ^ 1 := by norm_num
              _ ≤ 10 ^ (k + 1) := Nat.pow_le_pow_right (by norm_num) (by omega))
        omega
      rw [expUp, if_pos h3, ih fuel n (d * 10) (by omega) (by
        rw [Nat.mul_assoc, ← Nat.pow_succ']; exact h1) (by
        rw [Nat.mul_assoc, ← Nat.pow_succ']; exact h2) (by omega)]

/-- An integer is not rounded. -/
theorem roundHalfEven_one (n : Nat) : roundHalfEven n 1 = n := by
  simp [roundHalfEven, Nat.mod_one]

/-- The characters of the ten digits. -/
theorem digitChar_facts : ∀ x, x < 10 →
    (Nat.digitChar x).isDigit = true ∧ (Nat.digitChar x).toNat - 48 = x
      ∧ Nat.digitChar x ≠ '.' ∧ Nat.digitChar x ≠ '-' ∧ Nat.digitChar x ≠ '+' := by
  decide


/-- The number written by the characters of a list of digits. -/
theorem digitsValue_map (xs : List Nat) (h : ∀ x ∈ xs, x < 10) :
    (∀ c ∈ xs.map Nat.digitChar, c.isDigit = true)
    ∧ digitsValue (xs.map Nat.digitChar) = xs.foldl (fun a x => 10 * a + x) 0 := by
  constructor
  · intro c hc
    obtain ⟨x, hx, rfl⟩ := List.mem_map.1 hc
    exact (digitChar_facts x (h x hx)).1
  · unfold digitsValue
    generalize 0 = acc
    induction xs generalizing acc with
    | nil => rfl
    | cons x xs ih =>
      simp only [List.map_cons, List.foldl_cons]
      rw [(digitChar_facts x (h x (by simp))).2.1]
      exact ih (fun y hy => h y (by simp [hy])) _

/-- The text of a natural number below `10 ^ 6` that is not 0: its digits. -/
theorem printMagnitude_nat (n : Nat) (h0 : 0 < n) (h6 : n < 1000000) :
    ∃ xs : List Nat, xs ≠ [] ∧ (∀ x ∈ xs, x < 10)
      ∧ xs.foldl (fun a x => 10 * a + x) 0 = n
      ∧ printMagnitude n 1 = xs.map Nat.digitChar := by
  have hz : Nat.digitChar 0 = '0' := rfl
  by_cases c1 : n < 10
  · refine ⟨[n % 10], by simp, by simp; omega, by simp; omega, ?_⟩
    have hk : decimalExponent n 1 = 0 := by
      unfold decimalExponent
      rw [if_pos (by omega), expUp_eq 0 n n 1 (by omega) (by omega) (by omega) (by omega)]
      rfl
    have e1 : n * 100000 / 100000 % 10 = n % 10 := by omega
    have e2 : n * 100000 / 10000 % 10 = 0 := by omega
    have e3 : n * 100000 / 1000 % 10 = 0 := by omega
    have e4 : n * 100000 / 100 % 10 = 0 := by omega
    have e5 : n * 100000 / 10 % 10 = 0 := by omega
    have e6 : n * 100000 % 10 = 0 := by omega
    have hm : n * 100000 ≠ 1000000 := by omega
    simp [printMagnitude, hk, roundHalfEven_one, hm, sixDigits, e1, e2, e3, e4, e5, e6, stripZeros, hz]
  by_cases c2 : n < 100
  · refine ⟨[n / 10 % 10, n % 10], by simp, by simp; omega, by simp; omega, ?_⟩
    have hk : decimalExponent n 1 = 1 := by
      unfold decimalExponent
      rw [if_pos (by omega), expUp_eq 1 n n 1 (by omega) (by omega) (by omega) (by omega)]
      rfl
    have e1 : n * 10000 / 100000 % 10 = n / 10 % 10 := by omega
    have e2 : n * 10000 / 10000 % 10 = n % 10 := by omega
    have e3 : n * 10000 / 1000 % 10 = 0 := by omega
    have e4 : n * 10000 / 100 % 10 = 0 := by omega
    have e5 : n * 10000 / 10 % 10 = 0 := by omega
    have e6 : n * 10000 % 10 = 0 := by omega
    have hm : n * 10000 ≠ 1000000 := by omega
    simp [printMagnitude, hk, roundHalfEven_one, hm, sixDigits, e1, e2, e3, e4, e5, e6, stripZeros, hz]
  by_cases c3 : n < 1000
  · refine ⟨[n / 100 % 10, n / 10 % 10, n % 10], by simp, by simp; omega, by simp; omega, ?_⟩
    have hk : decimalExponent n 1 = 2 := by
      unfold decimalExponent
      rw [if_pos (by omega), expUp_eq 2 n n 1 (by omega) (by omega) (by omega) (by omega)]
      rfl
    have e1 : n * 1000 / 100000 % 10 = n / 100 % 10 := by omega
    have e2 : n * 1000 / 10000 % 10 = n / 10 % 10 := by omega
    have e3 : n * 1000 / 1000 % 10 = n % 10 := by omega
    have e4 : n * 1000 / 100 % 10 = 0 := by omega
    have e5 : n * 1000 / 10 % 10 = 0 := by omega
    have e6 : n * 1000 % 10 = 0 := by omega
    have hm : n * 1000 ≠ 1000000 := by omega
    simp [printMagnitude, hk, roundHalfEven_one, hm, sixDigits, e1, e2, e3, e4, e5, e6, stripZeros, hz]
  by_cases c4 : n < 10000
  · refine ⟨[n / 1000 % 10, n / 100 % 10, n / 10 % 10, n % 10], by simp, by simp; omega, by simp; omega, ?_⟩
    have hk : decimalExponent n 1 = 3 := by
      unfold decimalExponent
      rw [if_pos (by omega), expUp_eq 3 n n 1 (by omega) (by omega) (by omega) (by omega)]
      rfl
    have e1 : n * 100 / 100000 % 10 = n / 1000 % 10 := by omega
    have e2 : n * 100 / 10000 % 10 = n / 100 % 10 := by omega
    have e3 : n * 100 / 1000 % 10 = n / 10 % 10 := by omega
    have e4 : n * 100 / 100 % 10 = n % 10 := by omega
    have e5 : n * 100 / 10 % 10 = 0 := by omega
    have e6 : n * 100 % 10 = 0 := by omega
    have hm : n * 100 ≠ 1000000 := by omega
    simp [printMagnitude, hk, roundHalfEven_one, hm, sixDigits, e1, e2, e3, e4, e5, e6, stripZeros, hz]
  by_cases c5 : n < 100000
  · refine ⟨[n / 10000 % 10, n / 1000 % 10, n / 100 % 10, n / 10 % 10, n % 10], by simp, by simp; omega, by simp; omega, ?_⟩
    have hk : decimalExponent n 1 = 4 := by
      unfold decimalExponent
      rw [if_pos (by omega), expUp_eq 4 n n 1 (by omega) (by omega) (by omega) (by omega)]
      rfl
    have e1 : n * 10 / 100000 % 10 = n / 10000 % 10 := by omega
    have e2 : n * 10 / 10000 % 10 = n / 1000 % 10 := by omega
    have e3 : n * 10 / 1000 % 10 = n / 100 % 10 := by omega
    have e4 : n * 10 / 100 % 10 = n / 10 % 10 := by omega
    have e5 : n * 10 / 10 % 10 = n % 10 := by omega
    have e6 : n * 10 % 10 = 0 := by omega
    have hm : n * 10 ≠ 1000000 := by omega
    simp [printMagnitude, hk, roundHalfEven_one, hm, sixDigits, e1, e2, e3, e4, e5, e6, stripZeros, hz]
  · refine ⟨[n / 100000 % 10, n / 10000 % 10, n / 1000 % 10, n / 100 % 10, n / 10 % 10, n % 10], by simp, by simp; omega, by simp; omega, ?_⟩
    have hk : decimalExponent n 1 = 5 := by
      unfold decimalExponent
      rw [if_pos (by omega), expUp_eq 5 n n 1 (by omega) (by omega) (by omega) (by omega)]
      rfl
    have hm : n ≠ 1000000 := by omega
    simp [printMagnitude, hk, roundHalfEven_one, hm, sixDigits, stripZeros, hz]

/-- The library function `std::stod` on a `-` and a run of digits. -/
theorem stod_minus_digits (ds : List Char)
    (h : ∀ c ∈ ds, c.isDigit = true) : stod ('-' :: ds) = toDouble true ds [] := by
  have h3 : List.takeWhile Char.isDigit ds = ds := List.takeWhile_eq_self_iff.2 h
  have h4 : List.dropWhile Char.isDigit ds = [] := List.dropWhile_eq_nil_iff.2 h
  unfold stod
  simp only [List.head?_cons, List.tail_cons, true_or, if_true, decide_True, h3, h4]

/-- The conversion of a run of digits with a value below `overflowBound`. -/
theorem toDouble_digits (ds : List Char) (hne : ds ≠ [])
    (hN : digitsValue ds < overflowBound) :
    toDouble false ds [] = Except.ok (digitsValue ds : ℚ)
    ∧ toDouble true ds [] = Except.ok (-(digitsValue ds : ℚ)) := by
  have hne2 : ¬ (ds = [] ∧ ([] : List Char) = []) := fun h0 => hne h0.1
  have hpos : 0 < normalBound := by decide
  have htiny : ¬ (0 < digitsValue ds ∧ digitsValue ds * normalBound < 1) := by
    rintro ⟨h0, h1⟩
    have : 1 ≤ digitsValue ds * normalBound := Nat.mul_pos h0 hpos
    omega
  have hov : ¬ overflowBound ≤ digitsValue ds := by omega
  unfold toDouble
  rw [if_neg hne2, if_neg hne2]
  simp only [List.append_nil, List.length_nil, Nat.pow_zero, Nat.mul_one]
  constructor
  · rw [if_neg hov, if_neg htiny]
    simp [Rat.mkRat_one]
  · have : mkRat (-(digitsValue ds : Int)) 1 = -(digitsValue ds : ℚ) := by
      rw [Rat.mkRat_one]
      push_cast
      rfl
    rw [if_neg hov, if_neg htiny]
    simp only [if_true, this]

/-- A run of digits with a value below `overflowBound`, and the run after a
`-`, are plain decimal texts of their values. -/
theorem isDecimalText_digits (ds : List Char) (hne : ds ≠ [])
    (hd : ∀ c ∈ ds, c.isDigit = true) (hN : digitsValue ds < overflowBound) :
    isDecimalText ds (digitsValue ds : ℚ) = true
    ∧ isDecimalText ('-' :: ds) (-(digitsValue ds : ℚ)) = true := by
  obtain ⟨d, ds1, rfl⟩ := List.exists_cons_of_ne_nil hne
  have hd0 : d.isDigit = true := hd d (by simp)
  have h1 : d ≠ '-' := by rintro rfl; exact absurd hd0 (by decide)
  have hall : (d :: ds1).all (fun c => c.isDigit || decide (c = '.')) = true := by
    rw [List.all_eq_true]
    intro c hc
    simp [hd c hc]
  have hcount : (d :: ds1).count '.' ≤ 1 := by
    have : (d :: ds1).count '.' = 0 := by
      rw [List.count_eq_zero]
      intro hmem
      exact absurd (hd '.' hmem) (by decide)
    omega
  have hs1 := stod_digits_eq (d :: ds1) hne hd
  have hs2 := stod_minus_digits (d :: ds1) hd
  obtain ⟨ht1, ht2⟩ := toDouble_digits (d :: ds1) hne hN
  constructor
  · unfold isDecimalText
    rw [hs1, ht1]
    simp only [List.head?_cons, Option.some.injEq, h1, if_false, hd0, hall, hcount,
      decide_True, Bool.and_self]
  · unfold isDecimalText
    rw [hs2, ht2]
    simp only [List.head?_cons, List.tail_cons, if_true, hd0, hall, hcount,
      decide_True, Bool.and_self]

/-- The stream writes every integer of magnitude below `10 ^ 6` in full. -/
theorem printsInFull_int (z : Int) (hz : z.natAbs < 1000000) :
    printsInFull (z : ℚ) = true := by
  by_cases h0 : z = 0
  · subst h0
    decide
  · have hpos : 0 < z.natAbs := Int.natAbs_pos.2 h0
    obtain ⟨xs, hxne, hx, hval, hprint⟩ := printMagnitude_nat z.natAbs hpos hz
    obtain ⟨hdig, hdv⟩ := digitsValue_map xs hx
    rw [hval] at hdv
    have hne : xs.map Nat.digitChar ≠ [] := by simpa using hxne
    have hN : digitsValue (xs.map Nat.digitChar) < overflowBound := by
      have : (1000000 : Nat) < overflowBound := by decide
      omega
    obtain ⟨t1, t2⟩ := isDecimalText_digits (xs.map Nat.digitChar) hne hdig hN
    rw [hdv] at t1 t2
    unfold printsInFull printDouble
    have hnum : (z : ℚ).num = z := Rat.num_intCast z
    have hden : (z : ℚ).den = 1 := Rat.den_intCast z
    rw [hnum, hden, if_neg h0, hprint]
    by_cases hneg : z < 0
    · rw [if_pos hneg]
      have hzq : (z : ℚ) = -((z.natAbs : Nat) : ℚ) := by
        have : z = -(z.natAbs : Int) := by omega
        have h2 : (z : ℚ) = ((-(z.natAbs : Int) : Int) : ℚ) := congrArg _ this
        rw [h2, Int.cast_neg, Int.cast_natCast]
      rw [hzq]
      exact t2
    · rw [if_neg hneg]
      have hzq : (z : ℚ) = ((z.natAbs : Nat) : ℚ) := by
        have : z = (z.natAbs : Int) := by omega
        have h2 : (z : ℚ) = (((z.natAbs : Int) : Int) : ℚ) := congrArg _ this
        rw [h2, Int.cast_natCast]
      rw [hzq]
      exact t1

/-- The texts that the stream writes for some values. -/
theorem printDouble_examples :
    printDouble 12 = ['1', '2'] ∧ printDouble (-3) = ['-', '3']
    ∧ printDouble (mkRat 5 2) = ['2', '.', '5']
    ∧ printDouble (mkRat (-1) 8) = ['-', '0', '.', '1', '2', '5']
    ∧ printDouble 0 = ['0']
    ∧ printDouble 999999 = ['9', '9', '9', '9', '9', '9']
    ∧ String.mk (printDouble 1000000) = "1e+06"
    ∧ String.mk (printDouble 1234567) = "1.23457e+06"
    ∧ String.mk (printDouble (mkRat 1 10000)) = "0.0001"
    ∧ String.mk (printDouble (mkRat 1 100000)) = "1e-05"
    ∧ String.mk (printDouble (mkRat 19999995 10)) = "2e+06"
    ∧ String.mk (printDouble (mkRat 1234565 10)) = "123456"
    ∧ String.mk (printDouble (mkRat 1234575 10)) = "123458"
    ∧ printsInFull (mkRat (-1) 8) = true
    ∧ printsInFull 1000000 = false := by
  decide

theorem lexStep_space_between (prev next : Option Char) (T : List Token) :
    lexStep prev ' ' next (LexState.between T) = Except.ok (LexState.between T) := by
  simp [lexStep, isSign, flush, lexChar, LexState.between]

theorem lexStep_minus_between (prev : Option Char) (T : List Token) :
    lexStep prev '-' (some ' ') (LexState.between T)
      = Except.ok (LexState.between (T ++ [make_token TokenType.SUB 0])) := by
  simp [lexStep, isSign, flush, lexChar, LexState.between, emit]

theorem lexStep_space_pending (prev next : Option Char) (T : List Token)
    (number : List Char) (v : ℚ) (hne : number ≠ []) (hm : number ≠ ['-'])
    (hv : stod number = Except.ok v) :
    lexStep prev ' ' next
        { tokens := T, number := number, add_extra_paren := false, extra_paren_count := 0 }
      = Except.ok (LexState.between (T ++ [make_token TokenType.NUMBER v])) := by
  simp [lexStep, isSign, flush, lexChar, LexState.between, hne, hm, hv]

theorem lexStep_close_pending (prev next : Option Char) (T : List Token)
    (number : List Char) (v : ℚ) (hne : number ≠ []) (hm : number ≠ ['-'])
    (hv : stod number = Except.ok v) :
    lexStep prev ')' next
        { tokens := T, number := number, add_extra_paren := false, extra_paren_count := 0 }
      = Except.ok (LexState.between
          (T ++ [make_token TokenType.NUMBER v] ++ [make_token TokenType.RIGHT_PAREN 0])) := by
  rw [lexStep_prev prev (some '0') ')' next _ (by decide)]
  exact lexStep_after_number '0' next T number v ')' TokenType.RIGHT_PAREN (by decide) hne hm hv
    (Or.inr (Or.inr (Or.inr (Or.inl ⟨rfl, rfl⟩))))

theorem lexStep_sign_between (prev : Option Char) (d : Char) (T : List Token)
    (hd : d.isDigit = true) (hp : ∀ p, prev = some p → p.isDigit = false)
    (hT : ∀ t, T.getLast? = some t → t.type ≠ TokenType.NUMBER) :
    lexStep prev '-' (some d) (LexState.between T)
      = Except.ok { tokens := T, number := ['-'], add_extra_paren := false,
                    extra_paren_count := 0 } := by
  have hs : isSign prev '-' (some d) T = true := by
    rw [isSign_minus_iff]
    refine ⟨⟨d, rfl, Or.inl hd⟩, ?_, ?_⟩
    · cases prev with
      | none => exact Or.inl rfl
      | some p => exact Or.inr ⟨p, rfl, hp p rfl⟩
    · cases hl : T.getLast? with
      | none => exact Or.inl (List.getLast?_eq_none_iff.1 hl)
      | some t => exact Or.inr ⟨t, rfl, hT t hl⟩
  simp [lexStep, LexState.between, hs]

/-- The text of an operator token, between two tokens. -/
theorem lexLoop_operator (prev : Option Char) (T : List Token) (c : Char) (t : TokenType)
    (rest : List Char)
    (h : (c = '+' ∧ t = TokenType.ADD) ∨ (c = '*' ∧ t = TokenType.MUL)
      ∨ (c = '/' ∧ t = TokenType.DIV) ∨ (c = '-' ∧ t = TokenType.SUB)) :
    lexLoop prev (' ' :: c :: ' ' :: rest) (LexState.between T)
      = lexLoop (some ' ') rest (LexState.between (T ++ [make_token t 0])) := by
  have hc : lexStep (some ' ') c (some ' ') (LexState.between T)
      = Except.ok (LexState.between (T ++ [make_token t 0])) := by
    rcases h with ⟨rfl, rfl⟩ | ⟨rfl, rfl⟩ | ⟨rfl, rfl⟩ | ⟨rfl, rfl⟩
    · exact lexStep_close_between _ _ T '+' _ (Or.inl ⟨rfl, rfl⟩)
    · exact lexStep_close_between _ _ T '*' _ (Or.inr (Or.inl ⟨rfl, rfl⟩))
    · exact lexStep_close_between _ _ T '/' _ (Or.inr (Or.inr (Or.inl ⟨rfl, rfl⟩)))
    · exact lexStep_minus_between _ T
  rw [lexLoop, lexStep_space_between]
  simp only
  rw [lexLoop]
  simp only [List.head?_cons]
  rw [hc]
  simp only
  rw [lexLoop, lexStep_space_between]

/-- The text of an operator token, after the text of a number. -/
theorem lexLoop_operator_pending (prev : Option Char) (T : List Token) (c : Char)
    (t : TokenType) (rest : List Char) (number : List Char) (v : ℚ)
    (hne : number ≠ []) (hm : number ≠ ['-']) (hv : stod number = Except.ok v)
    (h : (c = '+' ∧ t = TokenType.ADD) ∨ (c = '*' ∧ t = TokenType.MUL)
      ∨ (c = '/' ∧ t = TokenType.DIV) ∨ (c = '-' ∧ t = TokenType.SUB)) :
    lexLoop prev (' ' :: c :: ' ' :: rest)
        { tokens := T, number := number, add_extra_paren := false, extra_paren_count := 0 }
      = lexLoop (some ' ') rest
          (LexState.between (T ++ [make_token TokenType.NUMBER v] ++ [make_token t 0])) := by
  have h1 := lexLoop_operator (some ' ') (T ++ [make_token TokenType.NUMBER v]) c t rest h
  rw [lexLoop, lexStep_space_between] at h1
  simp only at h1
  rw [lexLoop, lexStep_space_pending prev _ T number v hne hm hv]
  exact h1


/-- What a decimal text offers to `lex`. -/
theorem isDecimalText_facts (number : List Char) (v : ℚ)
    (h : isDecimalText number v = true) :
    stod number = Except.ok v ∧ number ≠ [] ∧ number ≠ ['-'] ∧
      ((∀ c ∈ number, c.isDigit = true ∨ c = '.') ∨
        (∃ d body, number = '-' :: d :: body ∧ d.isDigit = true ∧
          ∀ c ∈ d :: body, c.isDigit = true ∨ c = '.')) := by
  unfold isDecimalText at h
  simp only [Bool.and_eq_true, List.all_eq_true, Bool.or_eq_true, decide_eq_true_eq] at h
  obtain ⟨⟨⟨hhead, hall⟩, _⟩, hstod⟩ := h
  have hs : stod number = Except.ok v := by
    cases hst : stod number with
    | error f => rw [hst] at hstod; cases hstod
    | ok w =>
      rw [hst] at hstod
      simp only [decide_eq_true_eq] at hstod
      rw [hstod]
  refine ⟨hs, ?_⟩
  by_cases hm : number.head? = some '-'
  · simp only [if_pos hm] at hhead hall
    cases number with
    | nil => simp at hm
    | cons c body =>
      simp only [List.head?_cons, Option.some.injEq] at hm
      subst hm
      simp only [List.tail_cons] at hhead hall
      cases body with
      | nil => simp at hhead
      | cons d body =>
        simp only [List.head?_cons] at hhead
        exact ⟨by simp, by simp, Or.inr ⟨d, body, rfl, hhead, hall⟩⟩
  · simp only [if_neg hm] at hhead hall
    cases number with
    | nil => simp at hhead
    | cons c body =>
      refine ⟨by simp, ?_, Or.inl hall⟩
      intro heq
      simp only [List.cons.injEq] at heq
      rw [heq.1] at hm
      exact hm rfl

/-- The text of a number, between two tokens: `lex` takes it into its
buffer. -/
theorem lexLoop_number_text (prev : Option Char) (T : List Token) (number : List Char)
    (v : ℚ) (rest : List Char) (h : isDecimalText number v = true)
    (hp : ∀ p, prev = some p → p.isDigit = false)
    (hT : ∀ t, T.getLast? = some t → t.type ≠ TokenType.NUMBER) :
    ∃ prev1, lexLoop prev (number ++ rest) (LexState.between T)
      = lexLoop prev1 rest
          { tokens := T, number := number, add_extra_paren := false,
            extra_paren_count := 0 } := by
  obtain ⟨_, _, _, hc⟩ := isDecimalText_facts number v h
  rcases hc with hall | ⟨d, body, rfl, hd, hall⟩
  · refine ⟨number.getLast?.or prev, ?_⟩
    rw [lexLoop_number_chars number prev rest _ hall]
    simp [LexState.between]
  · refine ⟨(d :: body).getLast?.or (some '-'), ?_⟩
    rw [List.cons_append, lexLoop]
    simp only [List.cons_append, List.head?_cons]
    rw [lexStep_sign_between prev d T hd hp hT]
    simp only
    rw [← List.cons_append, lexLoop_number_chars (d :: body) (some '-') rest _ hall]
    simp

theorem separated_tail (t : Token) (ts : List Token) (h : separated (t :: ts) = true) :
    separated ts = true := by
  cases ts with
  | nil => rfl
  | cons u rest =>
    simp only [separated, Bool.and_eq_true] at h
    exact h.2

theorem separated_head (t u : Token) (ts : List Token) (h : separated (t :: u :: ts) = true)
    (ht : t.type = TokenType.NUMBER) :
    u.type ≠ TokenType.NUMBER ∧ u.type ≠ TokenType.LEFT_PAREN := by
  simp only [separated, Bool.and_eq_true, Bool.not_eq_true', Bool.and_eq_false_iff,
    Bool.or_eq_false_iff, decide_eq_false_iff_not, decide_eq_true_eq] at h
  rcases h.1 with h1 | h1
  · exact absurd ht h1
  · exact h1


/-- The text of a token that is not a number, between two tokens. -/
theorem lexLoop_token_between (prev : Option Char) (T : List Token)
    (t : Token) (rest : List Char) (ht : t.type ≠ TokenType.NUMBER) (hv : t.value = 0) :
    ∃ c, c.isDigit = false ∧
      lexLoop prev (printToken t ++ rest) (LexState.between T)
        = lexLoop (some c) rest (LexState.between (T ++ [t])) := by
  cases t with
  | mk ty val =>
    simp only at hv ht
    subst hv
    cases ty with
    | NUMBER => exact absurd rfl ht
    | MUL =>
      exact ⟨' ', by decide, lexLoop_operator prev T '*' TokenType.MUL rest
        (Or.inr (Or.inl ⟨rfl, rfl⟩))⟩
    | DIV =>
      exact ⟨' ', by decide, lexLoop_operator prev T '/' TokenType.DIV rest
        (Or.inr (Or.inr (Or.inl ⟨rfl, rfl⟩)))⟩
    | ADD =>
      exact ⟨' ', by decide, lexLoop_operator prev T '+' TokenType.ADD rest
        (Or.inl ⟨rfl, rfl⟩)⟩
    | SUB =>
      exact ⟨' ', by decide, lexLoop_operator prev T '-' TokenType.SUB rest
        (Or.inr (Or.inr (Or.inr ⟨rfl, rfl⟩)))⟩
    | LEFT_PAREN =>
      refine ⟨'(', by decide, ?_⟩
      simp only [printToken, List.cons_append, List.nil_append]
      rw [lexLoop, lexStep_open_between]
      rfl
    | RIGHT_PAREN =>
      refine ⟨')', by decide, ?_⟩
      simp only [printToken, List.cons_append, List.nil_append]
      rw [lexLoop, lexStep_close_between _ _ T ')' TokenType.RIGHT_PAREN
        (Or.inr (Or.inr (Or.inr ⟨rfl, rfl⟩)))]
      rfl

/-- The text of a token that is not a number or a `LEFT_PAREN`, after the text
of a number. -/
theorem lexLoop_token_pending (prev : Option Char) (T : List Token)
    (t : Token) (rest : List Char) (number : List Char) (v : ℚ)
    (hne : number ≠ []) (hm : number ≠ ['-']) (hs : stod number = Except.ok v)
    (ht : t.type ≠ TokenType.NUMBER) (hl : t.type ≠ TokenType.LEFT_PAREN)
    (hv : t.value = 0) :
    ∃ c, c.isDigit = false ∧
      lexLoop prev (printToken t ++ rest)
          { tokens := T, number := number, add_extra_paren := false,
            extra_paren_count := 0 }
        = lexLoop (some c) rest
            (LexState.between (T ++ [make_token TokenType.NUMBER v] ++ [t])) := by
  cases t with
  | mk ty val =>
    simp only at hv ht hl
    subst hv
    cases ty with
    | NUMBER => exact absurd rfl ht
    | LEFT_PAREN => exact absurd rfl hl
    | MUL =>
      exact ⟨' ', by decide, lexLoop_operator_pending prev T '*' TokenType.MUL rest number v
        hne hm hs (Or.inr (Or.inl ⟨rfl, rfl⟩))⟩
    | DIV =>
      exact ⟨' ', by decide, lexLoop_operator_pending prev T '/' TokenType.DIV rest number v
        hne hm hs (Or.inr (Or.inr (Or.inl ⟨rfl, rfl⟩)))⟩
    | ADD =>
      exact ⟨' ', by decide, lexLoop_operator_pending prev T '+' TokenType.ADD rest number v
        hne hm hs (Or.inl ⟨rfl, rfl⟩)⟩
    | SUB =>
      exact ⟨' ', by decide, lexLoop_operator_pending prev T '-' TokenType.SUB rest number v
        hne hm hs (Or.inr (Or.inr (Or.inr ⟨rfl, rfl⟩)))⟩
    | RIGHT_PAREN =>
      refine ⟨')', by decide, ?_⟩
      simp only [printToken, List.cons_append, List.nil_append]
      rw [lexLoop, lexStep_close_pending _ _ T number v hne hm hs]
      rfl

/-- Reading the printed tokens again, from a state between two tokens and from
a state with a number in the buffer. -/
theorem lexFrom_printTokens :
    ∀ ts : List Token,
      (∀ t ∈ ts, t.type ≠ TokenType.NUMBER → t.value = 0) →
      separated ts = true →
      (∀ t ∈ ts, t.type = TokenType.NUMBER → printsInFull t.value = true) →
      (∀ (T : List Token) (prev : Option Char),
        (∀ p, prev = some p → p.isDigit = false) →
        (∀ t, T.getLast? = some t → t.type ≠ TokenType.NUMBER) →
        lexFrom prev (printTokens ts) (LexState.between T) = Except.ok (T ++ ts)) ∧
      (∀ (T : List Token) (prev : Option Char) (number : List Char) (v : ℚ),
        number ≠ [] → number ≠ ['-'] → stod number = Except.ok v →
        (∀ u, ts.head? = some u →
          u.type ≠ TokenType.NUMBER ∧ u.type ≠ TokenType.LEFT_PAREN) →
        lexFrom prev (printTokens ts)
            { tokens := T, number := number, add_extra_paren := false,
              extra_paren_count := 0 }
          = Except.ok (T ++ make_token TokenType.NUMBER v :: ts)) := by
  intro ts
  induction ts with
  | nil =>
    intro _ _ _
    refine ⟨?_, ?_⟩
    · intro T prev _ _
      simp [lexFrom, printTokens, lexLoop, lexEnd, LexState.between]
    · intro T prev number v hne _ hs _
      simp [lexFrom, printTokens, lexLoop, lexEnd, hne, hs]
  | cons t rest ih =>
    intro hval hsep hgood
    obtain ⟨ihP, ihQ⟩ := ih (fun u hu => hval u (List.mem_cons_of_mem _ hu))
      (separated_tail t rest hsep) (fun u hu => hgood u (List.mem_cons_of_mem _ hu))
    have hlast : ∀ (T : List Token) (u : Token), u.type ≠ TokenType.NUMBER →
        ∀ w, (T ++ [u]).getLast? = some w → w.type ≠ TokenType.NUMBER := by
      intro T u hu w hw
      rw [List.getLast?_append_of_ne_nil _ (by simp)] at hw
      simp only [List.getLast?_singleton, Option.some.injEq] at hw
      rw [← hw]; exact hu
    refine ⟨?_, ?_⟩
    · intro T prev hp hT
      by_cases ht : t.type = TokenType.NUMBER
      · have hg := hgood t (List.mem_cons_self _ _) ht
        obtain ⟨prev1, hl⟩ := lexLoop_number_text prev T (printDouble t.value) t.value
          (printTokens rest) hg hp hT
        obtain ⟨hs, hne, hm, _⟩ := isDecimalText_facts _ _ hg
        have hhead : ∀ u, rest.head? = some u →
            u.type ≠ TokenType.NUMBER ∧ u.type ≠ TokenType.LEFT_PAREN := by
          intro u hu
          cases rest with
          | nil => simp at hu
          | cons u1 r =>
            simp only [List.head?_cons, Option.some.injEq] at hu
            subst hu
            exact separated_head t u1 r hsep ht
        have hq := ihQ T prev1 (printDouble t.value) t.value hne hm hs hhead
        have htok : make_token TokenType.NUMBER t.value = t := by
          cases t with
          | mk ty val =>
            simp only at ht
            subst ht
            rfl
        rw [htok] at hq
        have hprint : printTokens (t :: rest) = printDouble t.value ++ printTokens rest := by
          simp only [printTokens, printToken, ht]
        rw [hprint]
        unfold lexFrom
        rw [hl]
        exact hq
      · obtain ⟨c, hc, hl⟩ := lexLoop_token_between prev T t (printTokens rest) ht
          (hval t (List.mem_cons_self _ _) ht)
        have hp1 := ihP (T ++ [t]) (some c)
          (by intro p hp0; simp only [Option.some.injEq] at hp0; rw [← hp0]; exact hc)
          (hlast T t ht)
        rw [List.append_assoc, List.singleton_append] at hp1
        unfold lexFrom
        rw [printTokens, hl]
        exact hp1
    · intro T prev number v hne hm hs hhead
      obtain ⟨ht, hlp⟩ := hhead t rfl
      obtain ⟨c, hc, hl⟩ := lexLoop_token_pending prev T t (printTokens rest)
        number v hne hm hs ht hlp (hval t (List.mem_cons_self _ _) ht)
      have hp1 := ihP (T ++ [make_token TokenType.NUMBER v] ++ [t]) (some c)
        (by intro p hp0; simp only [Option.some.injEq] at hp0; rw [← hp0]; exact hc)
        (hlast _ t ht)
      have hjoin : T ++ [make_token TokenType.NUMBER v] ++ [t] ++ rest
          = T ++ make_token TokenType.NUMBER v :: t :: rest := by
        simp
      rw [hjoin] at hp1
      unfold lexFrom
      rw [printTokens, hl]
      exact hp1


/-- Counterexample to C15: on the input `1 2` the function `lex` returns the
two tokens `1` and `2`, with no parenthesis at all; their printed forms one
after the other are the text `12`, and `lex` reads that text as the single
token `12`. -/
theorem lex_printed_numbers_merge :
    lex "1 2" = Except.ok [make_token TokenType.NUMBER 1, make_token TokenType.NUMBER 2]
    ∧ String.mk (printTokens [make_token TokenType.NUMBER 1, make_token TokenType.NUMBER 2])
        = "12"
    ∧ lex "12" = Except.ok [make_token TokenType.NUMBER 12]
    ∧ lex (String.mk (printTokens
          [make_token TokenType.NUMBER 1, make_token TokenType.NUMBER 2]))
        ≠ lex "1 2" := by
  decide

/-- C15, amended: printing the tokens and reading them again.  For every input
on which `lex` returns tokens among which no number is directly followed by a
number or by a `LEFT_PAREN`, and whose numbers the stream writes in full (the
text that `operator<<` writes for the value, with its six significant digits,
is a plain decimal text that `std::stod` reads back as the same value), the
printed forms of the tokens one after the other are a text on which `lex`
returns the same tokens.  Every integer of magnitude below `10 ^ 6` is written
in full, so the property holds for every such input whose numbers are integers
of magnitude below `10 ^ 6`.  The parentheses that the division quirk inserts
do not matter: the tokens of `6/2(3)` are printed as `6 / (2 * (3))` and read
again as the same tokens.  When a number is directly followed by a
`LEFT_PAREN`, as in the tokens of `2 (3)`, the text read again has one more
`MUL` token; and the number 1000000 is not written in full: the tokens of
`1000000*3` are printed as `1e+06 * 3`, on which `lex` ends in its assertion. -/
theorem lex_printed_tokens :
    (∀ (s : String) (ts : List Token),
      lex s = Except.ok ts → separated ts = true →
      (∀ t ∈ ts, t.type = TokenType.NUMBER → printsInFull t.value = true) →
      lex (String.mk (printTokens ts)) = Except.ok ts)
    ∧ (∀ z : Int, z.natAbs < 1000000 → printsInFull (z : ℚ) = true)
    ∧ (∀ (s : String) (ts : List Token),
      lex s = Except.ok ts → separated ts = true →
      (∀ t ∈ ts, t.type = TokenType.NUMBER →
        ∃ z : Int, z.natAbs < 1000000 ∧ t.value = (z : ℚ)) →
      lex (String.mk (printTokens ts)) = Except.ok ts)
    ∧ lex "6/2(3)" = Except.ok
        [make_token TokenType.NUMBER 6, make_token TokenType.DIV 0,
         make_token TokenType.LEFT_PAREN 0, make_token TokenType.NUMBER 2,
         make_token TokenType.MUL 0, make_token TokenType.LEFT_PAREN 0,
         make_token TokenType.NUMBER 3, make_token TokenType.RIGHT_PAREN 0,
         make_token TokenType.RIGHT_PAREN 0]
    ∧ String.mk (printTokens
        [make_token TokenType.NUMBER 6, make_token TokenType.DIV 0,
         make_token TokenType.LEFT_PAREN 0, make_token TokenType.NUMBER 2,
         make_token TokenType.MUL 0, make_token TokenType.LEFT_PAREN 0,
         make_token TokenType.NUMBER 3, make_token TokenType.RIGHT_PAREN 0,
         make_token TokenType.RIGHT_PAREN 0]) = "6 / (2 * (3))"
    ∧ lex "6 / (2 * (3))" = lex "6/2(3)"
    ∧ lex "2 (3)" = Except.ok
        [make_token TokenType.NUMBER 2, make_token TokenType.LEFT_PAREN 0,
         make_token TokenType.NUMBER 3, make_token TokenType.RIGHT_PAREN 0]
    ∧ String.mk (printTokens
        [make_token TokenType.NUMBER 2, make_token TokenType.LEFT_PAREN 0,
         make_token TokenType.NUMBER 3, make_token TokenType.RIGHT_PAREN 0]) = "2(3)"
    ∧ lex "2(3)" = Except.ok
        [make_token TokenType.NUMBER 2, make_token TokenType.MUL 0,
         make_token TokenType.LEFT_PAREN 0, make_token TokenType.NUMBER 3,
         make_token TokenType.RIGHT_PAREN 0]
    ∧ lex "1000000*3" = Except.ok
        [make_token TokenType.NUMBER 1000000, make_token TokenType.MUL 0,
         make_token TokenType.NUMBER 3]
    ∧ separated [make_token TokenType.NUMBER 1000000, make_token TokenType.MUL 0,
         make_token TokenType.NUMBER 3] = true
    ∧ printsInFull 1000000 = false
    ∧ String.mk (printTokens
        [make_token TokenType.NUMBER 1000000, make_token TokenType.MUL 0,
         make_token TokenType.NUMBER 3]) = "1e+06 * 3"
    ∧ lex "1e+06 * 3" = Except.error Failure.assertion := by
  have key : ∀ (s : String) (ts : List Token),
      lex s = Except.ok ts → separated ts = true →
      (∀ t ∈ ts, t.type = TokenType.NUMBER → printsInFull t.value = true) →
      lex (String.mk (printTokens ts)) = Except.ok ts := by
    intro s ts hl hsep hgood
    have h := (lexFrom_printTokens ts (lex_values s ts hl) hsep hgood).1 [] none
      (by intro p hp; cases hp) (by intro t ht; simp at ht)
    rw [List.nil_append] at h
    exact h
  refine ⟨key, printsInFull_int, ?_, by decide, by decide, by decide, by decide, by decide,
    by decide, by decide, by decide, by decide, by decide, by decide⟩
  intro s ts hl hsep hint
  apply key s ts hl hsep
  intro t ht htn
  obtain ⟨z, hz, hv⟩ := hint t ht htn
  rw [hv]
  exact printsInFull_int z hz

/-- The property C15 at the input `-1.5*(2+3) - -4`. -/
theorem lex_printed_tokens_witness :
    lex "-1.5*(2+3) - -4" = Except.ok
        [make_token TokenType.NUMBER (mkRat (-15) 10), make_token TokenType.MUL 0,
         make_token TokenType.LEFT_PAREN 0, make_token TokenType.NUMBER 2,
         make_token TokenType.ADD 0, make_token TokenType.NUMBER 3,
         make_token TokenType.RIGHT_PAREN 0, make_token TokenType.SUB 0,
         make_token TokenType.NUMBER (-4)]
    ∧ String.mk (printTokens
        [make_token TokenType.NUMBER (mkRat (-15) 10), make_token TokenType.MUL 0,
         make_token TokenType.LEFT_PAREN 0, make_token TokenType.NUMBER 2,
         make_token TokenType.ADD 0, make_token TokenType.NUMBER 3,
         make_token TokenType.RIGHT_PAREN 0, make_token TokenType.SUB 0,
         make_token TokenType.NUMBER (-4)]) = "-1.5 * (2 + 3) - -4"
    ∧ lex (String.mk (printTokens
        [make_token TokenType.NUMBER (mkRat (-15) 10), make_token TokenType.MUL 0,
         make_token TokenType.LEFT_PAREN 0, make_token TokenType.NUMBER 2,
         make_token TokenType.ADD 0, make_token TokenType.NUMBER 3,
         make_token TokenType.RIGHT_PAREN 0, make_token TokenType.SUB 0,
         make_token TokenType.NUMBER (-4)])) = Except.ok
        [make_token TokenType.NUMBER (mkRat (-15) 10), make_token TokenType.MUL 0,
         make_token TokenType.LEFT_PAREN 0, make_token TokenType.NUMBER 2,
         make_token TokenType.ADD 0, make_token TokenType.NUMBER 3,
         make_token TokenType.RIGHT_PAREN 0, make_token TokenType.SUB 0,
         make_token TokenType.NUMBER (-4)] :=
  ⟨by decide, by decide,
   lex_printed_tokens.1 "-1.5*(2+3) - -4" _ (by decide) (by decide) (by decide)⟩

end EvalMathExpr
